import Mathlib

/-!
# btllib: the ntHash iterators of `nthash.hpp` and the string helpers of `util.cpp`

A shallow embedding of the iterator classes of `include/btllib/nthash.hpp` and of string
helpers of `src/btllib/util.cpp`, and the properties proved about them.

* Machine integers are natural numbers; every place where the C++ arithmetic is done in
  `size_t` (64 bit) or `unsigned` (32 bit) is reduced explicitly.
* A sequence buffer is a list of characters. Reading an index outside the list yields NUL,
  the terminator that follows the characters of a C string.
* The low-level hashing routines of `nthash_lowlevel.hpp` (`ntmc64`, `ntmc64l`, the table
  `SEED_TAB` and the marker `SEED_N`) are not part of the sources at hand. They are taken as
  a parameter `LowLevel`; what a theorem needs from them is a hypothesis of that theorem.
* The scan loop of `init()` is run with fuel; `none` stands for a loop that did not finish.
* The spaced-seed routines `parse_seeds` and `parsed_seeds_to_blocks` work on lists of
  characters and lists of numbers; the vector types they use are declared in the absent
  `nthash_lowlevel.hpp` and are read off their uses.
* `sub_hash` and the masked routines `ntmsm64` and `ntmsm64l` of the same absent header are
  parameters too (`SubHash`, `SeedLowLevel`). `SeedNtHash` runs the control flow of `NtHash`
  on its member `nthash` and keeps four per-seed arrays next to it.
* The functions `split`, `join`, `startswith`, `endswith` and `get_dirname` of
  `src/btllib/util.cpp` work on lists of characters. The members of `std::string` they call
  (`find`, `rfind`, `find_last_of`, `substr`, `resize`) are written out after their
  description in the C++ standard; `std::string::npos` is `none`.
-/

namespace btllib

/-! ## Machine integers -/

/-- Value of `std::numeric_limits<std::size_t>::max()`. -/
def SIZE_MAX : Nat := 2 ^ 64 - 1

/-- Reduction to the range of `size_t`. -/
def sz (n : Nat) : Nat := n % 2 ^ 64

/-- Subtraction in `size_t`, wrapping around below zero. -/
def szSub (a b : Nat) : Nat := (a % 2 ^ 64 + 2 ^ 64 - b % 2 ^ 64) % 2 ^ 64

/-- Reduction to the range of `unsigned`. -/
def u32 (n : Nat) : Nat := n % 2 ^ 32

/-- Largest value of `NTHASH_HASH_NUM_TYPE`, which is `uint8_t`. -/
def NTHASH_HASH_NUM_MAX : Nat := 255

/-- Largest value of `NTHASH_K_TYPE`, which is `uint16_t`. -/
def NTHASH_K_MAX : Nat := 65535

/-! ## Status reporting -/

/-- Modelled from the spec: `check_error` of `status.hpp`, a header that is not among the
sources. A true condition is a fatal error carrying the message; a false one lets the
caller go on. -/
def check_error (condition : Bool) (msg : String) : Except String Unit :=
  if condition then Except.error msg else Except.ok ()

/-- Modelled from the spec: `check_warning` of `status.hpp`, a header that is not among the
sources. A true condition emits the advisory message; the caller goes on in either case. The
result is the list of messages emitted. -/
def check_warning (condition : Bool) (msg : String) : List String :=
  if condition then [msg] else []

/-! ## Buffers -/

/-- The NUL character. -/
def nul : Char := Char.ofNat 0

/-- The read `seq[i]`. -/
def seqAt (seq : List Char) (i : Nat) : Char := seq.getD i nul

/-- The `k` characters a routine reads through the pointer `seq + pos`. -/
def window (seq : List Char) (pos k : Nat) : List Char :=
  (List.range k).map (fun i => seqAt seq (pos + i))

/-! ## The low-level routines -/

/-- Outcome of the window-initialising overload of `ntmc64`. `ok` stands for the return value
`true`, with the two accumulators and the derived hashes written to `h_val`. `invalid` stands
for the return value `false`, with the value left in `posN` and whatever the call left in the
two accumulators; a failing call is taken not to write `h_val`. -/
inductive InitResult where
  | ok (fh rh : Nat) (hashes : List Nat)
  | invalid (posN fh rh : Nat)
deriving Repr, DecidableEq

/-- The routines of `nthash_lowlevel.hpp` used by the iterators.

* `ntmc64_init w k m` is `ntmc64(kmer_seq, k, m, fh, rh, posN, h_val)` on the window `w`
  of `k` symbols found at `kmer_seq`; what it leaves in its output arguments is taken to
  depend on the window, `k` and `m` only.
* `ntmc64 out inc k m fh rh` is `ntmc64(char_out, char_in, k, m, fh, rh, h_val)`, giving the
  new accumulators and the derived hashes.
* `ntmc64l` is the same shape for the backward shift. -/
structure LowLevel where
  SEED_TAB : Char → Nat
  SEED_N : Nat
  ntmc64_init : List Char → Nat → Nat → InitResult
  ntmc64 : Char → Char → Nat → Nat → Nat → Nat → Nat × Nat × List Nat
  ntmc64l : Char → Char → Nat → Nat → Nat → Nat → Nat × Nat × List Nat

/-- The window of length `k` starting at `q` holds no symbol marked `SEED_N`. -/
def validWindow (L : LowLevel) (seq : List Char) (q k : Nat) : Prop :=
  ∀ i, i < k → L.SEED_TAB (seqAt seq (q + i)) ≠ L.SEED_N

instance (L : LowLevel) (seq : List Char) (q k : Nat) : Decidable (validWindow L seq q k) :=
  inferInstanceAs (Decidable (∀ i, i < k → L.SEED_TAB (seqAt seq (q + i)) ≠ L.SEED_N))

/-! ## NtHash -/

/-- Data members of `class NtHash`. -/
structure NtHash where
  seq : List Char
  seq_len : Nat
  hash_num : Nat
  k : Nat
  pos : Nat
  initialized : Bool
  hashes_array : List Nat
  forward_hash : Nat
  reverse_hash : Nat
deriving Repr, DecidableEq

/-- `NtHash::NtHash(const char*, size_t, unsigned, unsigned, size_t)`: the member
initialisers, the two fatal checks and the advisory check. The result carries the advisory
messages emitted. The members `hash_num` and `k` are narrowed to their 8 and 16 bit types.
The cells of the new `hashes_array` hold no defined value in C++; they are shown as 0. -/
def NtHash.new (seq : List Char) (seq_len hash_num k pos : Nat) :
    Except String (NtHash × List String) := do
  check_error (decide (k > NTHASH_K_MAX))
    ("NtHash: passed k value (" ++ toString k ++ ") is larger than allowed (" ++
      toString NTHASH_K_MAX ++ ").")
  check_error (decide (hash_num > NTHASH_HASH_NUM_MAX))
    ("NtHash: passed number of hashes (" ++ toString hash_num ++
      ") is larger than allowed (" ++ toString NTHASH_HASH_NUM_MAX ++ ").")
  let warnings := check_warning (decide (hash_num ≥ k))
    ("NtHash: using " ++ toString hash_num ++ " hash functions and k size of " ++
      toString k ++ ". Did you permute the parameters?")
  pure ({ seq := seq, seq_len := seq_len, hash_num := hash_num % 2 ^ 8, k := k % 2 ^ 16,
          pos := pos, initialized := false, hashes_array := List.replicate hash_num 0,
          forward_hash := 0, reverse_hash := 0 }, warnings)

/-- `NtHash::NtHash(const std::string&, unsigned, unsigned, size_t)`. -/
def NtHash.newStr (seq : List Char) (hash_num k pos : Nat) :
    Except String (NtHash × List String) :=
  NtHash.new seq seq.length hash_num k pos

/-- `NtHash::get_pos`. -/
def NtHash.get_pos (s : NtHash) : Nat := s.pos

/-- `NtHash::get_k`. -/
def NtHash.get_k (s : NtHash) : Nat := s.k

/-- `NtHash::get_hash_num`. -/
def NtHash.get_hash_num (s : NtHash) : Nat := s.hash_num

/-- `NtHash::get_forward_hash`. -/
def NtHash.get_forward_hash (s : NtHash) : Nat := s.forward_hash

/-- `NtHash::get_reverse_hash`. -/
def NtHash.get_reverse_hash (s : NtHash) : Nat := s.reverse_hash

/-- `NtHash::hashes`. -/
def NtHash.hashes (s : NtHash) : List Nat := s.hashes_array

/-- `NtHash::forward`. -/
def NtHash.forward (s : NtHash) : Bool := decide (s.forward_hash ≤ s.reverse_hash)

/-- `NtHash::change_seq`. -/
def NtHash.change_seq (s : NtHash) (new_seq : List Char) (new_pos : Nat) : NtHash :=
  { s with seq := new_seq, seq_len := new_seq.length, pos := new_pos, initialized := false,
           forward_hash := 0, reverse_hash := 0 }

/-- The `while` loop of `BTLLIB_NTHASH_INIT` for `NtHash`: as long as `pos` is below
`seq_len - k + 1` and `ntmc64` fails, `pos` moves on by `posN + 1`. -/
def NtHash.init_loop (L : LowLevel) : Nat → NtHash → Option NtHash
  | 0, _ => none
  | fuel + 1, s =>
    if s.pos < sz (szSub s.seq_len s.k + 1) then
      match L.ntmc64_init (window s.seq s.pos s.k) s.k s.hash_num with
      | InitResult.ok fh rh hs =>
        some { s with forward_hash := fh, reverse_hash := rh, hashes_array := hs }
      | InitResult.invalid posN fh rh =>
        NtHash.init_loop L fuel { s with pos := sz (s.pos + u32 (posN + 1)),
                                         forward_hash := fh, reverse_hash := rh }
    else some s

/-- `NtHash::init`, expanded from `BTLLIB_NTHASH_INIT`. The loop gets `seq_len + 2` rounds,
which is more than the number of window starts. -/
def NtHash.init (L : LowLevel) (s : NtHash) : Option (Bool × NtHash) :=
  if s.k > s.seq_len then some (false, { s with pos := SIZE_MAX })
  else
    match NtHash.init_loop L (s.seq_len + 2) s with
    | none => none
    | some t =>
      if t.pos > szSub t.seq_len t.k then some (false, { t with pos := SIZE_MAX })
      else some (true, { t with initialized := true })

/-- `NtHash::roll`, expanded from `BTLLIB_NTHASH_ROLL`. -/
def NtHash.roll (L : LowLevel) (s : NtHash) : Option (Bool × NtHash) :=
  if !s.initialized then NtHash.init L s
  else if s.pos ≥ szSub s.seq_len s.k then some (false, s)
  else if L.SEED_TAB (seqAt s.seq (sz (s.pos + s.k))) = L.SEED_N then
    NtHash.init L { s with pos := sz (s.pos + s.k) }
  else
    match L.ntmc64 (seqAt s.seq s.pos) (seqAt s.seq (sz (s.pos + s.k))) s.k s.hash_num
        s.forward_hash s.reverse_hash with
    | (fh, rh, hs) =>
      some (true, { s with forward_hash := fh, reverse_hash := rh, hashes_array := hs,
                           pos := sz (s.pos + 1) })

/-- `NtHash::roll_back`, expanded from `BTLLIB_NTHASH_ROLL_BACK`. -/
def NtHash.roll_back (L : LowLevel) (s : NtHash) : Option (Bool × NtHash) :=
  if !s.initialized then NtHash.init L s
  else if s.pos ≤ 0 then some (false, s)
  else if L.SEED_TAB (seqAt s.seq (szSub s.pos 1)) = L.SEED_N then
    NtHash.init L { s with pos := szSub s.pos s.k }
  else
    match L.ntmc64l (seqAt s.seq (szSub (sz (s.pos + s.k)) 1)) (seqAt s.seq (szSub s.pos 1))
        s.k s.hash_num s.forward_hash s.reverse_hash with
    | (fh, rh, hs) =>
      some (true, { s with forward_hash := fh, reverse_hash := rh, hashes_array := hs,
                           pos := szSub s.pos 1 })

/-- `NtHash::peek()`, expanded from `BTLLIB_NTHASH_PEEK`: the shift runs on copies of the two
accumulators and writes the derived hashes into `hashes_array`. -/
def NtHash.peek (L : LowLevel) (s : NtHash) : Option (Bool × NtHash) :=
  if !s.initialized then NtHash.init L s
  else
    match L.ntmc64 (seqAt s.seq s.pos) (seqAt s.seq (sz (s.pos + s.k))) s.k s.hash_num
        s.forward_hash s.reverse_hash with
    | (_, _, hs) => some (true, { s with hashes_array := hs })

/-- `NtHash::peek(char char_in)`. -/
def NtHash.peek_char (L : LowLevel) (s : NtHash) (char_in : Char) : Option (Bool × NtHash) :=
  if !s.initialized then NtHash.init L s
  else
    match L.ntmc64 (seqAt s.seq s.pos) char_in s.k s.hash_num
        s.forward_hash s.reverse_hash with
    | (_, _, hs) => some (true, { s with hashes_array := hs })

/-- `NtHash::peek_back()`. -/
def NtHash.peek_back (L : LowLevel) (s : NtHash) : Option (Bool × NtHash) :=
  if !s.initialized then NtHash.init L s
  else
    match L.ntmc64l (seqAt s.seq (szSub (sz (s.pos + s.k)) 1)) (seqAt s.seq (szSub s.pos 1))
        s.k s.hash_num s.forward_hash s.reverse_hash with
    | (_, _, hs) => some (true, { s with hashes_array := hs })

/-- `NtHash::peek_back(char char_in)`. -/
def NtHash.peek_back_char (L : LowLevel) (s : NtHash) (char_in : Char) :
    Option (Bool × NtHash) :=
  if !s.initialized then NtHash.init L s
  else
    match L.ntmc64l (seqAt s.seq (szSub (sz (s.pos + s.k)) 1)) char_in s.k s.hash_num
        s.forward_hash s.reverse_hash with
    | (_, _, hs) => some (true, { s with hashes_array := hs })

/-! ## BlindNtHash -/

/-- Data members of `class BlindNtHash`; `seq` is the privately owned buffer. -/
structure BlindNtHash where
  seq : List Char
  seq_len : Nat
  hash_num : Nat
  k : Nat
  pos : Nat
  initialized : Bool
  hashes_array : List Nat
  forward_hash : Nat
  reverse_hash : Nat
deriving Repr, DecidableEq

/-- `BlindNtHash::BlindNtHash(const char*, size_t, unsigned, unsigned, size_t)`: the three
fatal checks in source order, the advisory check, and the copy of `seq_len` characters into
the private buffer. -/
def BlindNtHash.new (seq : List Char) (seq_len hash_num k pos : Nat) :
    Except String (BlindNtHash × List String) := do
  check_error (decide (k = seq_len))
    ("BlindNtHash: passed sequence length (" ++ toString seq_len ++
      ") is not equal to k (" ++ toString k ++ ").")
  check_error (decide (k > NTHASH_K_MAX))
    ("BlindNtHash: passed k value (" ++ toString k ++ ") is larger than allowed (" ++
      toString NTHASH_K_MAX ++ ").")
  check_error (decide (hash_num > NTHASH_HASH_NUM_MAX))
    ("BlindNtHash: passed number of hashes (" ++ toString hash_num ++
      ") is larger than allowed (" ++ toString NTHASH_HASH_NUM_MAX ++ ").")
  let warnings := check_warning (decide (hash_num ≥ k))
    ("BlindNtHash: using " ++ toString hash_num ++ " hash functions and k size of " ++
      toString k ++ ". Did you permute the parameters?")
  pure ({ seq := window seq 0 seq_len, seq_len := seq_len, hash_num := hash_num % 2 ^ 8,
          k := k % 2 ^ 16, pos := pos, initialized := false,
          hashes_array := List.replicate hash_num 0,
          forward_hash := 0, reverse_hash := 0 }, warnings)

/-- `BlindNtHash::BlindNtHash(const std::string&, unsigned, unsigned, size_t)`. -/
def BlindNtHash.newStr (seq : List Char) (hash_num k pos : Nat) :
    Except String (BlindNtHash × List String) :=
  BlindNtHash.new seq seq.length hash_num k pos

/-- `BlindNtHash::get_pos`. -/
def BlindNtHash.get_pos (s : BlindNtHash) : Nat := s.pos

/-- `BlindNtHash::get_k`. -/
def BlindNtHash.get_k (s : BlindNtHash) : Nat := s.k

/-- `BlindNtHash::get_hash_num`. -/
def BlindNtHash.get_hash_num (s : BlindNtHash) : Nat := s.hash_num

/-- `BlindNtHash::get_forward_hash`. -/
def BlindNtHash.get_forward_hash (s : BlindNtHash) : Nat := s.forward_hash

/-- `BlindNtHash::get_reverse_hash`. -/
def BlindNtHash.get_reverse_hash (s : BlindNtHash) : Nat := s.reverse_hash

/-- `BlindNtHash::forward`. -/
def BlindNtHash.forward (s : BlindNtHash) : Bool := decide (s.forward_hash ≤ s.reverse_hash)

/-- The `while` loop of `BTLLIB_NTHASH_INIT` for `BlindNtHash`. -/
def BlindNtHash.init_loop (L : LowLevel) : Nat → BlindNtHash → Option BlindNtHash
  | 0, _ => none
  | fuel + 1, s =>
    if s.pos < sz (szSub s.seq_len s.k + 1) then
      match L.ntmc64_init (window s.seq s.pos s.k) s.k s.hash_num with
      | InitResult.ok fh rh hs =>
        some { s with forward_hash := fh, reverse_hash := rh, hashes_array := hs }
      | InitResult.invalid posN fh rh =>
        BlindNtHash.init_loop L fuel { s with pos := sz (s.pos + u32 (posN + 1)),
                                              forward_hash := fh, reverse_hash := rh }
    else some s

/-- `BlindNtHash::init`, expanded from `BTLLIB_NTHASH_INIT`. -/
def BlindNtHash.init (L : LowLevel) (s : BlindNtHash) : Option (Bool × BlindNtHash) :=
  if s.k > s.seq_len then some (false, { s with pos := SIZE_MAX })
  else
    match BlindNtHash.init_loop L (s.seq_len + 2) s with
    | none => none
    | some t =>
      if t.pos > szSub t.seq_len t.k then some (false, { t with pos := SIZE_MAX })
      else some (true, { t with initialized := true })

/-- `BlindNtHash::roll(char char_in)`, expanded from `BTLLIB_NTHASH_ROLL`. -/
def BlindNtHash.roll (L : LowLevel) (s : BlindNtHash) (char_in : Char) :
    Option (Bool × BlindNtHash) :=
  if !s.initialized then BlindNtHash.init L s
  else if s.pos ≥ szSub s.seq_len s.k then some (false, s)
  else if L.SEED_TAB (seqAt s.seq (sz (s.pos + s.k))) = L.SEED_N then
    BlindNtHash.init L { s with pos := sz (s.pos + s.k) }
  else
    match L.ntmc64 (seqAt s.seq (s.pos % s.seq_len)) char_in s.k s.hash_num
        s.forward_hash s.reverse_hash with
    | (fh, rh, hs) =>
      some (true, { s with forward_hash := fh, reverse_hash := rh, hashes_array := hs,
                           seq := s.seq.set (s.pos % s.seq_len) char_in,
                           pos := sz (s.pos + 1) })

/-- `BlindNtHash::roll_back(char char_in)`, expanded from `BTLLIB_NTHASH_ROLL_BACK`. -/
def BlindNtHash.roll_back (L : LowLevel) (s : BlindNtHash) (char_in : Char) :
    Option (Bool × BlindNtHash) :=
  if !s.initialized then BlindNtHash.init L s
  else if s.pos ≤ 0 then some (false, s)
  else if L.SEED_TAB (seqAt s.seq (szSub s.pos 1)) = L.SEED_N then
    BlindNtHash.init L { s with pos := szSub s.pos s.k }
  else
    match L.ntmc64l (seqAt s.seq (szSub (sz (s.pos + s.k)) 1 % s.seq_len)) char_in
        s.k s.hash_num s.forward_hash s.reverse_hash with
    | (fh, rh, hs) =>
      some (true, { s with forward_hash := fh, reverse_hash := rh, hashes_array := hs,
                           seq := s.seq.set (szSub (sz (s.pos + s.k)) 1 % s.seq_len) char_in,
                           pos := szSub s.pos 1 })

/-- `BlindNtHash::peek(char char_in)`, expanded from `BTLLIB_NTHASH_PEEK`. -/
def BlindNtHash.peek (L : LowLevel) (s : BlindNtHash) (char_in : Char) :
    Option (Bool × BlindNtHash) :=
  if !s.initialized then BlindNtHash.init L s
  else
    match L.ntmc64 (seqAt s.seq (s.pos % s.seq_len)) char_in s.k s.hash_num
        s.forward_hash s.reverse_hash with
    | (_, _, hs) => some (true, { s with hashes_array := hs })

/-- `BlindNtHash::peek_back(char char_in)`, expanded from `BTLLIB_NTHASH_PEEK`. -/
def BlindNtHash.peek_back (L : LowLevel) (s : BlindNtHash) (char_in : Char) :
    Option (Bool × BlindNtHash) :=
  if !s.initialized then BlindNtHash.init L s
  else
    match L.ntmc64l (seqAt s.seq (szSub (sz (s.pos + s.k)) 1 % s.seq_len)) char_in
        s.k s.hash_num s.forward_hash s.reverse_hash with
    | (_, _, hs) => some (true, { s with hashes_array := hs })

/-- The members of an `NtHash` that no member function other than `change_seq` writes. -/
def NtHash.sameConfig (s t : NtHash) : Prop :=
  t.seq = s.seq ∧ t.seq_len = s.seq_len ∧ t.hash_num = s.hash_num ∧ t.k = s.k

/-- An initialised iterator standing on a window that lies inside the buffer and holds no
invalid symbol. -/
def NtHash.onValidWindow (L : LowLevel) (s : NtHash) : Prop :=
  s.initialized = true ∧ s.pos + s.k ≤ s.seq_len ∧ validWindow L s.seq s.pos s.k

/-- The two accumulators are the ones `ntmc64` computes from scratch on the current window. -/
def NtHash.accFromScratch (L : LowLevel) (s : NtHash) : Prop :=
  ∃ hs, L.ntmc64_init (window s.seq s.pos s.k) s.k s.hash_num =
    InitResult.ok s.forward_hash s.reverse_hash hs

/-- Both accumulators and the derived hashes are the ones `ntmc64` computes from scratch on
the current window. -/
def NtHash.fromScratch (L : LowLevel) (s : NtHash) : Prop :=
  L.ntmc64_init (window s.seq s.get_pos s.get_k) s.get_k s.get_hash_num =
    InitResult.ok s.get_forward_hash s.get_reverse_hash s.hashes

/-- The members that a peek is meant to leave alone: the position, the initialized flag and
the two accumulators agree in `s` and `t`. -/
def NtHash.sameCursor (s t : NtHash) : Prop :=
  t.get_pos = s.get_pos ∧ t.initialized = s.initialized ∧
    t.get_forward_hash = s.get_forward_hash ∧ t.get_reverse_hash = s.get_reverse_hash

/-- The same for a `BlindNtHash`. -/
def BlindNtHash.sameCursor (s t : BlindNtHash) : Prop :=
  t.get_pos = s.get_pos ∧ t.initialized = s.initialized ∧
    t.get_forward_hash = s.get_forward_hash ∧ t.get_reverse_hash = s.get_reverse_hash

/-- What holds of an iterator along a run of `roll()` calls: its members are in the range of
their types, and once initialised it either carries the sentinel position or stands on a
window inside the buffer with the accumulators `ntmc64` computes for that window. -/
def NtHash.rollInv (L : LowLevel) (s : NtHash) : Prop :=
  s.seq_len < 2 ^ 64 ∧ s.k < 2 ^ 16 ∧ 0 < s.k ∧ s.pos < 2 ^ 64 ∧
    (s.initialized = true →
      (s.pos = SIZE_MAX ∧ s.k ≤ s.seq_len) ∨ (s.pos + s.k ≤ s.seq_len ∧ s.accFromScratch L))

/-! ## Runs of `roll()` -/

/-- Calls `roll()` until it returns `false` and collects `get_pos()` after every call that
returned `true`. The first argument bounds the number of calls; `none` means that the bound was
reached, or that a call did not return. -/
def NtHash.rollPositions (L : LowLevel) : Nat → NtHash → Option (List Nat)
  | 0, _ => none
  | n + 1, s =>
    match NtHash.roll L s with
    | none => none
    | some (false, _) => some []
    | some (true, t) => (NtHash.rollPositions L n t).map (fun ps => t.get_pos :: ps)

/-- The state after `n` calls of `roll()`, with the value the last call returned. -/
def NtHash.rollN (L : LowLevel) : Nat → NtHash → Option (Bool × NtHash)
  | 0, s => some (true, s)
  | n + 1, s =>
    match NtHash.rollN L n s with
    | none => none
    | some (_, t) => NtHash.roll L t

/-! ## The contract of the low-level routines -/

/-- A symbol that `SEED_TAB` does not mark as `SEED_N`. -/
def LowLevel.validSym (L : LowLevel) (c : Char) : Prop := L.SEED_TAB c ≠ L.SEED_N

instance (L : LowLevel) (c : Char) : Decidable (L.validSym c) :=
  inferInstanceAs (Decidable (L.SEED_TAB c ≠ L.SEED_N))

/-- The hypothesis on the window-initialising `ntmc64`: on a window of `k` symbols it fails
exactly when the window holds an invalid symbol, and then reports the index of the last
invalid symbol of the window. -/
def InitContract (L : LowLevel) : Prop :=
  ∀ (w : List Char) (k m : Nat), w.length = k →
    match L.ntmc64_init w k m with
    | InitResult.ok _ _ _ => ∀ i, i < k → L.validSym (w.getD i nul)
    | InitResult.invalid posN _ _ =>
      posN < k ∧ ¬ L.validSym (w.getD posN nul) ∧
        ∀ j, posN < j → j < k → L.validSym (w.getD j nul)

/-- The hypothesis on the forward shift: applied to what `ntmc64` computes for a valid window
`a :: w`, with outgoing symbol `a` and a valid incoming symbol `c`, it yields what `ntmc64`
computes from scratch for `w ++ [c]`. -/
def ShiftContract (L : LowLevel) : Prop :=
  ∀ (a c : Char) (w : List Char) (k m fh rh : Nat) (hs : List Nat),
    (a :: w).length = k → L.validSym c →
    L.ntmc64_init (a :: w) k m = InitResult.ok fh rh hs →
    ∃ fh2 rh2 hs2, L.ntmc64 a c k m fh rh = (fh2, rh2, hs2) ∧
      L.ntmc64_init (w ++ [c]) k m = InitResult.ok fh2 rh2 hs2

/-- The hypothesis on the backward shift: called with the symbol that the forward shift took
in as outgoing symbol and the symbol that the forward shift dropped as incoming symbol, it
gives back the accumulators the forward shift started from. -/
def ShiftBackInverts (L : LowLevel) : Prop :=
  ∀ (a c : Char) (k m fh rh : Nat),
    (L.ntmc64l c a k m (L.ntmc64 a c k m fh rh).1 (L.ntmc64 a c k m fh rh).2.1).1 = fh ∧
    (L.ntmc64l c a k m (L.ntmc64 a c k m fh rh).1 (L.ntmc64 a c k m fh rh).2.1).2.1 = rh

/-! ## A small instance of the low-level routines -/

/-- Modelled from the spec: a stand-in for `SEED_TAB` (absent with `nthash_lowlevel.hpp`).
The four letters of the alphabet, in either case, carry a seed; every other symbol carries
the marker `0`. It is used to evaluate the iterators on concrete buffers. -/
def toySeed (c : Char) : Nat :=
  if c = 'A' ∨ c = 'a' then 1
  else if c = 'C' ∨ c = 'c' then 2
  else if c = 'G' ∨ c = 'g' then 4
  else if c = 'T' ∨ c = 't' then 8
  else 0

/-- Modelled from the spec: the seed of the complementary letter. -/
def toyComp (c : Char) : Nat :=
  if c = 'A' ∨ c = 'a' then 8
  else if c = 'C' ∨ c = 'c' then 4
  else if c = 'G' ∨ c = 'g' then 2
  else if c = 'T' ∨ c = 't' then 1
  else 0

/-- Modelled from the spec: search from index `n - 1` downwards for a symbol without seed. -/
def toyScan (w : List Char) : Nat → Option Nat
  | 0 => none
  | i + 1 => if toySeed (w.getD i nul) = 0 then some i else toyScan w i

/-- Modelled from the spec: the derived hashes, one per index, from the two accumulators. -/
def toyHashes (m fh rh : Nat) : List Nat :=
  (List.range m).map (fun i => ((fh + rh) * (i + 1)) % 2 ^ 64)

/-- Modelled from the spec: an accumulator of the stand-in, the exclusive-or of the seeds
that `f` gives to the symbols of the window. -/
def toyAcc (f : Char → Nat) (w : List Char) : Nat :=
  (w.map f).foldr (fun x y => x ^^^ y) 0

/-- Modelled from the spec: a stand-in for the routines of `nthash_lowlevel.hpp`, meeting the
call contract of the base primitive: initialisation fails on a window with an invalid symbol
and reports the index of the last one; the accumulators are the exclusive-or of the seeds of
the window, so that a shift removes one seed and adds another. It is not the ntHash function
and serves only to evaluate the iterators on concrete buffers. -/
def toyLowLevel : LowLevel where
  SEED_TAB := toySeed
  SEED_N := 0
  ntmc64_init := fun w k m =>
    match toyScan w k with
    | some i => InitResult.invalid i 0 0
    | none => InitResult.ok (toyAcc toySeed w) (toyAcc toyComp w)
        (toyHashes m (toyAcc toySeed w) (toyAcc toyComp w))
  ntmc64 := fun char_out char_in _ m fh rh =>
    (fh ^^^ toySeed char_out ^^^ toySeed char_in,
     rh ^^^ toyComp char_out ^^^ toyComp char_in,
     toyHashes m (fh ^^^ toySeed char_out ^^^ toySeed char_in)
       (rh ^^^ toyComp char_out ^^^ toyComp char_in))
  ntmc64l := fun char_out char_in _ m fh rh =>
    (fh ^^^ toySeed char_out ^^^ toySeed char_in,
     rh ^^^ toyComp char_out ^^^ toyComp char_in,
     toyHashes m (fh ^^^ toySeed char_out ^^^ toySeed char_in)
       (rh ^^^ toyComp char_out ^^^ toyComp char_in))

/-! ## Spaced seeds -/

/-- Modelled from the spec: `SpacedSeed`, a list of don't-care positions. The type is declared
in `nthash_lowlevel.hpp`, which is not among the sources; the uses in `nthash.hpp` show a
vector of `unsigned`. -/
abbrev SpacedSeed := List Nat

/-- Modelled from the spec: `SpacedSeedBlocks`, a list of half-open ranges, each a pair of
`unsigned` (declared in the absent `nthash_lowlevel.hpp`). -/
abbrev SpacedSeedBlocks := List (Nat × Nat)

/-- Modelled from the spec: `SpacedSeedMonomers`, a list of isolated positions (declared in
the absent `nthash_lowlevel.hpp`). -/
abbrev SpacedSeedMonomers := List Nat

/-- The inner loop of `parse_seeds(seed_strings)`: `pos` counts the characters seen, and the
position of every character other than `'1'` is pushed to `seed`. -/
def parse_seed_positions : List Char → Nat → SpacedSeed → SpacedSeed
  | [], _, seed => seed
  | c :: cs, pos, seed =>
    parse_seed_positions cs (sz (pos + 1)) (if c ≠ '1' then seed ++ [u32 pos] else seed)

/-- `parse_seeds(const std::vector<std::string>& seed_strings)`. -/
def parse_seeds (seed_strings : List (List Char)) : List SpacedSeed :=
  seed_strings.map (fun seed_string => parse_seed_positions seed_string 0 [])

/-- The local variables of the body of the outer loop of
`parse_seeds(seed_strings, out_blocks, out_monomers)`. -/
structure SeedScan where
  care_blocks : SpacedSeedBlocks
  ignore_blocks : SpacedSeedBlocks
  care_monos : List Nat
  ignore_monos : List Nat
  i_start : Nat
  is_care_block : Bool
deriving Repr, DecidableEq

/-- One round of the inner loop of `parse_seeds(seed_strings, out_blocks, out_monomers)`, at
index `pos` with `c = padded_string[pos]`. The difference `pos - i_start` never goes below
zero, since `i_start` holds an earlier value of `pos`. -/
def SeedScan.step (st : SeedScan) (c : Char) (pos : Nat) : SeedScan :=
  if st.is_care_block = true ∧ c = '0' then
    if pos - st.i_start = 1 then
      { st with care_monos := st.care_monos ++ [st.i_start], i_start := pos,
                is_care_block := false }
    else
      { st with care_blocks := st.care_blocks ++ [(st.i_start, pos)], i_start := pos,
                is_care_block := false }
  else if st.is_care_block = false ∧ c = '1' then
    if pos - st.i_start = 1 then
      { st with ignore_monos := st.ignore_monos ++ [st.i_start], i_start := pos,
                is_care_block := true }
    else
      { st with ignore_blocks := st.ignore_blocks ++ [(st.i_start, pos)], i_start := pos,
                is_care_block := true }
  else st

/-- The inner loop of `parse_seeds(seed_strings, out_blocks, out_monomers)` over the
characters left of `padded_string`, the first of them at index `pos`. The counter `pos` is an
`unsigned`; the loop is modelled for strings shorter than `2 ^ 32`. -/
def SeedScan.run : List Char → Nat → SeedScan → SeedScan
  | [], _, st => st
  | c :: cs, pos, st => SeedScan.run cs (pos + 1) (st.step c pos)

/-- The number of blocks and monomers recorded so far, of both polarities. -/
def SeedScan.recorded (st : SeedScan) : Nat :=
  st.care_blocks.length + st.care_monos.length + st.ignore_blocks.length +
    st.ignore_monos.length

/-- The state of the local variables after the inner loop, for one mask. -/
def SeedScan.ofMask (seed_string : List Char) : SeedScan :=
  SeedScan.run (seed_string ++ ['0']) 0
    { care_blocks := [], ignore_blocks := [], care_monos := [], ignore_monos := [],
      i_start := 0, is_care_block := true }

/-- The body of the outer loop of `parse_seeds(seed_strings, out_blocks, out_monomers)` for
one mask: the blocks and the monomers that are pushed to `out_blocks` and `out_monomers`. -/
def parse_seed_blocks (seed_string : List Char) : SpacedSeedBlocks × SpacedSeedMonomers :=
  let st := SeedScan.ofMask seed_string
  let num_cares := u32 (st.care_blocks.length * 2 + st.care_monos.length)
  let num_ignores := u32 (st.ignore_blocks.length * 2 + st.ignore_monos.length + 2)
  if num_ignores < num_cares then
    (st.ignore_blocks ++ [(0, u32 seed_string.length)], st.ignore_monos)
  else
    (st.care_blocks, st.care_monos)

/-- `parse_seeds(seed_strings, out_blocks, out_monomers)`; the two output vectors are passed in
and returned. -/
def parse_seeds_blocks (seed_strings : List (List Char))
    (out_blocks : List SpacedSeedBlocks) (out_monomers : List SpacedSeedMonomers) :
    List SpacedSeedBlocks × List SpacedSeedMonomers :=
  seed_strings.foldl
    (fun out seed_string =>
      (out.1 ++ [(parse_seed_blocks seed_string).1],
       out.2 ++ [(parse_seed_blocks seed_string).2]))
    (out_blocks, out_monomers)

/-- The string that `parsed_seeds_to_blocks` builds for one seed: `k` characters `'1'`, with
`'0'` written at every position of the seed. -/
def seed_to_string (seed : SpacedSeed) (k : Nat) : List Char :=
  seed.foldl (fun seed_string i => seed_string.set i '0') (List.replicate k '1')

/-- `parsed_seeds_to_blocks(seeds, k, out_blocks, out_monomers)`. -/
def parsed_seeds_to_blocks (seeds : List SpacedSeed) (k : Nat)
    (out_blocks : List SpacedSeedBlocks) (out_monomers : List SpacedSeedMonomers) :
    List SpacedSeedBlocks × List SpacedSeedMonomers :=
  parse_seeds_blocks (seeds.map (fun seed => seed_to_string seed k)) out_blocks out_monomers

/-- What the code takes for the care decomposition of a mask: the scan's local variables
`care_blocks` and `care_monos` after the inner loop. These are not by definition the maximal
runs of `'1'` of the mask; for those see `runs_care_decomposition`. -/
def care_decomposition (seed_string : List Char) : SpacedSeedBlocks × SpacedSeedMonomers :=
  ((SeedScan.ofMask seed_string).care_blocks, (SeedScan.ofMask seed_string).care_monos)

/-- What the code takes for the ignore decomposition of a mask, before the synthetic block is
appended: the scan's local variables `ignore_blocks` and `ignore_monos` after the inner loop.
These are not by definition the maximal runs of `'0'` of the mask; for those see
`runs_ignore_decomposition`. -/
def ignore_decomposition (seed_string : List Char) : SpacedSeedBlocks × SpacedSeedMonomers :=
  ((SeedScan.ofMask seed_string).ignore_blocks, (SeedScan.ofMask seed_string).ignore_monos)

/-- The number of terms of a decomposition: two for a block, one for a monomer. -/
def termCount (d : SpacedSeedBlocks × SpacedSeedMonomers) : Nat :=
  2 * d.1.length + d.2.length

/-- Position `i` lies in one of the blocks or is one of the monomers. -/
def covers (blocks : SpacedSeedBlocks) (monomers : SpacedSeedMonomers) (i : Nat) : Bool :=
  blocks.any (fun b => decide (b.1 ≤ i ∧ i < b.2)) || monomers.contains i

/-- The specification's side for the decompositions: the maximal runs of identical value of
the characters of a mask, the first of them at index `pos`, each with its value, its start and
its end (exclusive), from left to right. -/
def maximal_runs : List Char → Nat → List (Char × Nat × Nat)
  | [], _ => []
  | c :: cs, pos =>
    match maximal_runs cs (pos + 1) with
    | [] => [(c, pos, pos + 1)]
    | (c2, start, stop) :: rest =>
      if c2 = c then (c, pos, stop) :: rest
      else (c, pos, pos + 1) :: (c2, start, stop) :: rest

/-- The specification's side for the decompositions: of the maximal runs of the value `v`, a
run of length 1 becomes a monomer and a run of length at least 2 becomes a block. -/
def runs_decomposition (v : Char) (seed_string : List Char) :
    SpacedSeedBlocks × SpacedSeedMonomers :=
  ((((maximal_runs seed_string 0).filter (fun r => decide (r.1 = v))).filter
      (fun r => decide (r.2.2 - r.2.1 ≥ 2))).map (fun r => (r.2.1, r.2.2)),
   (((maximal_runs seed_string 0).filter (fun r => decide (r.1 = v))).filter
      (fun r => decide (r.2.2 - r.2.1 = 1))).map (fun r => r.2.1))

/-- The specification's side: the care decomposition of a mask, from its maximal runs of
`'1'`. -/
def runs_care_decomposition (seed_string : List Char) :
    SpacedSeedBlocks × SpacedSeedMonomers :=
  runs_decomposition '1' seed_string

/-- The specification's side: the ignore decomposition of a mask, from its maximal runs of
`'0'`, before the synthetic block is appended. -/
def runs_ignore_decomposition (seed_string : List Char) :
    SpacedSeedBlocks × SpacedSeedMonomers :=
  runs_decomposition '0' seed_string

/-- The specification's side: the polarity retained for a mask. The ignore decomposition, with
the synthetic block spanning the mask appended, is retained when its term count with that
block is strictly smaller than the term count of the care decomposition; otherwise the care
decomposition is retained. -/
def runs_polarity_choice (seed_string : List Char) : SpacedSeedBlocks × SpacedSeedMonomers :=
  if termCount (runs_ignore_decomposition seed_string) + 2 <
      termCount (runs_care_decomposition seed_string) then
    ((runs_ignore_decomposition seed_string).1 ++ [(0, seed_string.length)],
     (runs_ignore_decomposition seed_string).2)
  else runs_care_decomposition seed_string

/-! ## Copies -/

/-- The first `n` cells of an array, as `std::memcpy` reads them; a cell outside the list is
shown as 0. -/
def cells (a : List Nat) (n : Nat) : List Nat :=
  (List.range n).map (fun i => a.getD i 0)

/-- `NtHash::NtHash(const NtHash& nthash)`: every member is copied, the hash array into a new
array of `hash_num` cells. -/
def NtHash.copy (nthash : NtHash) : NtHash :=
  { seq := nthash.seq, seq_len := nthash.seq_len, hash_num := nthash.hash_num, k := nthash.k,
    pos := nthash.pos, initialized := nthash.initialized,
    hashes_array := cells nthash.hashes_array nthash.hash_num,
    forward_hash := nthash.forward_hash, reverse_hash := nthash.reverse_hash }

/-! ## SeedNtHash: members, constructors and copy -/

/-- Data members of `class SeedNtHash`. -/
structure SeedNtHash where
  nthash : NtHash
  hash_num_per_seed : Nat
  blocks : List SpacedSeedBlocks
  monomers : List SpacedSeedMonomers
  fh_no_monomers : List Nat
  rh_no_monomers : List Nat
  forward_hash : List Nat
  reverse_hash : List Nat
deriving Repr, DecidableEq

/-- `SeedNtHash::SeedNtHash(const char*, size_t, const std::vector<SpacedSeed>&, unsigned,
unsigned, size_t)`. The product `seeds.size() * hash_num_per_seed` is formed in `size_t` and
narrowed to the `unsigned` parameter of the `NtHash` constructor. The cells of the four new
arrays hold no defined value in C++; they are shown as 0. -/
def SeedNtHash.new (seq : List Char) (seq_len : Nat) (seeds : List SpacedSeed)
    (hash_num_per_seed k pos : Nat) : Except String (SeedNtHash × List String) := do
  let (nthash, warnings) ←
    NtHash.new seq seq_len (u32 (sz (seeds.length * hash_num_per_seed))) k pos
  let (blocks, monomers) := parsed_seeds_to_blocks seeds k [] []
  pure ({ nthash := nthash, hash_num_per_seed := hash_num_per_seed,
          blocks := blocks, monomers := monomers,
          fh_no_monomers := List.replicate seeds.length 0,
          rh_no_monomers := List.replicate seeds.length 0,
          forward_hash := List.replicate seeds.length 0,
          reverse_hash := List.replicate seeds.length 0 }, warnings)

/-- `SeedNtHash::SeedNtHash(const std::string&, const std::vector<SpacedSeed>&, unsigned,
unsigned, size_t)`. -/
def SeedNtHash.newStr (seq : List Char) (seeds : List SpacedSeed)
    (hash_num_per_seed k pos : Nat) : Except String (SeedNtHash × List String) :=
  SeedNtHash.new seq seq.length seeds hash_num_per_seed k pos

/-- `SeedNtHash::SeedNtHash(const char*, size_t, const std::vector<std::string>&, unsigned,
unsigned, size_t)`. -/
def SeedNtHash.newMasks (seq : List Char) (seq_len : Nat) (seeds : List (List Char))
    (hash_num_per_seed k pos : Nat) : Except String (SeedNtHash × List String) := do
  let (nthash, warnings) ←
    NtHash.new seq seq_len (u32 (sz (seeds.length * hash_num_per_seed))) k pos
  let (blocks, monomers) := parse_seeds_blocks seeds [] []
  pure ({ nthash := nthash, hash_num_per_seed := hash_num_per_seed,
          blocks := blocks, monomers := monomers,
          fh_no_monomers := List.replicate seeds.length 0,
          rh_no_monomers := List.replicate seeds.length 0,
          forward_hash := List.replicate seeds.length 0,
          reverse_hash := List.replicate seeds.length 0 }, warnings)

/-- `SeedNtHash::SeedNtHash(const std::string&, const std::vector<std::string>&, unsigned,
unsigned, size_t)`. -/
def SeedNtHash.newStrMasks (seq : List Char) (seeds : List (List Char))
    (hash_num_per_seed k pos : Nat) : Except String (SeedNtHash × List String) :=
  SeedNtHash.newMasks seq seq.length seeds hash_num_per_seed k pos

/-- `SeedNtHash::SeedNtHash(const SeedNtHash& seed_nthash)`. The initialiser list names
`nthash`, `hash_num_per_seed`, `blocks` and the four arrays; the member `monomers` is not
named in it and is therefore default-constructed, an empty vector. The four arrays get
`blocks.size()` cells each, filled by `std::memcpy`. -/
def SeedNtHash.copy (seed_nthash : SeedNtHash) : SeedNtHash :=
  { nthash := NtHash.copy seed_nthash.nthash,
    hash_num_per_seed := seed_nthash.hash_num_per_seed,
    blocks := seed_nthash.blocks,
    monomers := [],
    fh_no_monomers := cells seed_nthash.fh_no_monomers seed_nthash.blocks.length,
    rh_no_monomers := cells seed_nthash.rh_no_monomers seed_nthash.blocks.length,
    forward_hash := cells seed_nthash.forward_hash seed_nthash.blocks.length,
    reverse_hash := cells seed_nthash.reverse_hash seed_nthash.blocks.length }

/-! ## Sequences of calls -/

/-- A call of `roll()` or of `roll_back()`. -/
inductive Call where
  | roll
  | roll_back
deriving Repr, DecidableEq

/-- One call on an `NtHash`. -/
def NtHash.call (L : LowLevel) (c : Call) (s : NtHash) : Option (Bool × NtHash) :=
  match c with
  | Call.roll => NtHash.roll L s
  | Call.roll_back => NtHash.roll_back L s

/-- A sequence of calls on an `NtHash`: the values returned, in order, and the state left.
`none` means that one of the calls did not return. -/
def NtHash.run (L : LowLevel) : List Call → NtHash → Option (List Bool × NtHash)
  | [], s => some ([], s)
  | c :: cs, s =>
    match NtHash.call L c s with
    | none => none
    | some (b, t) =>
      match NtHash.run L cs t with
      | none => none
      | some (bs, u) => some (b :: bs, u)

/-- All members other than the hash array agree. -/
def NtHash.sameButHashes (s t : NtHash) : Prop :=
  t = { s with hashes_array := t.hashes_array }

/-- Two states of an iterator over a buffer shorter than the largest `size_t` value that
agree in all members other than the hash array, and in the hash array too unless the
iterator is still uninitialised. -/
def NtHash.hashesApart (s t : NtHash) : Prop :=
  s.seq_len + 1 < 2 ^ 64 ∧
    ∃ h, t = { s with hashes_array := h } ∧ (h = s.hashes_array ∨ s.initialized = false)

/-! ## SeedNtHash: accessors -/

/-- `SeedNtHash::get_pos`. -/
def SeedNtHash.get_pos (s : SeedNtHash) : Nat := s.nthash.get_pos

/-- `SeedNtHash::get_hash_num`. -/
def SeedNtHash.get_hash_num (s : SeedNtHash) : Nat := s.nthash.get_hash_num

/-- `SeedNtHash::get_hash_num_per_seed`. -/
def SeedNtHash.get_hash_num_per_seed (s : SeedNtHash) : Nat := s.hash_num_per_seed

/-- `SeedNtHash::get_k`. -/
def SeedNtHash.get_k (s : SeedNtHash) : Nat := s.nthash.get_k

/-- `SeedNtHash::hashes`. -/
def SeedNtHash.hashes (s : SeedNtHash) : List Nat := s.nthash.hashes

/-! ## The buffer indices a call reads -/

/-- The indices at which `roll()` reads `seq` outside `init()`, in the order of the reads:
`seq[pos + k]` in the test for an invalid symbol and, when the shift is made, `seq[pos]` and
`seq[pos + k]` as arguments of `ntmc64`. -/
def NtHash.roll_reads (L : LowLevel) (s : NtHash) : List Nat :=
  if !s.initialized then []
  else if s.pos ≥ szSub s.seq_len s.k then []
  else if L.SEED_TAB (seqAt s.seq (sz (s.pos + s.k))) = L.SEED_N then [sz (s.pos + s.k)]
  else [sz (s.pos + s.k), s.pos, sz (s.pos + s.k)]

/-- The indices at which `roll_back()` reads `seq` outside `init()`, in the order of the reads:
`seq[pos - 1]` in the test for an invalid symbol and, when the shift is made,
`seq[pos + k - 1]` and `seq[pos - 1]` as arguments of `ntmc64l`. -/
def NtHash.roll_back_reads (L : LowLevel) (s : NtHash) : List Nat :=
  if !s.initialized then []
  else if s.pos ≤ 0 then []
  else if L.SEED_TAB (seqAt s.seq (szSub s.pos 1)) = L.SEED_N then [szSub s.pos 1]
  else [szSub s.pos 1, szSub (sz (s.pos + s.k)) 1, szSub s.pos 1]

/-! ## The rounds of the scan of `init()` -/

/-- The `while` loop of `BTLLIB_NTHASH_INIT` for `NtHash`, counting how often its body runs:
once for every call of `ntmc64` that fails while `pos` is below `seq_len - k + 1`. -/
def NtHash.init_loop_rounds (L : LowLevel) : Nat → NtHash → Option Nat
  | 0, _ => none
  | fuel + 1, s =>
    if s.pos < sz (szSub s.seq_len s.k + 1) then
      match L.ntmc64_init (window s.seq s.pos s.k) s.k s.hash_num with
      | InitResult.ok _ _ _ => some 0
      | InitResult.invalid posN fh rh =>
        (NtHash.init_loop_rounds L fuel { s with pos := sz (s.pos + u32 (posN + 1)),
                                                 forward_hash := fh, reverse_hash := rh }).map
          (fun n => n + 1)
    else some 0

/-- The hypothesis on the value a failing `ntmc64` leaves in `posN`: an index of the window it
was handed. -/
def PosNInWindow (L : LowLevel) : Prop :=
  ∀ (w : List Char) (k m posN fh rh : Nat), w.length = k →
    L.ntmc64_init w k m = InitResult.invalid posN fh rh → posN < k

/-! ## Substitution of symbols -/

/-- Modelled from the spec: the type of `sub_hash`, a routine of the absent
`nthash_lowlevel.hpp`, read off its call in `NtHash::sub`: the two accumulators, the symbols
found at the pointer to the window, the positions, the new symbols, `k` and the number of
hashes. The call names the two accumulator members as it does for `ntmc64`, and the routine
may take them by reference; the model therefore lets it return them, next to the derived
hashes it writes to `h_val`. -/
abbrev SubHash :=
  Nat → Nat → List Char → List Nat → List Char → Nat → Nat → Nat × Nat × List Nat

/-- `NtHash::sub`. -/
def NtHash.sub (sub_hash : SubHash) (s : NtHash) (positions : List Nat)
    (new_bases : List Char) : NtHash :=
  { s with
    forward_hash :=
      (sub_hash s.forward_hash s.reverse_hash (window s.seq s.pos s.k) positions new_bases
        s.get_k s.get_hash_num).1,
    reverse_hash :=
      (sub_hash s.forward_hash s.reverse_hash (window s.seq s.pos s.k) positions new_bases
        s.get_k s.get_hash_num).2.1,
    hashes_array :=
      (sub_hash s.forward_hash s.reverse_hash (window s.seq s.pos s.k) positions new_bases
        s.get_k s.get_hash_num).2.2 }

/-- The specification's side of the comparison: the window with the new symbols written at
the positions, pair by pair. -/
def substituted (w : List Char) (positions : List Nat) (new_bases : List Char) : List Char :=
  (positions.zip new_bases).foldl (fun v pc => v.set pc.1 pc.2) w

/-- The hypothesis on `sub_hash`: handed what `ntmc64` computes for a window of `k` symbols,
positions inside the window and as many valid symbols, it derives the hashes that `ntmc64`
computes from scratch for the window with the symbols substituted. -/
def SubContract (L : LowLevel) (sub_hash : SubHash) : Prop :=
  ∀ (w : List Char) (positions : List Nat) (new_bases : List Char) (k m fh rh : Nat)
    (hs : List Nat),
    w.length = k → positions.length = new_bases.length → (∀ p, p ∈ positions → p < k) →
    (∀ c, c ∈ new_bases → L.validSym c) →
    L.ntmc64_init w k m = InitResult.ok fh rh hs →
    ∃ fh2 rh2, L.ntmc64_init (substituted w positions new_bases) k m =
      InitResult.ok fh2 rh2 (sub_hash fh rh w positions new_bases k m).2.2

/-- Modelled from the spec: a stand-in for `sub_hash` that goes with `toyLowLevel`. It leaves
the accumulators alone and derives the hashes from the exclusive-or of the seeds of the
window with the new symbols in place. -/
def toy_sub_hash : SubHash := fun fh rh w positions new_bases _ m =>
  (fh, rh, toyHashes m (toyAcc toySeed (substituted w positions new_bases))
    (toyAcc toyComp (substituted w positions new_bases)))

/-! ## SeedNtHash: the masked routines -/

/-- Outcome of the window-initialising overload of `ntmsm64`. `ok` stands for the return
value `true`, with what the call leaves in the four per-seed arrays and the derived hashes
written to `h_val`. `invalid` stands for the return value `false`, with the value left in
`posN` and whatever the call left in the four arrays; a failing call is taken not to write
`h_val`. -/
inductive SeedInitResult where
  | ok (fh_no_monomers rh_no_monomers forward_hash reverse_hash hashes : List Nat)
  | invalid (posN : Nat) (fh_no_monomers rh_no_monomers forward_hash reverse_hash : List Nat)
deriving Repr, DecidableEq

/-- What a shifting `ntmsm64` or `ntmsm64l` leaves in the four per-seed arrays it is handed
and in `h_val`. -/
structure SeedShift where
  fh_no_monomers : List Nat
  rh_no_monomers : List Nat
  forward_hash : List Nat
  reverse_hash : List Nat
  hashes : List Nat
deriving Repr, DecidableEq

/-- The masked routines of `nthash_lowlevel.hpp` used by `SeedNtHash`, with the arguments in
the order of the calls in `nthash.hpp`.

* `ntmsm64_init w blocks monomers k m m2` is the overload with `posN`, on the window `w` of
  `k` symbols found at `kmer_seq`.
* `ntmsm64 seq offset blocks monomers k m m2 fh_nm rh_nm fh rh` is the shifting overload; its
  first argument in C++ is the pointer `seq + offset`, shown as the buffer and the offset.
* `ntmsm64l` is the same shape for the backward shift.
* `ntmsm64_char` and `ntmsm64l_char` are the overloads that take `char_in` after the
  pointer. -/
structure SeedLowLevel where
  ntmsm64_init : List Char → List SpacedSeedBlocks → List SpacedSeedMonomers → Nat → Nat →
    Nat → SeedInitResult
  ntmsm64 : List Char → Nat → List SpacedSeedBlocks → List SpacedSeedMonomers → Nat → Nat →
    Nat → List Nat → List Nat → List Nat → List Nat → SeedShift
  ntmsm64l : List Char → Nat → List SpacedSeedBlocks → List SpacedSeedMonomers → Nat → Nat →
    Nat → List Nat → List Nat → List Nat → List Nat → SeedShift
  ntmsm64_char : List Char → Nat → Char → List SpacedSeedBlocks → List SpacedSeedMonomers →
    Nat → Nat → Nat → List Nat → List Nat → List Nat → List Nat → SeedShift
  ntmsm64l_char : List Char → Nat → Char → List SpacedSeedBlocks → List SpacedSeedMonomers →
    Nat → Nat → Nat → List Nat → List Nat → List Nat → List Nat → SeedShift

/-- The value a failing call of `ntmc64` leaves in `posN`; `none` for a call that succeeds. -/
def InitResult.failure : InitResult → Option Nat
  | InitResult.ok _ _ _ => none
  | InitResult.invalid posN _ _ => some posN

/-- The value a failing call of `ntmsm64` leaves in `posN`; `none` for a call that succeeds. -/
def SeedInitResult.failure : SeedInitResult → Option Nat
  | SeedInitResult.ok _ _ _ _ _ => none
  | SeedInitResult.invalid posN _ _ _ _ => some posN

/-- The hypothesis that the masked initialisation fails on the same windows as the unmasked
one and then reports the same index. -/
def SameFailures (L : LowLevel) (M : SeedLowLevel) : Prop :=
  ∀ (w : List Char) (blocks : List SpacedSeedBlocks) (monomers : List SpacedSeedMonomers)
    (k m m2 hash_num : Nat),
    (M.ntmsm64_init w blocks monomers k m m2).failure = (L.ntmc64_init w k hash_num).failure

/-! ## SeedNtHash: `init`, `roll`, `roll_back` and the peeks -/

/-- The assignment to `nthash.pos`. -/
def SeedNtHash.setPos (s : SeedNtHash) (p : Nat) : SeedNtHash :=
  { s with nthash := { s.nthash with pos := p } }

/-- The assignment `nthash.initialized = true`. -/
def SeedNtHash.setInitialized (s : SeedNtHash) : SeedNtHash :=
  { s with nthash := { s.nthash with initialized := true } }

/-- The write of the derived hashes through `nthash.hashes_array.get()`. -/
def SeedNtHash.setHashes (s : SeedNtHash) (hs : List Nat) : SeedNtHash :=
  { s with nthash := { s.nthash with hashes_array := hs } }

/-- The writes through the pointers to the four per-seed arrays of the iterator. -/
def SeedNtHash.setArrays (s : SeedNtHash) (a b c d : List Nat) : SeedNtHash :=
  { s with fh_no_monomers := a, rh_no_monomers := b, forward_hash := c, reverse_hash := d }

/-- The `while` loop of `BTLLIB_NTHASH_INIT` for `SeedNtHash`, where the members `seq`,
`seq_len`, `k` and `pos` are those of the member `nthash`. -/
def SeedNtHash.init_loop (M : SeedLowLevel) : Nat → SeedNtHash → Option SeedNtHash
  | 0, _ => none
  | fuel + 1, s =>
    if s.nthash.pos < sz (szSub s.nthash.seq_len s.nthash.k + 1) then
      match M.ntmsm64_init (window s.nthash.seq s.nthash.pos s.nthash.k) s.blocks s.monomers
          s.nthash.k s.blocks.length s.hash_num_per_seed with
      | SeedInitResult.ok a b c d hs => some ((s.setArrays a b c d).setHashes hs)
      | SeedInitResult.invalid posN a b c d =>
        SeedNtHash.init_loop M fuel
          ((s.setArrays a b c d).setPos (sz (s.nthash.pos + u32 (posN + 1))))
    else some s

/-- `SeedNtHash::init`, expanded from `BTLLIB_NTHASH_INIT`. -/
def SeedNtHash.init (M : SeedLowLevel) (s : SeedNtHash) : Option (Bool × SeedNtHash) :=
  if s.nthash.k > s.nthash.seq_len then some (false, s.setPos SIZE_MAX)
  else
    match SeedNtHash.init_loop M (s.nthash.seq_len + 2) s with
    | none => none
    | some t =>
      if t.nthash.pos > szSub t.nthash.seq_len t.nthash.k then
        some (false, t.setPos SIZE_MAX)
      else some (true, t.setInitialized)

/-- The state after a shifting call that was handed the four arrays of the iterator. -/
def SeedNtHash.shifted (s : SeedNtHash) (r : SeedShift) : SeedNtHash :=
  (s.setArrays r.fh_no_monomers r.rh_no_monomers r.forward_hash r.reverse_hash).setHashes
    r.hashes

/-- `SeedNtHash::roll`, expanded from `BTLLIB_NTHASH_ROLL`. -/
def SeedNtHash.roll (L : LowLevel) (M : SeedLowLevel) (s : SeedNtHash) :
    Option (Bool × SeedNtHash) :=
  if !s.nthash.initialized then SeedNtHash.init M s
  else if s.nthash.pos ≥ szSub s.nthash.seq_len s.nthash.k then some (false, s)
  else if L.SEED_TAB (seqAt s.nthash.seq (sz (s.nthash.pos + s.nthash.k))) = L.SEED_N then
    SeedNtHash.init M (s.setPos (sz (s.nthash.pos + s.nthash.k)))
  else
    some (true,
      (s.shifted (M.ntmsm64 s.nthash.seq s.nthash.pos s.blocks s.monomers s.nthash.k
        s.blocks.length s.hash_num_per_seed s.fh_no_monomers s.rh_no_monomers
        s.forward_hash s.reverse_hash)).setPos (sz (s.nthash.pos + 1)))

/-- `SeedNtHash::roll_back`, expanded from `BTLLIB_NTHASH_ROLL_BACK`. -/
def SeedNtHash.roll_back (L : LowLevel) (M : SeedLowLevel) (s : SeedNtHash) :
    Option (Bool × SeedNtHash) :=
  if !s.nthash.initialized then SeedNtHash.init M s
  else if s.nthash.pos ≤ 0 then some (false, s)
  else if L.SEED_TAB (seqAt s.nthash.seq (szSub s.nthash.pos 1)) = L.SEED_N then
    SeedNtHash.init M (s.setPos (szSub s.nthash.pos s.nthash.k))
  else
    some (true,
      (s.shifted (M.ntmsm64l s.nthash.seq (szSub s.nthash.pos 1) s.blocks s.monomers
        s.nthash.k s.blocks.length s.hash_num_per_seed s.fh_no_monomers s.rh_no_monomers
        s.forward_hash s.reverse_hash)).setPos (szSub s.nthash.pos 1))

/-- `SeedNtHash::peek()`, expanded from `BTLLIB_NTHASH_PEEK`. The four temporaries get
`blocks.size()` cells each. The two temporaries for the arrays without monomers are filled by
`std::memcpy` from `forward_hash` and `reverse_hash`, as are the other two. -/
def SeedNtHash.peek (M : SeedLowLevel) (s : SeedNtHash) : Option (Bool × SeedNtHash) :=
  if !s.nthash.initialized then SeedNtHash.init M s
  else
    some (true,
      s.setHashes (M.ntmsm64 s.nthash.seq s.nthash.pos s.blocks s.monomers s.nthash.k
        s.blocks.length s.hash_num_per_seed
        (cells s.forward_hash s.blocks.length) (cells s.reverse_hash s.blocks.length)
        (cells s.forward_hash s.blocks.length)
        (cells s.reverse_hash s.blocks.length)).hashes)

/-- `SeedNtHash::peek_back()`, expanded from `BTLLIB_NTHASH_PEEK`, with the temporaries filled
as in `peek()`. -/
def SeedNtHash.peek_back (M : SeedLowLevel) (s : SeedNtHash) : Option (Bool × SeedNtHash) :=
  if !s.nthash.initialized then SeedNtHash.init M s
  else
    some (true,
      s.setHashes (M.ntmsm64l s.nthash.seq (szSub s.nthash.pos 1) s.blocks s.monomers
        s.nthash.k s.blocks.length s.hash_num_per_seed
        (cells s.forward_hash s.blocks.length) (cells s.reverse_hash s.blocks.length)
        (cells s.forward_hash s.blocks.length)
        (cells s.reverse_hash s.blocks.length)).hashes)

/-- `SeedNtHash::peek(char char_in)`, expanded from `BTLLIB_NTHASH_PEEK`, with the temporaries
filled as in `peek()`. -/
def SeedNtHash.peek_char (M : SeedLowLevel) (s : SeedNtHash) (char_in : Char) :
    Option (Bool × SeedNtHash) :=
  if !s.nthash.initialized then SeedNtHash.init M s
  else
    some (true,
      s.setHashes (M.ntmsm64_char s.nthash.seq s.nthash.pos char_in s.blocks s.monomers
        s.nthash.k s.blocks.length s.hash_num_per_seed
        (cells s.forward_hash s.blocks.length) (cells s.reverse_hash s.blocks.length)
        (cells s.forward_hash s.blocks.length)
        (cells s.reverse_hash s.blocks.length)).hashes)

/-- `SeedNtHash::peek_back(char char_in)`, expanded from `BTLLIB_NTHASH_PEEK`, with the
temporaries filled as in `peek()`. -/
def SeedNtHash.peek_back_char (M : SeedLowLevel) (s : SeedNtHash) (char_in : Char) :
    Option (Bool × SeedNtHash) :=
  if !s.nthash.initialized then SeedNtHash.init M s
  else
    some (true,
      s.setHashes (M.ntmsm64l_char s.nthash.seq (szSub s.nthash.pos 1) char_in s.blocks
        s.monomers s.nthash.k s.blocks.length s.hash_num_per_seed
        (cells s.forward_hash s.blocks.length) (cells s.reverse_hash s.blocks.length)
        (cells s.forward_hash s.blocks.length)
        (cells s.reverse_hash s.blocks.length)).hashes)

/-- `SeedNtHash::change_seq`. -/
def SeedNtHash.change_seq (s : SeedNtHash) (seq : List Char) (pos : Nat) : SeedNtHash :=
  { s with nthash := s.nthash.change_seq seq pos }

/-- `SeedNtHash::forward`. -/
def SeedNtHash.forward (s : SeedNtHash) : Bool := s.nthash.forward

/-- `SeedNtHash::get_forward_hash`: the per-seed array. -/
def SeedNtHash.get_forward_hash (s : SeedNtHash) : List Nat := s.forward_hash

/-- `SeedNtHash::get_reverse_hash`: the per-seed array. -/
def SeedNtHash.get_reverse_hash (s : SeedNtHash) : List Nat := s.reverse_hash

/-- A call of one of the state-changing member functions of `SeedNtHash`. -/
inductive SeedOp where
  | roll
  | roll_back
  | peek
  | peek_back
  | peek_char (char_in : Char)
  | peek_back_char (char_in : Char)
  | change_seq (seq : List Char) (pos : Nat)
deriving Repr, DecidableEq

/-- The state one call leaves; `none` when the call does not return. -/
def SeedNtHash.op (L : LowLevel) (M : SeedLowLevel) (o : SeedOp) (s : SeedNtHash) :
    Option SeedNtHash :=
  match o with
  | SeedOp.roll => (SeedNtHash.roll L M s).map (fun r => r.2)
  | SeedOp.roll_back => (SeedNtHash.roll_back L M s).map (fun r => r.2)
  | SeedOp.peek => (SeedNtHash.peek M s).map (fun r => r.2)
  | SeedOp.peek_back => (SeedNtHash.peek_back M s).map (fun r => r.2)
  | SeedOp.peek_char c => (SeedNtHash.peek_char M s c).map (fun r => r.2)
  | SeedOp.peek_back_char c => (SeedNtHash.peek_back_char M s c).map (fun r => r.2)
  | SeedOp.change_seq seq pos => some (s.change_seq seq pos)

/-- The state a sequence of calls leaves. -/
def SeedNtHash.ops (L : LowLevel) (M : SeedLowLevel) :
    List SeedOp → SeedNtHash → Option SeedNtHash
  | [], s => some s
  | o :: os, s =>
    match SeedNtHash.op L M o s with
    | none => none
    | some t => SeedNtHash.ops L M os t

/-- One call on a `SeedNtHash`. -/
def SeedNtHash.call (L : LowLevel) (M : SeedLowLevel) (c : Call) (s : SeedNtHash) :
    Option (Bool × SeedNtHash) :=
  match c with
  | Call.roll => SeedNtHash.roll L M s
  | Call.roll_back => SeedNtHash.roll_back L M s

/-- A sequence of calls on an `NtHash`: for every call the value returned and `get_pos()`
after it. `none` means that one of the calls did not return. -/
def NtHash.trace (L : LowLevel) : List Call → NtHash → Option (List (Bool × Nat))
  | [], _ => some []
  | c :: cs, s =>
    match NtHash.call L c s with
    | none => none
    | some (b, t) => (NtHash.trace L cs t).map (fun tr => (b, t.get_pos) :: tr)

/-- A sequence of calls on a `SeedNtHash`: for every call the value returned and `get_pos()`
after it. -/
def SeedNtHash.trace (L : LowLevel) (M : SeedLowLevel) :
    List Call → SeedNtHash → Option (List (Bool × Nat))
  | [], _ => some []
  | c :: cs, s =>
    match SeedNtHash.call L M c s with
    | none => none
    | some (b, t) => (SeedNtHash.trace L M cs t).map (fun tr => (b, t.get_pos) :: tr)

/-- A `SeedNtHash` and an `NtHash` over the same buffer, with the same window length, at the
same position and both initialised or both not. -/
def SeedNtHash.sameCursorAs (sn : SeedNtHash) (s : NtHash) : Prop :=
  sn.nthash.seq = s.seq ∧ sn.nthash.seq_len = s.seq_len ∧ sn.nthash.k = s.k ∧
    sn.nthash.pos = s.pos ∧ sn.nthash.initialized = s.initialized

/-! ## A small instance of the masked routines -/

/-- Modelled from the spec: the exclusive-or of the seeds that `f` gives to the symbols
covered by the blocks of one seed, in the window that starts at `offset`. -/
def toyBlocks (f : Char → Nat) (seq : List Char) (offset : Nat) (blocks : SpacedSeedBlocks) :
    Nat :=
  (blocks.map (fun b => toyAcc f (window seq (offset + b.1) (b.2 - b.1)))).foldr
    (fun x y => x ^^^ y) 0

/-- Modelled from the spec: what a shift by one symbol changes in `toyBlocks`: for every
block the seed of the symbol at its start and the seed of the symbol at its end. -/
def toyEdges (f : Char → Nat) (seq : List Char) (offset : Nat) (blocks : SpacedSeedBlocks) :
    Nat :=
  (blocks.map (fun b => f (seqAt seq (offset + b.1)) ^^^ f (seqAt seq (offset + b.2)))).foldr
    (fun x y => x ^^^ y) 0

/-- Modelled from the spec: the exclusive-or of the seeds that `f` gives to the symbols at
the monomers of one seed, in the window that starts at `offset`. -/
def toyMonos (f : Char → Nat) (seq : List Char) (offset : Nat)
    (monomers : SpacedSeedMonomers) : Nat :=
  (monomers.map (fun p => f (seqAt seq (offset + p)))).foldr (fun x y => x ^^^ y) 0

/-- Modelled from the spec: `m2` derived hashes per seed, laid out seed after seed. -/
def toySeedHashes (m2 : Nat) (fh rh : List Nat) : List Nat :=
  ((fh.zip rh).map (fun p => toyHashes m2 p.1 p.2)).foldr (fun x y => x ++ y) []

/-- Modelled from the spec: the arrays and hashes the stand-in leaves after a shift that
started from the arrays `fh_nm` and `rh_nm`; the monomers are read in the window that starts
at `at_new`. -/
def toySeedShift (seq : List Char) (offset at_new : Nat) (blocks : List SpacedSeedBlocks)
    (monomers : List SpacedSeedMonomers) (m2 : Nat) (fh_nm rh_nm : List Nat) : SeedShift :=
  { fh_no_monomers := (fh_nm.zip blocks).map (fun p => p.1 ^^^ toyEdges toySeed seq offset p.2),
    rh_no_monomers := (rh_nm.zip blocks).map (fun p => p.1 ^^^ toyEdges toyComp seq offset p.2),
    forward_hash :=
      (((fh_nm.zip blocks).map (fun p => p.1 ^^^ toyEdges toySeed seq offset p.2)).zip
        monomers).map (fun p => p.1 ^^^ toyMonos toySeed seq at_new p.2),
    reverse_hash :=
      (((rh_nm.zip blocks).map (fun p => p.1 ^^^ toyEdges toyComp seq offset p.2)).zip
        monomers).map (fun p => p.1 ^^^ toyMonos toyComp seq at_new p.2),
    hashes := toySeedHashes m2
      ((((fh_nm.zip blocks).map (fun p => p.1 ^^^ toyEdges toySeed seq offset p.2)).zip
        monomers).map (fun p => p.1 ^^^ toyMonos toySeed seq at_new p.2))
      ((((rh_nm.zip blocks).map (fun p => p.1 ^^^ toyEdges toyComp seq offset p.2)).zip
        monomers).map (fun p => p.1 ^^^ toyMonos toyComp seq at_new p.2)) }

/-- Modelled from the spec: the buffer with `c` at index `i`, for the stand-ins of the
overloads that are handed the incoming symbol. -/
def toyPut (seq : List Char) (i : Nat) (c : Char) : List Char :=
  window seq 0 i ++ [c] ++ seq.drop (i + 1)

/-- Modelled from the spec: a stand-in for the masked routines of `nthash_lowlevel.hpp`, built
like `toyLowLevel`. For every seed the array without monomers holds the exclusive-or of the
seeds under the blocks, and the full array adds the seeds at the monomers. Initialisation fails
on the windows on which `toyLowLevel` fails. A shift updates the array without monomers from
its own former value and rebuilds the full array from it; what it is handed in the full
arrays is overwritten. It serves only to evaluate the iterator on concrete buffers. -/
def toySeedLowLevel : SeedLowLevel where
  ntmsm64_init := fun w blocks monomers k _ m2 =>
    match toyScan w k with
    | some i =>
      SeedInitResult.invalid i (blocks.map (fun _ => 0)) (blocks.map (fun _ => 0))
        (blocks.map (fun _ => 0)) (blocks.map (fun _ => 0))
    | none =>
      SeedInitResult.ok (blocks.map (toyBlocks toySeed w 0)) (blocks.map (toyBlocks toyComp w 0))
        (((blocks.map (toyBlocks toySeed w 0)).zip monomers).map
          (fun p => p.1 ^^^ toyMonos toySeed w 0 p.2))
        (((blocks.map (toyBlocks toyComp w 0)).zip monomers).map
          (fun p => p.1 ^^^ toyMonos toyComp w 0 p.2))
        (toySeedHashes m2
          (((blocks.map (toyBlocks toySeed w 0)).zip monomers).map
            (fun p => p.1 ^^^ toyMonos toySeed w 0 p.2))
          (((blocks.map (toyBlocks toyComp w 0)).zip monomers).map
            (fun p => p.1 ^^^ toyMonos toyComp w 0 p.2)))
  ntmsm64 := fun seq offset blocks monomers _ _ m2 fh_nm rh_nm _ _ =>
    toySeedShift seq offset (offset + 1) blocks monomers m2 fh_nm rh_nm
  ntmsm64l := fun seq offset blocks monomers _ _ m2 fh_nm rh_nm _ _ =>
    toySeedShift seq offset offset blocks monomers m2 fh_nm rh_nm
  ntmsm64_char := fun seq offset char_in blocks monomers k _ m2 fh_nm rh_nm _ _ =>
    toySeedShift (toyPut seq (offset + k) char_in) offset (offset + 1) blocks monomers m2
      fh_nm rh_nm
  ntmsm64l_char := fun seq offset char_in blocks monomers _ _ m2 fh_nm rh_nm _ _ =>
    toySeedShift (toyPut seq offset char_in) offset offset blocks monomers m2 fh_nm rh_nm

/-! ## `util.cpp`: the string routines of the standard library it calls -/

/-- The search of `std::string::find` through the characters `l` that start at index `p` of
the string: the lowest index at which `d` begins. `none` stands for `std::string::npos`. -/
def findIn (d : List Char) : List Char → Nat → Option Nat
  | [], p => if d.isPrefixOf ([] : List Char) then some p else none
  | c :: cs, p => if d.isPrefixOf (c :: cs) then some p else findIn d cs (p + 1)

/-- `s.find(d, pos)` of `std::string`. -/
def str_find (s d : List Char) (pos : Nat) : Option Nat :=
  if pos > s.length then none else findIn d (s.drop pos) pos

/-- The search of `std::string::rfind` below index `n`, from the highest index downwards. -/
def rfindBelow (s d : List Char) : Nat → Option Nat
  | 0 => none
  | n + 1 => if d.isPrefixOf (s.drop n) then some n else rfindBelow s d n

/-- `s.rfind(d)` of `std::string`: the highest index at which `d` begins. -/
def str_rfind (s d : List Char) : Option Nat :=
  if d.length > s.length then none else rfindBelow s d (s.length - d.length + 1)

/-- The search of `std::string::find_last_of` for one character below index `n`. -/
def lastBelow (s : List Char) (c : Char) : Nat → Option Nat
  | 0 => none
  | n + 1 => if s[n]? = some c then some n else lastBelow s c n

/-- `s.find_last_of(c)` of `std::string`. -/
def str_find_last_of (s : List Char) (c : Char) : Option Nat :=
  lastBelow s c s.length

/-- `s.substr(pos, n)` of `std::string`; `none` stands for the exception thrown when `pos`
exceeds the size. -/
def substr (s : List Char) (pos n : Nat) : Option (List Char) :=
  if pos > s.length then none else some ((s.drop pos).take n)

/-- `s.substr(pos)` of `std::string`. -/
def substr_from (s : List Char) (pos : Nat) : Option (List Char) :=
  if pos > s.length then none else some (s.drop pos)

/-- `s.resize(n)` of `std::string`: the first `n` characters, filled up with NUL. -/
def resize (s : List Char) (n : Nat) : List Char :=
  s.take n ++ List.replicate (n - s.length) nul

/-- `::tolower` in the C locale. -/
def tolower (c : Char) : Char := c.toLower

/-! ## `util.cpp`: `split` and `join` -/

/-- The `while` loop of `split`, run with fuel. `none` means that no value is returned: the
loop did not end within the fuel, or `substr` threw. -/
def split_loop (s delim : List Char) :
    Nat → List (List Char) → Nat → Nat → Option (List (List Char))
  | 0, _, _, _ => none
  | fuel + 1, tokens, pos1, pos2 =>
    match str_find s delim pos2 with
    | some p =>
      match substr s pos1 (szSub p pos1) with
      | some token =>
        split_loop s delim fuel (tokens ++ [token]) (sz (p + delim.length))
          (sz (p + delim.length))
      | none => none
    | none =>
      match substr_from s pos1 with
      | some token => some (tokens ++ [token])
      | none => none

/-- `split` of `util.cpp`. The loop gets `s.length + 2` rounds. -/
def split (s delim : List Char) : Option (List (List Char)) :=
  split_loop s delim (s.length + 2) [] 0 0

/-- `join` of `util.cpp`. It reads `s[0]` before it looks at the size of `s`; `none` stands
for the call on an empty vector, which has no defined result. -/
def join (s : List (List Char)) (delim : List Char) : Option (List Char) :=
  match s with
  | [] => none
  | first :: rest => some (rest.foldl (fun joined x => joined ++ delim ++ x) first)

/-! ## `util.cpp`: `startswith`, `endswith` and `get_dirname` -/

/-- `startswith` of `util.cpp`. -/
def startswith (s pre : List Char) : Bool :=
  decide (str_find (s.map tolower) (pre.map tolower) 0 = some 0)

/-- `endswith` of `util.cpp`. -/
def endswith (s suffix : List Char) : Bool :=
  match str_rfind (s.map tolower) (suffix.map tolower) with
  | none => false
  | some pos => decide (pos = szSub (s.map tolower).length (suffix.map tolower).length)

/-- The loop `for (; i != 0; --i) { if (path[i - 1] != '/') break; }` of `get_dirname`: the
value of `i` after it. -/
def back_over_slashes (path : List Char) : Nat → Nat
  | 0 => 0
  | i + 1 => if seqAt path i ≠ '/' then i + 1 else back_over_slashes path i

/-- The value of `last_slash_pos` in `get_dirname` after the first `if` statement. The call
`path.substr(0, i)` cannot throw and is shown as `path.take i`. -/
def dirname_slash_pos (path : List Char) : Option Nat :=
  match str_find_last_of path '/' with
  | none => none
  | some last_slash_pos =>
    if last_slash_pos ≠ 0 ∧ last_slash_pos = szSub path.length 1 then
      if back_over_slashes path last_slash_pos ≠ 0 then
        str_find_last_of (path.take (back_over_slashes path last_slash_pos)) '/'
      else some last_slash_pos
    else some last_slash_pos

/-- `get_dirname` of `util.cpp`. -/
def get_dirname (path : List Char) : List Char :=
  match dirname_slash_pos path with
  | some last_slash_pos =>
    if back_over_slashes path last_slash_pos = 0 then
      if last_slash_pos = 1 then resize path (sz (last_slash_pos + 1)) else resize path 1
    else resize path (back_over_slashes path last_slash_pos)
  | none => ".".toList

/-- The specification's side for `get_dirname`: the path without its trailing slashes. -/
def withoutTrailingSlashes (p : List Char) : List Char :=
  (p.reverse.dropWhile (fun c => decide (c = '/'))).reverse

/-- The specification's side for `get_dirname`: the path contains no `'/'` once its trailing
slashes are ignored, and it is not a non-empty string of slashes only. -/
def noDirectoryPart (p : List Char) : Prop :=
  '/' ∉ withoutTrailingSlashes p ∧ ¬ (p ≠ [] ∧ ∀ c, c ∈ p → c = '/')

instance (p : List Char) : Decidable (noDirectoryPart p) :=
  inferInstanceAs (Decidable
    ('/' ∉ withoutTrailingSlashes p ∧ ¬ (p ≠ [] ∧ ∀ c, c ∈ p → c = '/')))

/-! ## Concrete iterator states used in examples -/

/-- The state `NtHash(seq, hash_num, k, pos)` leaves when `hash_num ≤ 255` and `k ≤ 65535`. -/
def NtHash.fresh (seq : List Char) (hash_num k pos : Nat) : NtHash :=
  { seq := seq, seq_len := seq.length, hash_num := hash_num, k := k, pos := pos,
    initialized := false, hashes_array := List.replicate hash_num 0,
    forward_hash := 0, reverse_hash := 0 }

/-- An initialised iterator over the buffer `N` with window length 0, standing at 0. -/
def NtHash.zeroWindowState : NtHash :=
  { seq := "N".toList, seq_len := 1, hash_num := 1, k := 0, pos := 0,
    initialized := true, hashes_array := [0], forward_hash := 0, reverse_hash := 0 }

/-- The state after the first `roll()` over the buffer `ACGTA` with `k = 3` and one hash,
under the stand-in routines: the window `ACG` at position 0. -/
def NtHash.demoFirst : NtHash :=
  { seq := "ACGTA".toList, seq_len := 5, hash_num := 1, k := 3, pos := 0,
    initialized := true, hashes_array := [21], forward_hash := 7, reverse_hash := 14 }

/-- The state after the second `roll()` over the same buffer: the window `CGT` at position 1. -/
def NtHash.demoSecond : NtHash :=
  { seq := "ACGTA".toList, seq_len := 5, hash_num := 1, k := 3, pos := 1,
    initialized := true, hashes_array := [21], forward_hash := 14, reverse_hash := 7 }

/-- The state after the first `roll()` over the buffer `AN` with `k = 1`: the window `A` at
position 0, followed by an invalid symbol. -/
def NtHash.demoBeforeInvalid : NtHash :=
  { seq := "AN".toList, seq_len := 2, hash_num := 1, k := 1, pos := 0,
    initialized := true, hashes_array := [9], forward_hash := 1, reverse_hash := 8 }

/-- The state after the second `roll()` over the buffer `AN` with `k = 1`. -/
def NtHash.demoExhausted : NtHash :=
  { seq := "AN".toList, seq_len := 2, hash_num := 1, k := 1, pos := SIZE_MAX,
    initialized := true, hashes_array := [9], forward_hash := 0, reverse_hash := 0 }

/-- The state after the first `roll()` over the buffer `A` with `k = 1`: the only window. -/
def NtHash.demoLastWindow : NtHash :=
  { seq := "A".toList, seq_len := 1, hash_num := 1, k := 1, pos := 0,
    initialized := true, hashes_array := [9], forward_hash := 1, reverse_hash := 8 }

/-- An initialised `BlindNtHash` holding the window `ACG`. -/
def BlindNtHash.demoState : BlindNtHash :=
  { seq := "ACG".toList, seq_len := 3, hash_num := 1, k := 3, pos := 0,
    initialized := true, hashes_array := [21], forward_hash := 7, reverse_hash := 14 }

/-- The state the constructor of `BlindNtHash` is meant to leave for the buffer `ACG` with
`k = 3` and one hash: a private buffer of exactly `k` symbols, not yet rolled. -/
def BlindNtHash.demoUnrolled : BlindNtHash :=
  { seq := "ACG".toList, seq_len := 3, hash_num := 1, k := 3, pos := 0,
    initialized := false, hashes_array := [0], forward_hash := 0, reverse_hash := 0 }

/-- The state after the initial roll of a `BlindNtHash` over the buffer `ACGT` with `k = 3`. -/
def BlindNtHash.demoLonger : BlindNtHash :=
  { seq := "ACGT".toList, seq_len := 4, hash_num := 1, k := 3, pos := 0,
    initialized := true, hashes_array := [21], forward_hash := 7, reverse_hash := 14 }

/-- The state after two calls of `roll()` over the buffer `ANA` with `k = 1`: the window `A` at
position 2, behind the invalid symbol. -/
def NtHash.demoBehindInvalid : NtHash :=
  { seq := "ANA".toList, seq_len := 3, hash_num := 1, k := 1, pos := 2,
    initialized := true, hashes_array := [9], forward_hash := 1, reverse_hash := 8 }

/-- The state after the initial roll of a `BlindNtHash` over the buffer `ACGN` with `k = 3`. -/
def BlindNtHash.demoInvalidAhead : BlindNtHash :=
  { seq := "ACGN".toList, seq_len := 4, hash_num := 1, k := 3, pos := 0,
    initialized := true, hashes_array := [21], forward_hash := 7, reverse_hash := 14 }

/-- The state a constructor of `SeedNtHash` taking mask strings leaves when its checks pass
and the product of the number of seeds and `hash_num_per_seed` is below 256. -/
def SeedNtHash.fresh (seq : List Char) (seeds : List (List Char))
    (hash_num_per_seed k pos : Nat) : SeedNtHash :=
  { nthash := NtHash.fresh seq (seeds.length * hash_num_per_seed) k pos,
    hash_num_per_seed := hash_num_per_seed,
    blocks := (parse_seeds_blocks seeds [] []).1,
    monomers := (parse_seeds_blocks seeds [] []).2,
    fh_no_monomers := List.replicate seeds.length 0,
    rh_no_monomers := List.replicate seeds.length 0,
    forward_hash := List.replicate seeds.length 0,
    reverse_hash := List.replicate seeds.length 0 }

/-! ## Arithmetic and buffer lemmas -/

theorem sz_of_lt {n : Nat} (h : n < 2 ^ 64) : sz n = n := by
  unfold sz; omega

theorem szSub_of_le {a b : Nat} (hb : b ≤ a) (ha : a < 2 ^ 64) : szSub a b = a - b := by
  unfold szSub; omega

theorem szSub_lt (a b : Nat) : szSub a b < 2 ^ 64 := by
  unfold szSub; omega

theorem window_length (seq : List Char) (pos k : Nat) : (window seq pos k).length = k := by
  simp [window]

theorem window_getD (seq : List Char) (pos k i : Nat) (h : i < k) :
    (window seq pos k).getD i nul = seqAt seq (pos + i) := by
  unfold window
  rw [List.getD_eq_getElem _ _ (by simpa using h)]
  simp

theorem validWindow_of_init_ok (L : LowLevel) (hC : InitContract L) (seq : List Char)
    (q k m fh rh : Nat) (hs : List Nat)
    (h : L.ntmc64_init (window seq q k) k m = InitResult.ok fh rh hs) :
    validWindow L seq q k := by
  have hc := hC (window seq q k) k m (window_length seq q k)
  rw [h] at hc
  intro i hi
  have := hc i hi
  rw [window_getD seq q k i hi] at this
  exact this

theorem invalid_of_init_invalid (L : LowLevel) (hC : InitContract L) (seq : List Char)
    (q k m posN fh rh : Nat)
    (h : L.ntmc64_init (window seq q k) k m = InitResult.invalid posN fh rh) :
    posN < k ∧ L.SEED_TAB (seqAt seq (q + posN)) = L.SEED_N := by
  have hc := hC (window seq q k) k m (window_length seq q k)
  rw [h] at hc
  obtain ⟨h1, h2, _⟩ := hc
  refine ⟨h1, ?_⟩
  rw [window_getD seq q k posN h1] at h2
  unfold LowLevel.validSym at h2
  exact not_not.mp h2

/-- A window that covers an index holding an invalid symbol is not valid. -/
theorem not_validWindow_of_invalid (L : LowLevel) (seq : List Char) (q k j : Nat)
    (hj : L.SEED_TAB (seqAt seq j) = L.SEED_N) (h1 : q ≤ j) (h2 : j < q + k) :
    ¬ validWindow L seq q k := by
  intro hv
  have := hv (j - q) (by omega)
  rw [show q + (j - q) = j by omega] at this
  exact this hj

/-! ## The scan of `init()` -/

theorem NtHash.init_loop_spec (L : LowLevel) (hC : InitContract L) :
    ∀ (fuel : Nat) (s : NtHash), s.k ≤ s.seq_len → s.seq_len < 2 ^ 64 → s.pos < 2 ^ 64 →
      s.k < 2 ^ 16 → (s.k ≠ 0 ∨ s.seq_len + 1 < 2 ^ 64) →
      s.seq_len + 1 - s.k - s.pos < fuel →
      ∃ t, NtHash.init_loop L fuel s = some t ∧ NtHash.sameConfig s t ∧
        t.initialized = s.initialized ∧ s.pos ≤ t.pos ∧ t.pos < 2 ^ 64 ∧
        (∀ q, s.pos ≤ q → q < t.pos → ¬ validWindow L s.seq q s.k) ∧
        ((t.pos + s.k ≤ s.seq_len ∧ validWindow L s.seq t.pos s.k ∧
            L.ntmc64_init (window s.seq t.pos s.k) s.k s.hash_num =
              InitResult.ok t.forward_hash t.reverse_hash t.hashes_array) ∨
         s.seq_len < t.pos + s.k) := by
  intro fuel
  induction fuel with
  | zero => intro s _ _ _ _ _ hf; omega
  | succ n ih =>
    intro s hk hlen hpos hk16 hcorner hfuel
    have hb : sz (szSub s.seq_len s.k + 1) = s.seq_len + 1 - s.k := by
      unfold sz szSub; omega
    by_cases hlt : s.pos < s.seq_len + 1 - s.k
    · cases hres : L.ntmc64_init (window s.seq s.pos s.k) s.k s.hash_num with
      | ok fh rh hs =>
        refine ⟨{ s with forward_hash := fh, reverse_hash := rh, hashes_array := hs }, ?_,
          ⟨rfl, rfl, rfl, rfl⟩, rfl, Nat.le_refl _, hpos, ?_, Or.inl ⟨?_, ?_, hres⟩⟩
        · simp [NtHash.init_loop, hb, hlt, hres]
        · intro q h1 h2; exact absurd h2 (by simp; omega)
        · simp; omega
        · exact validWindow_of_init_ok L hC s.seq s.pos s.k s.hash_num fh rh hs hres
      | invalid posN fh rh =>
        obtain ⟨hp, hinv⟩ :=
          invalid_of_init_invalid L hC s.seq s.pos s.k s.hash_num posN fh rh hres
        have hnew : sz (s.pos + u32 (posN + 1)) = s.pos + posN + 1 := by
          unfold sz u32; omega
        obtain ⟨t, ht, hcfg, hini, hle, hlt64, hskip, hfin⟩ :=
          ih { s with pos := sz (s.pos + u32 (posN + 1)), forward_hash := fh,
                      reverse_hash := rh } hk hlen
            (by simp only [hnew]; omega) hk16 hcorner (by simp only [hnew]; omega)
        simp only [hnew] at ht hle hskip hfin hcfg hini
        refine ⟨t, ?_, hcfg, hini, by omega, hlt64, ?_, hfin⟩
        · simp [NtHash.init_loop, hb, hlt, hres, hnew, ht]
        · intro q h1 h2
          by_cases hq : q ≤ s.pos + posN
          · exact not_validWindow_of_invalid L s.seq q s.k (s.pos + posN) hinv hq (by omega)
          · exact hskip q (by omega) h2
    · refine ⟨s, ?_, ⟨rfl, rfl, rfl, rfl⟩, rfl, Nat.le_refl _, hpos, ?_, Or.inr ?_⟩
      · simp [NtHash.init_loop, hb, hlt]
      · intro q h1 h2; omega
      · omega


/-- What `init()` does under the contract of the low-level initialisation: it returns, and it
either stops on the first valid window at or after `pos`, or finds none and leaves the
sentinel in `pos`. -/
theorem NtHash.init_spec (L : LowLevel) (hC : InitContract L) (s : NtHash)
    (hlen : s.seq_len < 2 ^ 64) (hpos : s.pos < 2 ^ 64) (hk16 : s.k < 2 ^ 16) :
    ∃ b t, NtHash.init L s = some (b, t) ∧ NtHash.sameConfig s t ∧
      (b = true → t.initialized = true ∧ s.pos ≤ t.pos ∧ t.pos + s.k ≤ s.seq_len ∧
        validWindow L s.seq t.pos s.k ∧
        (∀ q, s.pos ≤ q → q < t.pos → ¬ validWindow L s.seq q s.k) ∧
        ((s.k ≠ 0 ∨ s.seq_len + 1 < 2 ^ 64) →
          L.ntmc64_init (window s.seq t.pos s.k) s.k s.hash_num =
            InitResult.ok t.forward_hash t.reverse_hash t.hashes_array)) ∧
      (b = false → t.pos = SIZE_MAX ∧ t.initialized = s.initialized ∧
        ∀ q, s.pos ≤ q → q + s.k ≤ s.seq_len → ¬ validWindow L s.seq q s.k) := by
  by_cases hk : s.k > s.seq_len
  · refine ⟨false, { s with pos := SIZE_MAX }, by simp [NtHash.init, hk],
      ⟨rfl, rfl, rfl, rfl⟩, by simp, ?_⟩
    intro _
    refine ⟨rfl, rfl, ?_⟩
    intro q _ h2; omega
  · have hk2 : s.k ≤ s.seq_len := by omega
    by_cases hcorner : s.k ≠ 0 ∨ s.seq_len + 1 < 2 ^ 64
    · obtain ⟨t, ht, hcfg, hini, hle, hlt64, hskip, hfin⟩ :=
        NtHash.init_loop_spec L hC (s.seq_len + 2) s hk2 hlen hpos hk16 hcorner (by omega)
      obtain ⟨c1, c2, c3, c4⟩ := hcfg
      have hsub : szSub t.seq_len t.k = s.seq_len - s.k := by
        rw [c2, c4]; exact szSub_of_le hk2 hlen
      rcases hfin with ⟨h1, h2, h3⟩ | h1
      · refine ⟨true, { t with initialized := true }, ?_, ⟨c1, c2, c3, c4⟩, ?_, by simp⟩
        · have : ¬ (t.pos > s.seq_len - s.k) := by omega
          simp [NtHash.init, hk, ht, hsub, this]
        · intro _
          exact ⟨rfl, hle, h1, h2, hskip, fun _ => h3⟩
      · refine ⟨false, { t with pos := SIZE_MAX }, ?_, ⟨c1, c2, c3, c4⟩, by simp, ?_⟩
        · have : t.pos > s.seq_len - s.k := by omega
          simp [NtHash.init, hk, ht, hsub, this]
        · intro _
          refine ⟨rfl, hini, ?_⟩
          intro q hq1 hq2
          exact hskip q hq1 (by omega)
    · have hk0 : s.k = 0 := by omega
      have hmax : s.seq_len + 1 = 2 ^ 64 := by omega
      have hb : sz (szSub s.seq_len s.k + 1) = 0 := by
        unfold sz szSub; omega
      have hsub : szSub s.seq_len s.k = s.seq_len := by
        unfold szSub; omega
      refine ⟨true, { s with initialized := true }, ?_, ⟨rfl, rfl, rfl, rfl⟩, ?_, by simp⟩
      · have hl : NtHash.init_loop L (s.seq_len + 1 + 1) s = some s := by
          simp only [NtHash.init_loop, hb]; simp
        have : ¬ (s.pos > s.seq_len) := by omega
        simp [NtHash.init, hk, hl, hsub, this]
      · intro _
        refine ⟨rfl, Nat.le_refl _, by simp; omega, ?_, ?_, fun h => absurd h hcorner⟩
        · intro i hi; omega
        · intro q h1 h2; simp at h2; omega


theorem window_succ_left (seq : List Char) (pos k : Nat) :
    window seq pos (k + 1) = seqAt seq pos :: window seq (pos + 1) k := by
  unfold window
  rw [List.range_succ_eq_map]
  simp only [List.map_cons, List.map_map, Nat.add_zero]
  congr 1
  apply List.map_congr_left
  intro i _
  simp only [Function.comp, Nat.succ_eq_add_one]
  congr 1
  omega

theorem window_succ_right (seq : List Char) (pos k : Nat) :
    window seq pos (k + 1) = window seq pos k ++ [seqAt seq (pos + k)] := by
  unfold window
  rw [List.range_succ]
  simp

/-! ## One call of `roll()` on an initialised iterator -/

theorem NtHash.roll_spec (L : LowLevel) (hC : InitContract L) (s : NtHash)
    (hgood : s.onValidWindow L) (hlen : s.seq_len < 2 ^ 64) (hk16 : s.k < 2 ^ 16)
    (hk : 0 < s.k) :
    ∃ b t, NtHash.roll L s = some (b, t) ∧ NtHash.sameConfig s t ∧
      (b = true → t.onValidWindow L ∧ s.pos < t.pos ∧
        (∀ q, s.pos < q → q < t.pos → ¬ validWindow L s.seq q s.k) ∧
        (ShiftContract L → s.accFromScratch L → t.fromScratch L)) ∧
      (b = false → (t = s ∨ t.pos = SIZE_MAX) ∧ t.initialized = true ∧
        ∀ q, s.pos < q → q + s.k ≤ s.seq_len → ¬ validWindow L s.seq q s.k) := by
  obtain ⟨hinit, hfit, hval⟩ := hgood
  have hsub : szSub s.seq_len s.k = s.seq_len - s.k := szSub_of_le (by omega) hlen
  by_cases hlast : s.pos ≥ s.seq_len - s.k
  · refine ⟨false, s, by simp [NtHash.roll, hinit, hsub, hlast], ⟨rfl, rfl, rfl, rfl⟩,
      by simp, ?_⟩
    intro _
    refine ⟨Or.inl rfl, hinit, ?_⟩
    intro q h1 h2; omega
  · have hpk : sz (s.pos + s.k) = s.pos + s.k := sz_of_lt (by omega)
    have hlast2 : ¬ (s.seq_len - s.k ≤ s.pos) := hlast
    by_cases hN : L.SEED_TAB (seqAt s.seq (s.pos + s.k)) = L.SEED_N
    · obtain ⟨b, t, ht, hcfg, htrue, hfalse⟩ :=
        NtHash.init_spec L hC { s with pos := s.pos + s.k } hlen
          (by show s.pos + s.k < 2 ^ 64; omega) hk16
      have hcfg2 : NtHash.sameConfig s t := hcfg
      simp only [hinit] at ht
      obtain ⟨c1, c2, c3, c4⟩ := hcfg2
      refine ⟨b, t, by simp [NtHash.roll, hinit, hsub, hlast2, hpk, hN, ht], hcfg, ?_, ?_⟩
      · intro hb
        obtain ⟨h1, h2, h3, h4, h5, h6⟩ := htrue hb
        simp only at h2 h3 h4 h5 h6
        refine ⟨⟨h1, by rw [c2, c4]; exact h3, by rw [c1, c4]; exact h4⟩, by omega, ?_, ?_⟩
        · intro q hq1 hq2
          by_cases hq : q < s.pos + s.k
          · exact not_validWindow_of_invalid L s.seq q s.k (s.pos + s.k) hN (by omega)
              (by omega)
          · exact h5 q (by omega) hq2
        · intro _ _
          have := h6 (Or.inl (by omega))
          unfold NtHash.fromScratch NtHash.get_pos NtHash.get_k NtHash.get_hash_num
            NtHash.get_forward_hash NtHash.get_reverse_hash NtHash.hashes
          rw [c1, c3, c4]; exact this
      · intro hb
        obtain ⟨h1, h2, h6⟩ := hfalse hb
        simp only at h2 h6
        refine ⟨Or.inr h1, by rw [h2]; exact hinit, ?_⟩
        intro q hq1 hq2
        by_cases hq : q < s.pos + s.k
        · exact not_validWindow_of_invalid L s.seq q s.k (s.pos + s.k) hN (by omega)
            (by omega)
        · exact h6 q (by omega) hq2
    · rcases hsh : L.ntmc64 (seqAt s.seq s.pos) (seqAt s.seq (s.pos + s.k)) s.k s.hash_num
        s.forward_hash s.reverse_hash with ⟨fh, rh, hs⟩
      have hp1 : sz (s.pos + 1) = s.pos + 1 := sz_of_lt (by omega)
      refine ⟨true, { s with forward_hash := fh, reverse_hash := rh, hashes_array := hs,
                             pos := s.pos + 1 }, ?_, ⟨rfl, rfl, rfl, rfl⟩, ?_, by simp⟩
      · simp [NtHash.roll, hinit, hsub, hlast2, hpk, hN, hsh, hp1]
      · intro _
        refine ⟨⟨hinit, by show s.pos + 1 + s.k ≤ s.seq_len; omega, ?_⟩,
          by show s.pos < s.pos + 1; omega, ?_, ?_⟩
        · intro i hi
          have hi2 : i < s.k := hi
          show L.SEED_TAB (seqAt s.seq (s.pos + 1 + i)) ≠ L.SEED_N
          by_cases hik : i + 1 < s.k
          · have := hval (i + 1) hik
            rw [show s.pos + 1 + i = s.pos + (i + 1) by omega]; exact this
          · rw [show s.pos + 1 + i = s.pos + s.k by omega]; exact hN
        · intro q hq1 hq2
          have hq3 : q < s.pos + 1 := hq2
          omega
        · intro hS hacc
          obtain ⟨hs0, hacc⟩ := hacc
          obtain ⟨k0, hk0⟩ : ∃ k0, s.k = k0 + 1 := ⟨s.k - 1, by omega⟩
          have hw : window s.seq s.pos s.k = seqAt s.seq s.pos :: window s.seq (s.pos + 1) k0 := by
            rw [hk0]; exact window_succ_left s.seq s.pos k0
          rw [hw] at hacc
          obtain ⟨fh2, rh2, hs2, e1, e2⟩ :=
            hS (seqAt s.seq s.pos) (seqAt s.seq (s.pos + s.k)) (window s.seq (s.pos + 1) k0)
              s.k s.hash_num s.forward_hash s.reverse_hash hs0
              (by simp [window_length]; omega) hN hacc
          rw [hsh] at e1
          simp only [Prod.mk.injEq] at e1
          obtain ⟨e11, e12, e13⟩ := e1
          subst e11 e12 e13
          show L.ntmc64_init (window s.seq (s.pos + 1) s.k) s.k s.hash_num =
            InitResult.ok fh rh hs
          rw [← e2, hk0, window_succ_right]
          rw [show s.pos + 1 + k0 = s.pos + (k0 + 1) by omega]


/-! ## The stand-in routines meet the contracts -/

theorem toyScan_none (w : List Char) :
    ∀ n, toyScan w n = none ↔ ∀ i, i < n → toySeed (w.getD i nul) ≠ 0 := by
  intro n
  induction n with
  | zero => simp [toyScan]
  | succ n ih =>
    by_cases h : toySeed (w.getD n nul) = 0
    · simp only [toyScan, h, if_true]
      constructor
      · intro hc; cases hc
      · intro hall; exact absurd h (hall n (by omega))
    · simp only [toyScan, h, if_false, ih]
      constructor
      · intro hall i hi
        by_cases hin : i = n
        · subst hin; exact h
        · exact hall i (by omega)
      · intro hall i hi; exact hall i (by omega)

theorem toyScan_some (w : List Char) :
    ∀ n p, toyScan w n = some p →
      p < n ∧ toySeed (w.getD p nul) = 0 ∧ ∀ j, p < j → j < n → toySeed (w.getD j nul) ≠ 0 := by
  intro n
  induction n with
  | zero => intro p h; simp [toyScan] at h
  | succ n ih =>
    intro p h
    by_cases h0 : toySeed (w.getD n nul) = 0
    · simp only [toyScan, h0, if_true, Option.some.injEq] at h
      subst h
      exact ⟨by omega, h0, fun j h1 h2 => by omega⟩
    · simp only [toyScan, h0, if_false] at h
      obtain ⟨h1, h2, h3⟩ := ih p h
      refine ⟨by omega, h2, ?_⟩
      intro j hj1 hj2
      by_cases hjn : j = n
      · subst hjn; exact h0
      · exact h3 j hj1 (by omega)

theorem toy_initContract : InitContract toyLowLevel := by
  intro w k m _
  show match (match toyScan w k with
      | some i => InitResult.invalid i 0 0
      | none => InitResult.ok (toyAcc toySeed w) (toyAcc toyComp w)
          (toyHashes m (toyAcc toySeed w) (toyAcc toyComp w))) with
    | InitResult.ok _ _ _ => ∀ i, i < k → toyLowLevel.validSym (w.getD i nul)
    | InitResult.invalid posN _ _ =>
      posN < k ∧ ¬ toyLowLevel.validSym (w.getD posN nul) ∧
        ∀ j, posN < j → j < k → toyLowLevel.validSym (w.getD j nul)
  cases h : toyScan w k with
  | none => exact (toyScan_none w k).mp h
  | some p =>
    obtain ⟨h1, h2, h3⟩ := toyScan_some w k p h
    exact ⟨h1, fun hv => hv h2, h3⟩

theorem toyAcc_cons (f : Char → Nat) (a : Char) (w : List Char) :
    toyAcc f (a :: w) = f a ^^^ toyAcc f w := by
  simp [toyAcc]

theorem toyAcc_snoc (f : Char → Nat) (c : Char) (w : List Char) :
    toyAcc f (w ++ [c]) = toyAcc f w ^^^ f c := by
  induction w with
  | nil => simp [toyAcc]
  | cons a w ih => rw [List.cons_append, toyAcc_cons, toyAcc_cons, ih, Nat.xor_assoc]

theorem toy_xor_shift (x a c : Nat) : (a ^^^ x) ^^^ a ^^^ c = x ^^^ c := by
  rw [Nat.xor_comm a x, Nat.xor_assoc x a a, Nat.xor_self, Nat.xor_zero]

theorem toy_shiftContract : ShiftContract toyLowLevel := by
  intro a c w k m fh rh hs hlen hc hinit
  have hinit2 : (match toyScan (a :: w) k with
      | some i => InitResult.invalid i 0 0
      | none => InitResult.ok (toyAcc toySeed (a :: w)) (toyAcc toyComp (a :: w))
          (toyHashes m (toyAcc toySeed (a :: w)) (toyAcc toyComp (a :: w)))) =
      InitResult.ok fh rh hs := hinit
  cases h : toyScan (a :: w) k with
  | some p => rw [h] at hinit2; cases hinit2
  | none =>
    rw [h] at hinit2
    simp only [InitResult.ok.injEq] at hinit2
    obtain ⟨e1, e2, _⟩ := hinit2
    have hall := (toyScan_none (a :: w) k).mp h
    have hnone : toyScan (w ++ [c]) k = none := by
      rw [toyScan_none]
      intro i hi
      simp only [List.length_cons] at hlen
      by_cases hiw : i < w.length
      · have := hall (i + 1) (by omega)
        simp only [List.getD_cons_succ] at this
        rw [List.getD_append _ _ _ _ hiw]
        exact this
      · have hi2 : i = w.length := by omega
        subst hi2
        rw [List.getD_append_right _ _ _ _ (Nat.le_refl _)]
        simpa using hc
    refine ⟨fh ^^^ toySeed a ^^^ toySeed c, rh ^^^ toyComp a ^^^ toyComp c,
      toyHashes m (fh ^^^ toySeed a ^^^ toySeed c) (rh ^^^ toyComp a ^^^ toyComp c), rfl, ?_⟩
    show (match toyScan (w ++ [c]) k with
      | some i => InitResult.invalid i 0 0
      | none => InitResult.ok (toyAcc toySeed (w ++ [c])) (toyAcc toyComp (w ++ [c]))
          (toyHashes m (toyAcc toySeed (w ++ [c])) (toyAcc toyComp (w ++ [c])))) = _
    rw [hnone]
    simp only
    rw [toyAcc_snoc, toyAcc_snoc, ← e1, ← e2, toyAcc_cons, toyAcc_cons, toy_xor_shift,
      toy_xor_shift]

theorem toy_shiftBackInverts : ShiftBackInverts toyLowLevel := by
  intro a c k m fh rh
  show (fh ^^^ toySeed a ^^^ toySeed c) ^^^ toySeed c ^^^ toySeed a = fh ∧
    (rh ^^^ toyComp a ^^^ toyComp c) ^^^ toyComp c ^^^ toyComp a = rh
  constructor
  · rw [Nat.xor_assoc (fh ^^^ toySeed a), Nat.xor_self, Nat.xor_zero, Nat.xor_assoc,
      Nat.xor_self, Nat.xor_zero]
  · rw [Nat.xor_assoc (rh ^^^ toyComp a), Nat.xor_self, Nat.xor_zero, Nat.xor_assoc,
      Nat.xor_self, Nat.xor_zero]

/-! ## Construction -/

theorem NtHash.new_ok (seq : List Char) (seq_len hash_num k pos : Nat) (s : NtHash)
    (ws : List String) (h : NtHash.new seq seq_len hash_num k pos = Except.ok (s, ws)) :
    k ≤ NTHASH_K_MAX ∧ hash_num ≤ NTHASH_HASH_NUM_MAX ∧
      s = { seq := seq, seq_len := seq_len, hash_num := hash_num, k := k, pos := pos,
            initialized := false, hashes_array := List.replicate hash_num 0,
            forward_hash := 0, reverse_hash := 0 } := by
  unfold NtHash.new check_error at h
  by_cases h1 : k > NTHASH_K_MAX
  · simp [h1, bind, Except.bind] at h
  · by_cases h2 : hash_num > NTHASH_HASH_NUM_MAX
    · simp [h1, h2, bind, Except.bind] at h
    · simp [h1, h2, bind, Except.bind, pure, Except.pure] at h
      unfold NTHASH_K_MAX at h1
      unfold NTHASH_HASH_NUM_MAX at h2
      refine ⟨by unfold NTHASH_K_MAX; omega, by unfold NTHASH_HASH_NUM_MAX; omega, ?_⟩
      rw [← h.1]
      have e1 : hash_num % 256 = hash_num := by omega
      have e2 : k % 65536 = k := by omega
      simp [e1, e2]


/-! ## Runs of `roll()` -/

theorem filter_range_none (P : Nat → Bool) (a n : Nat)
    (h : ∀ x, a ≤ x → x < a + n → P x = false) : (List.range' a n).filter P = [] := by
  rw [List.filter_eq_nil_iff]
  intro x hx
  rw [List.mem_range'] at hx
  obtain ⟨i, hi, rfl⟩ := hx
  have := h (a + i) (by omega) (by omega)
  simp [this]

theorem filter_range_skip (P : Nat → Bool) (a n q : Nat) (h1 : a ≤ q) (h2 : q < a + n)
    (hskip : ∀ x, a ≤ x → x < q → P x = false) (hq : P q = true) :
    (List.range' a n).filter P = q :: (List.range' (q + 1) (a + n - (q + 1))).filter P := by
  have hsplit : List.range' a n =
      List.range' a (q - a) ++ List.range' q (a + n - (q + 1) + 1) := by
    have := List.range'_append a (q - a) (a + n - (q + 1) + 1) 1
    rw [show a + 1 * (q - a) = q by omega,
      show a + n - (q + 1) + 1 + (q - a) = n by omega] at this
    exact this.symm
  rw [hsplit, List.filter_append, List.range'_succ, List.filter_cons, if_pos hq,
    filter_range_none P a (q - a) (fun x hx1 hx2 => hskip x hx1 (by omega))]
  rfl

theorem NtHash.rollPositions_onValid (L : LowLevel) (hC : InitContract L) :
    ∀ (n : Nat) (s : NtHash), s.onValidWindow L → s.seq_len < 2 ^ 64 → s.k < 2 ^ 16 →
      0 < s.k → s.seq_len - s.k - s.pos < n →
      NtHash.rollPositions L n s =
        some ((List.range' (s.pos + 1) (s.seq_len - s.k - s.pos)).filter
          (fun q => decide (validWindow L s.seq q s.k))) := by
  intro n
  induction n with
  | zero => intro s _ _ _ _ h; omega
  | succ n ih =>
    intro s hgood hlen hk16 hk hn
    obtain ⟨b, t, hroll, hcfg, htrue, hfalse⟩ := NtHash.roll_spec L hC s hgood hlen hk16 hk
    have hfit := hgood.2.1
    cases b with
    | false =>
      obtain ⟨_, _, hno⟩ := hfalse rfl
      simp only [NtHash.rollPositions, hroll]
      rw [filter_range_none]
      intro x hx1 hx2
      simpa using hno x (by omega) (by omega)
    | true =>
      obtain ⟨hg2, hlt, hskip, _⟩ := htrue rfl
      obtain ⟨c1, c2, c3, c4⟩ := hcfg
      have hfit2 := hg2.2.1
      have hval2 := hg2.2.2
      rw [c2, c4] at hfit2
      rw [c1, c4] at hval2
      have := ih t hg2 (by rw [c2]; exact hlen) (by rw [c4]; exact hk16) (by rw [c4]; exact hk)
        (by rw [c2, c4]; omega)
      simp only [NtHash.rollPositions, hroll, this, Option.map_some', NtHash.get_pos]
      rw [c1, c2, c4]
      rw [filter_range_skip _ (s.pos + 1) (s.seq_len - s.k - s.pos) t.pos (by omega) (by omega)
        (fun x hx1 hx2 => by simpa using hskip x (by omega) hx2) (by simpa using hval2)]
      rw [show s.pos + 1 + (s.seq_len - s.k - s.pos) - (t.pos + 1) = s.seq_len - s.k - t.pos by
        omega]

theorem NtHash.rollPositions_uninit (L : LowLevel) (hC : InitContract L) (s : NtHash)
    (hun : s.initialized = false) (hlen : s.seq_len < 2 ^ 64) (hpos : s.pos < 2 ^ 64)
    (hk16 : s.k < 2 ^ 16) (hk : 0 < s.k) (n : Nat) (hn : s.seq_len + 2 ≤ n) :
    NtHash.rollPositions L n s =
      some ((List.range' s.pos (s.seq_len + 1 - s.k - s.pos)).filter
        (fun q => decide (validWindow L s.seq q s.k))) := by
  obtain ⟨n, rfl⟩ : ∃ n0, n = n0 + 1 := ⟨n - 1, by omega⟩
  obtain ⟨b, t, hinit, hcfg, htrue, hfalse⟩ := NtHash.init_spec L hC s hlen hpos hk16
  have hroll : NtHash.roll L s = some (b, t) := by simp [NtHash.roll, hun, hinit]
  cases b with
  | false =>
    obtain ⟨_, _, hno⟩ := hfalse rfl
    simp only [NtHash.rollPositions, hroll]
    rw [filter_range_none]
    intro x hx1 hx2
    simpa using hno x (by omega) (by omega)
  | true =>
    obtain ⟨h1, h2, h3, h4, h5, _⟩ := htrue rfl
    obtain ⟨c1, c2, c3, c4⟩ := hcfg
    have hg : t.onValidWindow L := ⟨h1, by rw [c2, c4]; exact h3, by rw [c1, c4]; exact h4⟩
    have := NtHash.rollPositions_onValid L hC n t hg (by rw [c2]; exact hlen)
      (by rw [c4]; exact hk16) (by rw [c4]; exact hk) (by rw [c2, c4]; omega)
    simp only [NtHash.rollPositions, hroll, this, Option.map_some', NtHash.get_pos]
    rw [c1, c2, c4]
    rw [filter_range_skip _ s.pos (s.seq_len + 1 - s.k - s.pos) t.pos h2 (by omega)
      (fun x hx1 hx2 => by simpa using h5 x hx1 hx2) (by simpa using h4)]
    rw [show s.pos + (s.seq_len + 1 - s.k - s.pos) - (t.pos + 1) = s.seq_len - s.k - t.pos by
      omega]


/-! ## Claims about the forward scan -/

/-- C1 (amended): for every buffer, every window length `k ≥ 1` and every start position,
calling `roll()` on a freshly constructed `NtHash` until it returns `false` reports, through
`get_pos()`, exactly the starts `q` with `pos ≤ q ≤ seq_len - k` of the windows that hold no
invalid symbol, in strictly increasing order. The low-level initialisation is assumed to fail
exactly on windows with an invalid symbol and to report the index of the last one. -/
theorem NtHash.roll_reports_exactly_valid_windows (L : LowLevel) (hC : InitContract L)
    (seq : List Char) (seq_len hash_num k pos : Nat) (s : NtHash) (ws : List String)
    (hnew : NtHash.new seq seq_len hash_num k pos = Except.ok (s, ws))
    (hk : 0 < k) (hlen : seq_len < 2 ^ 64) (hpos : pos < 2 ^ 64)
    (n : Nat) (hn : seq_len + 2 ≤ n) :
    ∃ ps, NtHash.rollPositions L n s = some ps ∧
      ps = (List.range' pos (seq_len + 1 - k - pos)).filter
        (fun q => decide (validWindow L seq q k)) ∧
      ps.Pairwise (fun a b => a < b) ∧
      ∀ q, q ∈ ps ↔ (pos ≤ q ∧ q + k ≤ seq_len ∧ validWindow L seq q k) := by
  obtain ⟨hk1, _, hs⟩ := NtHash.new_ok seq seq_len hash_num k pos s ws hnew
  subst hs
  unfold NTHASH_K_MAX at hk1
  refine ⟨_, NtHash.rollPositions_uninit L hC _ rfl hlen hpos (by show k < 2 ^ 16; omega) hk
    n hn, rfl, ?_, ?_⟩
  · exact List.Pairwise.filter _ (List.pairwise_lt_range' pos _)
  · intro q
    simp only [List.mem_filter, List.mem_range', decide_eq_true_eq]
    constructor
    · rintro ⟨⟨i, hi, rfl⟩, hv⟩
      exact ⟨by omega, by omega, hv⟩
    · rintro ⟨h1, h2, hv⟩
      exact ⟨⟨q - pos, by omega, by omega⟩, hv⟩

/-- Witness for C1: the buffer `ACGTNACGTTNAC` with `k = 3`, started at 0. -/
theorem NtHash.roll_reports_exactly_valid_windows_witness :
    InitContract toyLowLevel ∧
    ∃ ps, NtHash.rollPositions toyLowLevel 15 (NtHash.fresh "ACGTNACGTTNAC".toList 1 3 0) =
        some ps ∧
      ps = (List.range' 0 (13 + 1 - 3 - 0)).filter
        (fun q => decide (validWindow toyLowLevel "ACGTNACGTTNAC".toList q 3)) ∧
      ps.Pairwise (fun a b => a < b) ∧
      ∀ q, q ∈ ps ↔ (0 ≤ q ∧ q + 3 ≤ 13 ∧ validWindow toyLowLevel "ACGTNACGTTNAC".toList q 3) :=
  ⟨toy_initContract,
    NtHash.roll_reports_exactly_valid_windows toyLowLevel toy_initContract
      "ACGTNACGTTNAC".toList 13 1 3 0 (NtHash.fresh "ACGTNACGTTNAC".toList 1 3 0) [] rfl
      (by decide) (by decide) (by decide) 15 (by decide)⟩

theorem NtHash.zeroWindowState_roll :
    NtHash.roll toyLowLevel NtHash.zeroWindowState = some (true, NtHash.zeroWindowState) := by
  decide

theorem NtHash.zeroWindowState_never_ends :
    ∀ n, NtHash.rollPositions toyLowLevel n NtHash.zeroWindowState = none := by
  intro n
  induction n with
  | zero => rfl
  | succ n ih =>
    simp only [NtHash.rollPositions, NtHash.zeroWindowState_roll, ih, Option.map_none']

/-- Counterexample to C1 as stated for every `k`: over the buffer `N` with `k = 0` the first
`roll()` succeeds at position 0, and every later `roll()` succeeds again at position 0, so the
reported positions do not increase and no call ever returns `false`. -/
theorem NtHash.roll_window_length_zero_repeats :
    InitContract toyLowLevel ∧
    ∃ s ws t, NtHash.new "N".toList 1 1 0 0 = Except.ok (s, ws) ∧
      NtHash.roll toyLowLevel s = some (true, t) ∧ t.get_pos = 0 ∧
      NtHash.roll toyLowLevel t = some (true, t) ∧
      ∀ n, NtHash.rollPositions toyLowLevel n s = none := by
  refine ⟨toy_initContract, NtHash.fresh "N".toList 1 0 0, _, NtHash.zeroWindowState, rfl,
    by decide, rfl, NtHash.zeroWindowState_roll, ?_⟩
  intro n
  cases n with
  | zero => rfl
  | succ n =>
    have hr : NtHash.roll toyLowLevel (NtHash.fresh "N".toList 1 0 0) =
        some (true, NtHash.zeroWindowState) := by decide
    simp only [NtHash.rollPositions, hr, NtHash.zeroWindowState_never_ends, Option.map_none']

/-- C2: on an `NtHash` on which no roll has been performed, with start position `pos`,
`roll()` returns. If some window start `q` with `pos ≤ q ≤ seq_len - k` has a window without
invalid symbol, it returns `true` and leaves the smallest such `q` in `pos`; otherwise it
returns `false` and leaves the sentinel maximum in `pos`. The low-level initialisation is
assumed to fail exactly on windows with an invalid symbol and to report the index of the last
one. -/
theorem NtHash.first_roll_nearest_valid_window (L : LowLevel) (hC : InitContract L)
    (s : NtHash) (hun : s.initialized = false) (hlen : s.seq_len < 2 ^ 64)
    (hpos : s.pos < 2 ^ 64) (hk16 : s.k < 2 ^ 16) :
    ∃ b t, NtHash.roll L s = some (b, t) ∧
      ((∃ q, s.pos ≤ q ∧ q + s.k ≤ s.seq_len ∧ validWindow L s.seq q s.k) →
        b = true ∧ s.pos ≤ t.get_pos ∧ t.get_pos + s.k ≤ s.seq_len ∧
          validWindow L s.seq t.get_pos s.k ∧
          ∀ q, s.pos ≤ q → q < t.get_pos → ¬ validWindow L s.seq q s.k) ∧
      ((¬ ∃ q, s.pos ≤ q ∧ q + s.k ≤ s.seq_len ∧ validWindow L s.seq q s.k) →
        b = false ∧ t.get_pos = SIZE_MAX) := by
  obtain ⟨b, t, hinit, _, htrue, hfalse⟩ := NtHash.init_spec L hC s hlen hpos hk16
  refine ⟨b, t, by simp [NtHash.roll, hun, hinit], ?_, ?_⟩
  · rintro ⟨q, hq1, hq2, hq3⟩
    cases b with
    | false =>
      obtain ⟨_, _, hno⟩ := hfalse rfl
      exact absurd hq3 (hno q hq1 hq2)
    | true =>
      obtain ⟨_, h2, h3, h4, h5, _⟩ := htrue rfl
      exact ⟨rfl, h2, h3, h4, h5⟩
  · intro hno
    cases b with
    | false => exact ⟨rfl, (hfalse rfl).1⟩
    | true =>
      obtain ⟨_, h2, h3, h4, _, _⟩ := htrue rfl
      exact absurd ⟨t.pos, h2, h3, h4⟩ hno

/-- Witness for C2: the buffer `NNACGT` with `k = 3`, not yet rolled, started at 0. -/
theorem NtHash.first_roll_nearest_valid_window_witness :
    InitContract toyLowLevel ∧
    ∃ b t, NtHash.roll toyLowLevel (NtHash.fresh "NNACGT".toList 1 3 0) = some (b, t) ∧
      ((∃ q, 0 ≤ q ∧ q + 3 ≤ 6 ∧ validWindow toyLowLevel "NNACGT".toList q 3) →
        b = true ∧ 0 ≤ t.get_pos ∧ t.get_pos + 3 ≤ 6 ∧
          validWindow toyLowLevel "NNACGT".toList t.get_pos 3 ∧
          ∀ q, 0 ≤ q → q < t.get_pos → ¬ validWindow toyLowLevel "NNACGT".toList q 3) ∧
      ((¬ ∃ q, 0 ≤ q ∧ q + 3 ≤ 6 ∧ validWindow toyLowLevel "NNACGT".toList q 3) →
        b = false ∧ t.get_pos = SIZE_MAX) :=
  ⟨toy_initContract,
    NtHash.first_roll_nearest_valid_window toyLowLevel toy_initContract
      (NtHash.fresh "NNACGT".toList 1 3 0) rfl (by decide) (by decide) (by decide)⟩

/-- C7: for every buffer with `seq_len < k` and every start position, the first `roll()` of a
freshly constructed `NtHash` returns `false`, `get_pos()` then equals the sentinel maximum,
and the initialized flag stays `false`. -/
theorem NtHash.first_roll_on_short_buffer (L : LowLevel) (seq : List Char)
    (seq_len hash_num k pos : Nat) (s : NtHash) (ws : List String)
    (hnew : NtHash.new seq seq_len hash_num k pos = Except.ok (s, ws))
    (hshort : seq_len < k) :
    ∃ t, NtHash.roll L s = some (false, t) ∧ t.get_pos = SIZE_MAX ∧
      t.initialized = false := by
  obtain ⟨_, _, hs⟩ := NtHash.new_ok seq seq_len hash_num k pos s ws hnew
  subst hs
  refine ⟨{ seq := seq, seq_len := seq_len, hash_num := hash_num, k := k, pos := SIZE_MAX,
            initialized := false, hashes_array := List.replicate hash_num 0,
            forward_hash := 0, reverse_hash := 0 }, ?_, rfl, rfl⟩
  simp [NtHash.roll, NtHash.init, hshort]

/-- Witness for C7: the buffer `AC` with `k = 3`. -/
theorem NtHash.first_roll_on_short_buffer_witness :
    ∃ t, NtHash.roll toyLowLevel (NtHash.fresh "AC".toList 1 3 0) = some (false, t) ∧
      t.get_pos = SIZE_MAX ∧ t.initialized = false :=
  NtHash.first_roll_on_short_buffer toyLowLevel "AC".toList 2 1 3 0
    (NtHash.fresh "AC".toList 1 3 0) [] rfl (by decide)

/-! ## Shift consistency and the round trip -/

theorem NtHash.demoFirst_reached :
    NtHash.roll toyLowLevel (NtHash.fresh "ACGTA".toList 1 3 0) =
      some (true, NtHash.demoFirst) := by
  decide

theorem NtHash.demoSecond_reached :
    NtHash.roll toyLowLevel NtHash.demoFirst = some (true, NtHash.demoSecond) := by
  decide

/-- C3: shift consistency. Let the low-level initialisation fail exactly on windows with an
invalid symbol, and let the forward shift, applied to what the initialisation computes for a
valid window `w` with outgoing symbol `w[0]` and a valid incoming symbol `c`, yield what the
initialisation computes for `w[1..] ++ [c]`. Take an iterator with window length `k ≥ 1` that
has not been initialised yet, or whose accumulators are those the initialisation computes on
its current window. Then after a successful `roll()` the forward accumulator, the reverse
accumulator and all derived hashes equal what the initialisation computes from scratch on
the `k` symbols starting at the new `pos`, and that window lies inside the buffer. -/
theorem NtHash.roll_shift_consistent (L : LowLevel) (hC : InitContract L)
    (hS : ShiftContract L) (s t : NtHash) (hlen : s.seq_len < 2 ^ 64) (hpos : s.pos < 2 ^ 64)
    (hk16 : s.k < 2 ^ 16) (hk : 0 < s.k)
    (hpre : s.initialized = true → s.pos + s.k ≤ s.seq_len ∧ s.accFromScratch L)
    (hroll : NtHash.roll L s = some (true, t)) :
    t.fromScratch L ∧ t.initialized = true ∧ t.get_pos + t.get_k ≤ t.seq_len := by
  cases hini : s.initialized with
  | false =>
    obtain ⟨b, u, hinit, hcfg, htrue, _⟩ := NtHash.init_spec L hC s hlen hpos hk16
    have hr : NtHash.roll L s = some (b, u) := by simp [NtHash.roll, hini, hinit]
    rw [hr] at hroll
    simp only [Option.some.injEq, Prod.mk.injEq] at hroll
    obtain ⟨hb, hu⟩ := hroll
    subst hb hu
    obtain ⟨h1, _, h3, _, _, h6⟩ := htrue rfl
    obtain ⟨c1, c2, c3, c4⟩ := hcfg
    refine ⟨?_, h1, by show u.pos + u.k ≤ u.seq_len; rw [c2, c4]; exact h3⟩
    have := h6 (Or.inl (by omega))
    unfold NtHash.fromScratch NtHash.get_pos NtHash.get_k NtHash.get_hash_num
      NtHash.get_forward_hash NtHash.get_reverse_hash NtHash.hashes
    rw [c1, c3, c4]; exact this
  | true =>
    obtain ⟨hfit, hacc⟩ := hpre hini
    have hval : validWindow L s.seq s.pos s.k := by
      obtain ⟨hs0, h0⟩ := hacc
      exact validWindow_of_init_ok L hC s.seq s.pos s.k s.hash_num _ _ hs0 h0
    obtain ⟨b, u, hr, _, htrue, _⟩ := NtHash.roll_spec L hC s ⟨hini, hfit, hval⟩ hlen hk16 hk
    rw [hr] at hroll
    simp only [Option.some.injEq, Prod.mk.injEq] at hroll
    obtain ⟨hb, hu⟩ := hroll
    subst hb hu
    obtain ⟨hg, _, _, hsc⟩ := htrue rfl
    exact ⟨hsc hS hacc, hg.1, hg.2.1⟩

/-- Witness for C3: the second `roll()` over `ACGTA` with `k = 3`, a shift from the window
`ACG` to the window `CGT`. -/
theorem NtHash.roll_shift_consistent_witness :
    InitContract toyLowLevel ∧ ShiftContract toyLowLevel ∧
    NtHash.roll toyLowLevel NtHash.demoFirst = some (true, NtHash.demoSecond) ∧
    NtHash.demoSecond.fromScratch toyLowLevel ∧ NtHash.demoSecond.initialized = true ∧
    NtHash.demoSecond.get_pos + NtHash.demoSecond.get_k ≤ NtHash.demoSecond.seq_len :=
  ⟨toy_initContract, toy_shiftContract, NtHash.demoSecond_reached,
    NtHash.roll_shift_consistent toyLowLevel toy_initContract toy_shiftContract
      NtHash.demoFirst NtHash.demoSecond (by decide) (by decide) (by decide) (by decide)
      (fun _ => ⟨by decide, ⟨[21], by decide⟩⟩) NtHash.demoSecond_reached⟩

/-- C4: round trip. Let the backward shift, called with the symbol the forward shift took in
as outgoing symbol and the symbol the forward shift dropped as incoming symbol, give back the
accumulators the forward shift started from. For every initialised `NtHash` standing on a
valid window with `pos < seq_len - k` whose incoming symbol `seq[pos + k]` is valid, `roll()`
followed by `roll_back()` returns `true` both times and restores `pos` and both
accumulators. -/
theorem NtHash.roll_then_roll_back_restores (L : LowLevel) (hB : ShiftBackInverts L)
    (s : NtHash) (hini : s.initialized = true) (hlen : s.seq_len < 2 ^ 64)
    (hlt : s.pos + s.k < s.seq_len) (hval : validWindow L s.seq s.pos s.k)
    (hin : L.validSym (seqAt s.seq (s.pos + s.k))) :
    ∃ t u, NtHash.roll L s = some (true, t) ∧ NtHash.roll_back L t = some (true, u) ∧
      u.get_pos = s.get_pos ∧ u.get_forward_hash = s.get_forward_hash ∧
      u.get_reverse_hash = s.get_reverse_hash := by
  have hsub : szSub s.seq_len s.k = s.seq_len - s.k := szSub_of_le (by omega) hlen
  have hlast : ¬ (s.seq_len - s.k ≤ s.pos) := by omega
  have hpk : sz (s.pos + s.k) = s.pos + s.k := sz_of_lt (by omega)
  have hp1 : sz (s.pos + 1) = s.pos + 1 := sz_of_lt (by omega)
  have hp1k : sz (s.pos + 1 + s.k) = s.pos + 1 + s.k := sz_of_lt (by omega)
  have hm1 : szSub (s.pos + 1) 1 = s.pos := by
    rw [szSub_of_le (by omega) (by omega)]; omega
  have hm2 : szSub (s.pos + 1 + s.k) 1 = s.pos + s.k := by
    rw [szSub_of_le (by omega) (by omega)]; omega
  have hin2 : ¬ (L.SEED_TAB (seqAt s.seq (s.pos + s.k)) = L.SEED_N) := hin
  have hout : ¬ (L.SEED_TAB (seqAt s.seq s.pos) = L.SEED_N) := by
    by_cases hk : s.k = 0
    · have := hin2
      rw [hk, Nat.add_zero] at this
      exact this
    · have := hval 0 (by omega)
      rw [Nat.add_zero] at this
      exact this
  obtain ⟨h1, h2⟩ := hB (seqAt s.seq s.pos) (seqAt s.seq (s.pos + s.k)) s.k s.hash_num
    s.forward_hash s.reverse_hash
  rcases hsh : L.ntmc64 (seqAt s.seq s.pos) (seqAt s.seq (s.pos + s.k)) s.k s.hash_num
    s.forward_hash s.reverse_hash with ⟨fh, rh, hs⟩
  rw [hsh] at h1 h2
  simp only at h1 h2
  rcases hsb : L.ntmc64l (seqAt s.seq (s.pos + s.k)) (seqAt s.seq s.pos) s.k s.hash_num
    fh rh with ⟨fh2, rh2, hs2⟩
  rw [hsb] at h1 h2
  simp only at h1 h2
  refine ⟨{ s with forward_hash := fh, reverse_hash := rh, hashes_array := hs,
                   pos := s.pos + 1 },
    { s with forward_hash := fh2, reverse_hash := rh2, hashes_array := hs2, pos := s.pos },
    ?_, ?_, rfl, h1, h2⟩
  · simp [NtHash.roll, hini, hsub, hlast, hpk, hin2, hsh, hp1]
  · simp [NtHash.roll_back, hini, hm1, hm2, hp1k, hout, hsb]

/-- Witness for C4: the window `ACG` of `ACGTA` with `k = 3`; the incoming symbol is `T`. -/
theorem NtHash.roll_then_roll_back_restores_witness :
    ShiftBackInverts toyLowLevel ∧
    ∃ t u, NtHash.roll toyLowLevel NtHash.demoFirst = some (true, t) ∧
      NtHash.roll_back toyLowLevel t = some (true, u) ∧
      u.get_pos = NtHash.demoFirst.get_pos ∧
      u.get_forward_hash = NtHash.demoFirst.get_forward_hash ∧
      u.get_reverse_hash = NtHash.demoFirst.get_reverse_hash :=
  ⟨toy_shiftBackInverts,
    NtHash.roll_then_roll_back_restores toyLowLevel toy_shiftBackInverts NtHash.demoFirst
      rfl (by decide) (by decide) (by decide) (by decide)⟩


/-! ## The sentinel position and the initialized flag -/

theorem NtHash.init_false_pos (L : LowLevel) (s t : NtHash)
    (h : NtHash.init L s = some (false, t)) : t.pos = SIZE_MAX := by
  unfold NtHash.init at h
  by_cases hk : s.k > s.seq_len
  · simp only [hk, if_true, Option.some.injEq, Prod.mk.injEq, true_and] at h
    rw [← h]
  · simp only [hk, if_false] at h
    cases hl : NtHash.init_loop L (s.seq_len + 2) s with
    | none => rw [hl] at h; cases h
    | some u =>
      rw [hl] at h
      by_cases hgt : u.pos > szSub u.seq_len u.k
      · simp only [hgt, if_true, Option.some.injEq, Prod.mk.injEq, true_and] at h
        rw [← h]
      · simp [hgt] at h

/-- Evaluation for C5: over the buffer `AN` with `k = 1` the first `roll()` succeeds at
position 0; the second one jumps over the invalid symbol, runs `init()`, finds no window and
returns `false`. `init()` stores the sentinel in `pos` and leaves the initialized flag set, so
the state reached has `initialized = true` and `pos > seq_len - k`. -/
theorem NtHash.initialized_with_sentinel_pos :
    ∃ s ws t u, NtHash.new "AN".toList 2 1 1 0 = Except.ok (s, ws) ∧
      NtHash.roll toyLowLevel s = some (true, t) ∧
      NtHash.roll toyLowLevel t = some (false, u) ∧
      u.initialized = true ∧ u.get_pos = SIZE_MAX ∧ ¬ (u.pos ≤ u.seq_len - u.k) := by
  refine ⟨NtHash.fresh "AN".toList 1 1 0, _, NtHash.demoBeforeInvalid, NtHash.demoExhausted,
    rfl, by decide, by decide, rfl, rfl, by decide⟩

/-- Counterexample to C6: over the buffer `A` with `k = 1`, after the first `roll()` the
iterator stands on the last window, which starts at position 0. The next `roll()` returns
`false` and so does `roll_back()`; both leave `pos = 0`, not the sentinel. -/
theorem NtHash.false_on_last_window_keeps_pos :
    ∃ s ws t, NtHash.new "A".toList 1 1 1 0 = Except.ok (s, ws) ∧
      NtHash.roll toyLowLevel s = some (true, t) ∧
      NtHash.roll toyLowLevel t = some (false, t) ∧
      NtHash.roll_back toyLowLevel t = some (false, t) ∧
      t.get_pos = 0 ∧ t.get_pos ≠ SIZE_MAX := by
  refine ⟨NtHash.fresh "A".toList 1 1 0, _, NtHash.demoLastWindow,
    rfl, by decide, by decide, by decide, rfl, by decide⟩

theorem NtHash.roll_false_cases (L : LowLevel) (s t : NtHash)
    (hr : NtHash.roll L s = some (false, t)) :
    t.pos = SIZE_MAX ∨ (s.initialized = true ∧ t = s ∧ szSub s.seq_len s.k ≤ s.pos) := by
  unfold NtHash.roll at hr
  cases hini : s.initialized with
  | false =>
    simp only [hini, Bool.not_false, if_true] at hr
    exact Or.inl (NtHash.init_false_pos L s t hr)
  | true =>
    simp only [hini, Bool.not_true, Bool.false_eq_true, if_false] at hr
    by_cases hlast : s.pos ≥ szSub s.seq_len s.k
    · simp only [hlast, if_true, Option.some.injEq, Prod.mk.injEq, true_and] at hr
      exact Or.inr ⟨rfl, hr.symm, hlast⟩
    · simp only [hlast, if_false] at hr
      by_cases hN : L.SEED_TAB (seqAt s.seq (sz (s.pos + s.k))) = L.SEED_N
      · simp only [hN, if_true] at hr
        exact Or.inl (NtHash.init_false_pos L _ t hr)
      · simp [hN] at hr

theorem NtHash.roll_back_false_cases (L : LowLevel) (s t : NtHash)
    (hr : NtHash.roll_back L s = some (false, t)) :
    t.pos = SIZE_MAX ∨ (s.initialized = true ∧ t = s ∧ s.pos = 0) := by
  unfold NtHash.roll_back at hr
  cases hini : s.initialized with
  | false =>
    simp only [hini, Bool.not_false, if_true] at hr
    exact Or.inl (NtHash.init_false_pos L s t hr)
  | true =>
    simp only [hini, Bool.not_true, Bool.false_eq_true, if_false] at hr
    by_cases hzero : s.pos ≤ 0
    · simp only [hzero, if_true, Option.some.injEq, Prod.mk.injEq, true_and] at hr
      exact Or.inr ⟨rfl, hr.symm, by omega⟩
    · simp only [hzero, if_false] at hr
      by_cases hN : L.SEED_TAB (seqAt s.seq (szSub s.pos 1)) = L.SEED_N
      · simp only [hN, if_true] at hr
        exact Or.inl (NtHash.init_false_pos L _ t hr)
      · simp [hN] at hr

/-- C6 (amended): whenever `roll()` (`back = false`) or `roll_back()` (`back = true`) returns
`false`, either `get_pos()` afterwards equals the sentinel maximum, or the call was made on an
initialised iterator with `pos ≥ seq_len - k` (for `roll()`) or `pos = 0` (for `roll_back()`)
and left the whole state, hence `get_pos()`, unchanged. -/
theorem NtHash.false_leaves_sentinel_or_state (L : LowLevel) (s t : NtHash) (back : Bool)
    (h : (if back then NtHash.roll_back L s else NtHash.roll L s) = some (false, t)) :
    t.get_pos = SIZE_MAX ∨
      (s.initialized = true ∧ t = s ∧
        (if back then s.pos = 0 else szSub s.seq_len s.k ≤ s.pos)) := by
  cases back with
  | false => exact NtHash.roll_false_cases L s t h
  | true => exact NtHash.roll_back_false_cases L s t h

/-- Witness for C6: the second `roll()` over `AN` with `k = 1` returns `false` through
`init()` and leaves the sentinel. -/
theorem NtHash.false_leaves_sentinel_or_state_witness :
    NtHash.roll toyLowLevel NtHash.demoBeforeInvalid = some (false, NtHash.demoExhausted) ∧
    (NtHash.demoExhausted.get_pos = SIZE_MAX ∨
      (NtHash.demoBeforeInvalid.initialized = true ∧
        NtHash.demoExhausted = NtHash.demoBeforeInvalid ∧
        szSub NtHash.demoBeforeInvalid.seq_len NtHash.demoBeforeInvalid.k ≤
          NtHash.demoBeforeInvalid.pos)) :=
  ⟨by decide,
    NtHash.false_leaves_sentinel_or_state toyLowLevel NtHash.demoBeforeInvalid
      NtHash.demoExhausted false (by decide)⟩

/-! ## Peeking -/

/-- Evaluation for C8: on a freshly constructed iterator over `NA` with `k = 1`, on which no
roll has been performed, `peek()` runs `init()`: afterwards the position, the initialized
flag and both accumulators differ from what they were; the position has moved from 0 to 1.
Over `ACGTA` with `k = 3` a `peek()` before the first `roll()` makes that `roll()` report
position 1, where the `roll()` of an iterator that was not peeked reports position 0. -/
theorem NtHash.peek_before_first_roll_moves :
    (∃ s ws t, NtHash.new "NA".toList 2 1 1 0 = Except.ok (s, ws) ∧
      NtHash.peek toyLowLevel s = some (true, t) ∧
      s.get_pos = 0 ∧ t.get_pos = 1 ∧
      t.get_pos ≠ s.get_pos ∧ t.initialized ≠ s.initialized ∧
      t.get_forward_hash ≠ s.get_forward_hash ∧
      t.get_reverse_hash ≠ s.get_reverse_hash) ∧
    (∃ s ws t u v, NtHash.new "ACGTA".toList 5 1 3 0 = Except.ok (s, ws) ∧
      NtHash.peek toyLowLevel s = some (true, t) ∧
      NtHash.roll toyLowLevel t = some (true, u) ∧ u.get_pos = 1 ∧
      NtHash.roll toyLowLevel s = some (true, v) ∧ v.get_pos = 0) := by
  refine ⟨⟨NtHash.fresh "NA".toList 1 1 0, _,
    { seq := "NA".toList, seq_len := 2, hash_num := 1, k := 1, pos := 1, initialized := true,
      hashes_array := [9], forward_hash := 1, reverse_hash := 8 },
    rfl, by decide, rfl, rfl, by decide, by decide, by decide, by decide⟩,
    ⟨NtHash.fresh "ACGTA".toList 1 3 0, _, NtHash.demoFirst, NtHash.demoSecond,
      NtHash.demoFirst, rfl, by decide, by decide, rfl, by decide, rfl⟩⟩

/-- The peeks on an initialised iterator: for every `NtHash` and `BlindNtHash` state whose
initialized flag is set, each peek variant, `peek()`, `peek_back()`, `peek(char)` and
`peek_back(char)`, returns `true` and leaves `pos`, the initialized flag, the forward
accumulator and the reverse accumulator as they were before the call. -/
theorem NtHash.peek_leaves_cursor (L : LowLevel) (s : NtHash) (b : BlindNtHash)
    (char_in : Char) (hs : s.initialized = true) (hb : b.initialized = true) :
    (∃ t, NtHash.peek L s = some (true, t) ∧ s.sameCursor t) ∧
    (∃ t, NtHash.peek_back L s = some (true, t) ∧ s.sameCursor t) ∧
    (∃ t, NtHash.peek_char L s char_in = some (true, t) ∧ s.sameCursor t) ∧
    (∃ t, NtHash.peek_back_char L s char_in = some (true, t) ∧ s.sameCursor t) ∧
    (∃ u, BlindNtHash.peek L b char_in = some (true, u) ∧ b.sameCursor u) ∧
    (∃ u, BlindNtHash.peek_back L b char_in = some (true, u) ∧ b.sameCursor u) := by
  have hs2 : ¬ ((!s.initialized) = true) := by simp [hs]
  have hb2 : ¬ ((!b.initialized) = true) := by simp [hb]
  refine ⟨⟨{ s with hashes_array := (L.ntmc64 (seqAt s.seq s.pos)
      (seqAt s.seq (sz (s.pos + s.k))) s.k s.hash_num s.forward_hash s.reverse_hash).2.2 },
      ?_, rfl, rfl, rfl, rfl⟩,
    ⟨{ s with hashes_array := (L.ntmc64l (seqAt s.seq (szSub (sz (s.pos + s.k)) 1))
      (seqAt s.seq (szSub s.pos 1)) s.k s.hash_num s.forward_hash s.reverse_hash).2.2 },
      ?_, rfl, rfl, rfl, rfl⟩,
    ⟨{ s with hashes_array := (L.ntmc64 (seqAt s.seq s.pos) char_in s.k s.hash_num
      s.forward_hash s.reverse_hash).2.2 }, ?_, rfl, rfl, rfl, rfl⟩,
    ⟨{ s with hashes_array := (L.ntmc64l (seqAt s.seq (szSub (sz (s.pos + s.k)) 1)) char_in
      s.k s.hash_num s.forward_hash s.reverse_hash).2.2 }, ?_, rfl, rfl, rfl, rfl⟩,
    ⟨{ b with hashes_array := (L.ntmc64 (seqAt b.seq (b.pos % b.seq_len)) char_in b.k
      b.hash_num b.forward_hash b.reverse_hash).2.2 }, ?_, rfl, rfl, rfl, rfl⟩,
    ⟨{ b with hashes_array := (L.ntmc64l (seqAt b.seq (szSub (sz (b.pos + b.k)) 1 % b.seq_len))
      char_in b.k b.hash_num b.forward_hash b.reverse_hash).2.2 }, ?_, rfl, rfl, rfl, rfl⟩⟩
  · unfold NtHash.peek; rw [if_neg hs2]
  · unfold NtHash.peek_back; rw [if_neg hs2]
  · unfold NtHash.peek_char; rw [if_neg hs2]
  · unfold NtHash.peek_back_char; rw [if_neg hs2]
  · unfold BlindNtHash.peek; rw [if_neg hb2]
  · unfold BlindNtHash.peek_back; rw [if_neg hb2]

/-- An instance of the peeks on an initialised iterator: an `NtHash` on the window `ACG` of
`ACGTA` and a `BlindNtHash` holding the window `ACG`, peeking with the symbol `T`. -/
theorem NtHash.peek_leaves_cursor_witness :
    (∃ t, NtHash.peek toyLowLevel NtHash.demoFirst = some (true, t) ∧
      NtHash.demoFirst.sameCursor t) ∧
    (∃ t, NtHash.peek_back toyLowLevel NtHash.demoFirst = some (true, t) ∧
      NtHash.demoFirst.sameCursor t) ∧
    (∃ t, NtHash.peek_char toyLowLevel NtHash.demoFirst 'T' = some (true, t) ∧
      NtHash.demoFirst.sameCursor t) ∧
    (∃ t, NtHash.peek_back_char toyLowLevel NtHash.demoFirst 'T' = some (true, t) ∧
      NtHash.demoFirst.sameCursor t) ∧
    (∃ u, BlindNtHash.peek toyLowLevel BlindNtHash.demoState 'T' = some (true, u) ∧
      BlindNtHash.demoState.sameCursor u) ∧
    (∃ u, BlindNtHash.peek_back toyLowLevel BlindNtHash.demoState 'T' = some (true, u) ∧
      BlindNtHash.demoState.sameCursor u) :=
  NtHash.peek_leaves_cursor toyLowLevel NtHash.demoFirst BlindNtHash.demoState 'T' rfl rfl

/-- Evaluation for C9: over the buffer `A` with `k = 1` the first `roll()` leaves the iterator
on the last window, at position 0. From that state `roll()` returns `false` and keeps the
derived hashes, whereas `peek()` returns `true` and overwrites them with the shift of the
symbol found behind the buffer; `roll_back()` returns `false`, whereas `peek_back()` returns
`true`. -/
theorem NtHash.peek_succeeds_where_roll_fails :
    ∃ s ws t u, NtHash.new "A".toList 1 1 1 0 = Except.ok (s, ws) ∧
      NtHash.roll toyLowLevel s = some (true, NtHash.demoLastWindow) ∧
      NtHash.roll toyLowLevel NtHash.demoLastWindow = some (false, NtHash.demoLastWindow) ∧
      NtHash.peek toyLowLevel NtHash.demoLastWindow = some (true, t) ∧
      t.hashes ≠ NtHash.demoLastWindow.hashes ∧
      NtHash.roll_back toyLowLevel NtHash.demoLastWindow =
        some (false, NtHash.demoLastWindow) ∧
      NtHash.peek_back toyLowLevel NtHash.demoLastWindow = some (true, u) := by
  refine ⟨NtHash.fresh "A".toList 1 1 0, _,
    { seq := "A".toList, seq_len := 1, hash_num := 1, k := 1, pos := 0, initialized := true,
      hashes_array := [0], forward_hash := 1, reverse_hash := 8 },
    { seq := "A".toList, seq_len := 1, hash_num := 1, k := 1, pos := 0, initialized := true,
      hashes_array := [0], forward_hash := 1, reverse_hash := 8 },
    rfl, by decide, by decide, by decide, by decide, by decide, by decide⟩

/-! ## Runs of `roll()`: the accumulators stay those of the current window -/

theorem NtHash.fromScratch_acc (L : LowLevel) (s : NtHash) (h : s.fromScratch L) :
    s.accFromScratch L :=
  ⟨s.hashes_array, h⟩

theorem NtHash.roll_rollInv (L : LowLevel) (hC : InitContract L) (hS : ShiftContract L)
    (s : NtHash) (hinv : s.rollInv L) :
    ∃ b t, NtHash.roll L s = some (b, t) ∧ t.rollInv L ∧ (b = true → t.fromScratch L) := by
  obtain ⟨hlen, hk16, hk, hpos, hst⟩ := hinv
  cases hini : s.initialized with
  | false =>
    obtain ⟨b, t, hinit, hcfg, htrue, hfalse⟩ := NtHash.init_spec L hC s hlen hpos hk16
    obtain ⟨c1, c2, c3, c4⟩ := hcfg
    refine ⟨b, t, by simp [NtHash.roll, hini, hinit], ?_, ?_⟩
    · cases b with
      | false =>
        obtain ⟨h1, h2, _⟩ := hfalse rfl
        refine ⟨by rw [c2]; exact hlen, by rw [c4]; exact hk16, by rw [c4]; exact hk,
          by rw [h1]; decide, ?_⟩
        intro ht; rw [h2, hini] at ht; cases ht
      | true =>
        obtain ⟨_, _, h3, _, _, h6⟩ := htrue rfl
        refine ⟨by rw [c2]; exact hlen, by rw [c4]; exact hk16, by rw [c4]; exact hk,
          by omega, ?_⟩
        intro _
        refine Or.inr ⟨by rw [c2, c4]; exact h3, t.hashes_array, ?_⟩
        rw [c1, c3, c4]; exact h6 (Or.inl (by omega))
    · intro hb
      subst hb
      obtain ⟨_, _, _, _, _, h6⟩ := htrue rfl
      have := h6 (Or.inl (by omega))
      unfold NtHash.fromScratch NtHash.get_pos NtHash.get_k NtHash.get_hash_num
        NtHash.get_forward_hash NtHash.get_reverse_hash NtHash.hashes
      rw [c1, c3, c4]; exact this
  | true =>
    rcases hst hini with ⟨hmax, hkl⟩ | ⟨hfit, hacc⟩
    · have hsub : szSub s.seq_len s.k = s.seq_len - s.k := szSub_of_le hkl hlen
      have hge : s.pos ≥ s.seq_len - s.k := by rw [hmax]; unfold SIZE_MAX; omega
      refine ⟨false, s, by simp [NtHash.roll, hini, hsub, hge],
        ⟨hlen, hk16, hk, hpos, hst⟩, by simp⟩
    · have hval : validWindow L s.seq s.pos s.k := by
        obtain ⟨hs0, h0⟩ := hacc
        exact validWindow_of_init_ok L hC s.seq s.pos s.k s.hash_num _ _ hs0 h0
      obtain ⟨b, t, hr, hcfg, htrue, hfalse⟩ :=
        NtHash.roll_spec L hC s ⟨hini, hfit, hval⟩ hlen hk16 hk
      obtain ⟨c1, c2, c3, c4⟩ := hcfg
      refine ⟨b, t, hr, ?_, ?_⟩
      · cases b with
        | false =>
          obtain ⟨h1, _, _⟩ := hfalse rfl
          rcases h1 with h1 | h1
          · rw [h1]; exact ⟨hlen, hk16, hk, hpos, hst⟩
          · refine ⟨by rw [c2]; exact hlen, by rw [c4]; exact hk16, by rw [c4]; exact hk,
              by rw [h1]; decide, ?_⟩
            intro _
            exact Or.inl ⟨h1, by rw [c2, c4]; omega⟩
        | true =>
          obtain ⟨hg, _, _, hsc⟩ := htrue rfl
          have hfit2 := hg.2.1
          refine ⟨by rw [c2]; exact hlen, by rw [c4]; exact hk16, by rw [c4]; exact hk,
            by rw [c2, c4] at hfit2; omega, ?_⟩
          intro _
          exact Or.inr ⟨hfit2, NtHash.fromScratch_acc L t (hsc hS hacc)⟩
      · intro hb
        exact (htrue hb).2.2.2 hS hacc

/-- Along every run of `roll()` calls on a freshly constructed iterator with `k ≥ 1`, each call
returns, and after each call that returned `true` the accumulators and hashes are the ones
`ntmc64` computes from scratch on the window at the position reached. -/
theorem NtHash.rollN_fromScratch (L : LowLevel) (hC : InitContract L) (hS : ShiftContract L)
    (seq : List Char) (seq_len hash_num k pos : Nat) (s : NtHash) (ws : List String)
    (hnew : NtHash.new seq seq_len hash_num k pos = Except.ok (s, ws))
    (hk : 0 < k) (hlen : seq_len < 2 ^ 64) (hpos : pos < 2 ^ 64) (n : Nat) :
    ∃ b t, NtHash.rollN L (n + 1) s = some (b, t) ∧ t.rollInv L ∧
      (b = true → t.fromScratch L) := by
  obtain ⟨hk1, _, hs⟩ := NtHash.new_ok seq seq_len hash_num k pos s ws hnew
  unfold NTHASH_K_MAX at hk1
  have h0 : s.rollInv L := by
    subst hs
    exact ⟨hlen, by show k < 2 ^ 16; omega, hk, hpos, fun h => by cases h⟩
  induction n with
  | zero =>
    obtain ⟨b, t, hr, hi, hf⟩ := NtHash.roll_rollInv L hC hS s h0
    exact ⟨b, t, by simp [NtHash.rollN, hr], hi, hf⟩
  | succ n ih =>
    obtain ⟨b, t, hr, hi, _⟩ := ih
    obtain ⟨b2, t2, hr2, hi2, hf2⟩ := NtHash.roll_rollInv L hC hS t hi
    refine ⟨b2, t2, ?_, hi2, hf2⟩
    rw [NtHash.rollN, hr]
    exact hr2

/-- Where `roll()` shifts, `peek()` leaves the derived hashes that `roll()` leaves: on an
initialised iterator with `pos` below `seq_len - k` and a valid incoming symbol both return
`true` with the same `hashes_array`. -/
theorem NtHash.peek_agrees_with_shift (L : LowLevel) (s : NtHash)
    (hini : s.initialized = true) (hlt : ¬ (s.pos ≥ szSub s.seq_len s.k))
    (hin : ¬ (L.SEED_TAB (seqAt s.seq (sz (s.pos + s.k))) = L.SEED_N)) :
    ∃ t u, NtHash.roll L s = some (true, t) ∧ NtHash.peek L s = some (true, u) ∧
      t.hashes = u.hashes ∧ s.sameCursor u := by
  have hs2 : ¬ ((!s.initialized) = true) := by simp [hini]
  refine ⟨{ s with
      forward_hash := (L.ntmc64 (seqAt s.seq s.pos) (seqAt s.seq (sz (s.pos + s.k))) s.k
        s.hash_num s.forward_hash s.reverse_hash).1,
      reverse_hash := (L.ntmc64 (seqAt s.seq s.pos) (seqAt s.seq (sz (s.pos + s.k))) s.k
        s.hash_num s.forward_hash s.reverse_hash).2.1,
      hashes_array := (L.ntmc64 (seqAt s.seq s.pos) (seqAt s.seq (sz (s.pos + s.k))) s.k
        s.hash_num s.forward_hash s.reverse_hash).2.2,
      pos := sz (s.pos + 1) },
    { s with hashes_array := (L.ntmc64 (seqAt s.seq s.pos) (seqAt s.seq (sz (s.pos + s.k)))
        s.k s.hash_num s.forward_hash s.reverse_hash).2.2 }, ?_, ?_, rfl, rfl, rfl, rfl, rfl⟩
  · unfold NtHash.roll; rw [if_neg hs2, if_neg hlt, if_neg hin]
  · unfold NtHash.peek; rw [if_neg hs2]

/-! ## Construction checks -/

/-- C10: constructing an `NtHash` with arguments `(hash_num, k)` is a fatal error if and only
if `k > 65535` or `hash_num > 255`; for every other pair the construction succeeds, and then
`get_k()` is `k` and `get_hash_num()` is `hash_num`, without truncation. -/
theorem NtHash.new_fatal_iff (seq : List Char) (seq_len hash_num k pos : Nat) :
    ((∃ msg, NtHash.new seq seq_len hash_num k pos = Except.error msg) ↔
      (k > 65535 ∨ hash_num > 255)) ∧
    ((∃ s ws, NtHash.new seq seq_len hash_num k pos = Except.ok (s, ws)) ↔
      ¬ (k > 65535 ∨ hash_num > 255)) ∧
    (∀ s ws, NtHash.new seq seq_len hash_num k pos = Except.ok (s, ws) →
      s.get_k = k ∧ s.get_hash_num = hash_num) := by
  have hcases : (k > 65535 ∨ hash_num > 255) ∧
        (∃ msg, NtHash.new seq seq_len hash_num k pos = Except.error msg) ∨
      ¬ (k > 65535 ∨ hash_num > 255) ∧
        (∃ s ws, NtHash.new seq seq_len hash_num k pos = Except.ok (s, ws)) := by
    cases hres : NtHash.new seq seq_len hash_num k pos with
    | error m =>
      left
      refine ⟨?_, m, rfl⟩
      by_contra hn
      have h1 : ¬ k > 65535 := by omega
      have h2 : ¬ hash_num > 255 := by omega
      unfold NtHash.new check_error NTHASH_K_MAX NTHASH_HASH_NUM_MAX at hres
      simp [h1, h2, bind, Except.bind, pure, Except.pure] at hres
    | ok p =>
      right
      obtain ⟨h1, h2, _⟩ := NtHash.new_ok seq seq_len hash_num k pos p.1 p.2 hres
      unfold NTHASH_K_MAX at h1
      unfold NTHASH_HASH_NUM_MAX at h2
      exact ⟨by omega, p.1, p.2, rfl⟩
  refine ⟨?_, ?_, ?_⟩
  · constructor
    · rintro ⟨msg, hm⟩
      rcases hcases with ⟨h, _⟩ | ⟨_, s, ws, hok⟩
      · exact h
      · rw [hok] at hm; cases hm
    · intro h
      rcases hcases with ⟨_, he⟩ | ⟨hn, _⟩
      · exact he
      · exact absurd h hn
  · constructor
    · rintro ⟨s, ws, hok⟩
      rcases hcases with ⟨_, msg, hm⟩ | ⟨hn, _⟩
      · rw [hok] at hm; cases hm
      · exact hn
    · intro h
      rcases hcases with ⟨hy, _⟩ | ⟨_, hok⟩
      · exact absurd hy h
      · exact hok
  · intro s ws hok
    obtain ⟨_, _, hs⟩ := NtHash.new_ok seq seq_len hash_num k pos s ws hok
    subst hs
    exact ⟨rfl, rfl⟩

/-! ## Construction of a `BlindNtHash` and the advisory warning -/

theorem NtHash.new_warnings (seq : List Char) (seq_len hash_num k pos : Nat) (s : NtHash)
    (ws : List String) (h : NtHash.new seq seq_len hash_num k pos = Except.ok (s, ws)) :
    ws ≠ [] ↔ hash_num ≥ k := by
  unfold NtHash.new check_error check_warning at h
  by_cases h1 : k > NTHASH_K_MAX
  · simp [h1, bind, Except.bind] at h
  · by_cases h2 : hash_num > NTHASH_HASH_NUM_MAX
    · simp [h1, h2, bind, Except.bind] at h
    · simp only [h1, h2, bind, Except.bind, pure, Except.pure, decide_False,
        Bool.false_eq_true, if_false, Except.ok.injEq, Prod.mk.injEq] at h
      rw [← h.2]
      by_cases h3 : hash_num ≥ k
      · simp [h3]
      · simp [h3]

theorem BlindNtHash.new_cases (seq : List Char) (seq_len hash_num k pos : Nat) :
    (k = seq_len ∨ k > 65535 ∨ hash_num > 255) ∧
        (∃ msg, BlindNtHash.new seq seq_len hash_num k pos = Except.error msg) ∨
      ¬ (k = seq_len ∨ k > 65535 ∨ hash_num > 255) ∧
        (∃ s ws, BlindNtHash.new seq seq_len hash_num k pos = Except.ok (s, ws) ∧
          (ws ≠ [] ↔ hash_num ≥ k) ∧ s.get_k = k ∧ s.get_hash_num = hash_num) := by
  cases hres : BlindNtHash.new seq seq_len hash_num k pos with
  | error m =>
    left
    refine ⟨?_, m, rfl⟩
    by_contra hn
    have h0 : ¬ k = seq_len := fun h => hn (Or.inl h)
    have h1 : ¬ k > 65535 := fun h => hn (Or.inr (Or.inl h))
    have h2 : ¬ hash_num > 255 := fun h => hn (Or.inr (Or.inr h))
    unfold BlindNtHash.new check_error NTHASH_K_MAX NTHASH_HASH_NUM_MAX at hres
    simp [h0, h1, h2, bind, Except.bind, pure, Except.pure] at hres
  | ok p =>
    right
    unfold BlindNtHash.new check_error check_warning NTHASH_K_MAX NTHASH_HASH_NUM_MAX at hres
    by_cases h0 : k = seq_len
    · simp [h0, bind, Except.bind] at hres
    · by_cases h1 : k > 65535
      · simp [h0, h1, bind, Except.bind] at hres
      · by_cases h2 : hash_num > 255
        · simp [h0, h1, h2, bind, Except.bind] at hres
        · simp only [h0, h1, h2, bind, Except.bind, pure, Except.pure, decide_False,
            Bool.false_eq_true, if_false, Except.ok.injEq] at hres
          subst hres
          refine ⟨by omega, _, _, rfl, ?_, ?_, ?_⟩
          · by_cases h3 : hash_num ≥ k
            · simp [h3]
            · simp [h3]
          · show k % 2 ^ 16 = k; omega
          · show hash_num % 2 ^ 8 = hash_num; omega

/-- For arguments within the bounds on `k` and `hash_num`, the constructor of `BlindNtHash` is
fatal exactly when the buffer length equals `k`. -/
theorem BlindNtHash.new_fatal_iff_length_is_k (seq : List Char)
    (seq_len hash_num k pos : Nat) (hk : k ≤ 65535) (hh : hash_num ≤ 255) :
    (∃ msg, BlindNtHash.new seq seq_len hash_num k pos = Except.error msg) ↔ k = seq_len := by
  rcases BlindNtHash.new_cases seq seq_len hash_num k pos with ⟨hc, he⟩ | ⟨hn, s, ws, hok, _⟩
  · exact ⟨fun _ => by omega, fun _ => he⟩
  · constructor
    · rintro ⟨msg, hm⟩; rw [hok] at hm; cases hm
    · intro h; exact absurd (Or.inl h) hn

/-- Evaluation for C11: constructing a `BlindNtHash` over the buffer `ACG`, whose length is
`k = 3`, is a fatal error, although the claim says that construction succeeds whenever
`seq_len = k`; over the buffer `ACGT`, whose length differs from `k = 3`, construction
succeeds, although the claim says that it is fatal. -/
theorem BlindNtHash.new_rejects_length_k :
    (∃ msg, BlindNtHash.new "ACG".toList 3 1 3 0 = Except.error msg) ∧
    (∃ s ws, BlindNtHash.new "ACGT".toList 4 1 3 0 = Except.ok (s, ws)) :=
  ⟨⟨_, rfl⟩, ⟨_, _, rfl⟩⟩

/-- Counterexample to C12: with `hash_num = 1 < k = 3` the constructors of `NtHash` and of
`BlindNtHash` emit no warning; with `hash_num = 3 ≥ k = 1` both emit one. -/
theorem NtHash.no_warning_when_hash_num_below_k :
    (∃ s, NtHash.new "ACGT".toList 4 1 3 0 = Except.ok (s, [])) ∧
    (∃ s, BlindNtHash.new "ACGT".toList 4 1 3 0 = Except.ok (s, [])) ∧
    (∃ s w, NtHash.new "ACGT".toList 4 3 1 0 = Except.ok (s, [w])) ∧
    (∃ s w, BlindNtHash.new "ACGT".toList 4 3 1 0 = Except.ok (s, [w])) :=
  ⟨⟨_, rfl⟩, ⟨_, rfl⟩, ⟨_, _, rfl⟩, ⟨_, _, rfl⟩⟩

/-- C12 (amended): on a construction of an `NtHash` or a `BlindNtHash` that passes the fatal
checks, the advisory warning is emitted if and only if `hash_num ≥ k`; whether the construction
succeeds is decided by the fatal checks alone, so that emitting the warning never prevents
it. -/
theorem NtHash.warning_iff_hash_num_ge_k (seq : List Char) (seq_len hash_num k pos : Nat) :
    (∀ s ws, NtHash.new seq seq_len hash_num k pos = Except.ok (s, ws) →
      (ws ≠ [] ↔ hash_num ≥ k)) ∧
    (∀ s ws, BlindNtHash.new seq seq_len hash_num k pos = Except.ok (s, ws) →
      (ws ≠ [] ↔ hash_num ≥ k)) ∧
    ((∃ s ws, NtHash.new seq seq_len hash_num k pos = Except.ok (s, ws)) ↔
      (k ≤ 65535 ∧ hash_num ≤ 255)) ∧
    ((∃ s ws, BlindNtHash.new seq seq_len hash_num k pos = Except.ok (s, ws)) ↔
      (k ≠ seq_len ∧ k ≤ 65535 ∧ hash_num ≤ 255)) := by
  refine ⟨fun s ws h => NtHash.new_warnings seq seq_len hash_num k pos s ws h, ?_, ?_, ?_⟩
  · intro s ws h
    rcases BlindNtHash.new_cases seq seq_len hash_num k pos with ⟨_, msg, he⟩ | ⟨_, s2, ws2, hok, hw, _⟩
    · rw [h] at he; cases he
    · rw [h] at hok
      simp only [Except.ok.injEq, Prod.mk.injEq] at hok
      rw [hok.2]; exact hw
  · constructor
    · rintro ⟨s, ws, h⟩
      obtain ⟨h1, h2, _⟩ := NtHash.new_ok seq seq_len hash_num k pos s ws h
      exact ⟨h1, h2⟩
    · rintro ⟨h1, h2⟩
      cases hres : NtHash.new seq seq_len hash_num k pos with
      | error m =>
        unfold NtHash.new check_error NTHASH_K_MAX NTHASH_HASH_NUM_MAX at hres
        have h1n : ¬ k > 65535 := by omega
        have h2n : ¬ hash_num > 255 := by omega
        simp [h1n, h2n, bind, Except.bind, pure, Except.pure] at hres
      | ok p => exact ⟨p.1, p.2, rfl⟩
  · constructor
    · rintro ⟨s, ws, h⟩
      rcases BlindNtHash.new_cases seq seq_len hash_num k pos with ⟨_, msg, he⟩ | ⟨hn, _⟩
      · rw [h] at he; cases he
      · omega
    · rintro ⟨h0, h1, h2⟩
      rcases BlindNtHash.new_cases seq seq_len hash_num k pos with ⟨hc, _⟩ | ⟨_, s, ws, hok, _⟩
      · omega
      · exact ⟨s, ws, hok⟩

/-- Evaluation for C15: a `BlindNtHash` over the buffer `ACG` of length `k = 3` cannot be
constructed. On the state such a construction is meant to leave, the initial roll returns
`true`, and the next `roll('T')`, with a valid symbol, returns `false` and leaves the state as
it was. Over the buffer `ACGT`, which can be constructed, `roll('T')` succeeds once and the
following `roll('A')` returns `false`. -/
theorem BlindNtHash.roll_fails_on_buffer_of_length_k :
    (∃ msg, BlindNtHash.new "ACG".toList 3 1 3 0 = Except.error msg) ∧
    BlindNtHash.roll toyLowLevel BlindNtHash.demoUnrolled 'T' =
      some (true, BlindNtHash.demoState) ∧
    BlindNtHash.roll toyLowLevel BlindNtHash.demoState 'T' =
      some (false, BlindNtHash.demoState) ∧
    (∃ t, BlindNtHash.roll toyLowLevel BlindNtHash.demoLonger 'T' = some (true, t) ∧
      t.get_pos = 1 ∧ BlindNtHash.roll toyLowLevel t 'A' = some (false, t)) := by
  refine ⟨⟨_, rfl⟩, by decide, by decide, ?_⟩
  exact ⟨{ seq := "TCGT".toList, seq_len := 4, hash_num := 1, k := 3, pos := 1,
           initialized := true, hashes_array := [21], forward_hash := 14,
           reverse_hash := 7 }, by decide, rfl, by decide⟩

/-! ## The first `roll_back()` -/

/-- Evaluation for C20: over the buffer `NA` with `k = 1`, a never-rolled iterator started at
0 has no valid window at or before 0, yet `roll_back()` returns `true` and moves forward to
position 1; over the buffer `AN`, started at 1, the window at 0 is valid, yet `roll_back()`
returns `false`. -/
theorem NtHash.first_roll_back_scans_forward :
    InitContract toyLowLevel ∧
    (∃ t, NtHash.roll_back toyLowLevel (NtHash.fresh "NA".toList 1 1 0) = some (true, t) ∧
      t.get_pos = 1 ∧ ¬ validWindow toyLowLevel "NA".toList 0 1) ∧
    (∃ t, NtHash.roll_back toyLowLevel (NtHash.fresh "AN".toList 1 1 1) = some (false, t) ∧
      validWindow toyLowLevel "AN".toList 0 1) := by
  refine ⟨toy_initContract,
    ⟨{ seq := "NA".toList, seq_len := 2, hash_num := 1, k := 1, pos := 1, initialized := true,
       hashes_array := [9], forward_hash := 1, reverse_hash := 8 }, ?_, ?_, ?_⟩,
    ⟨{ seq := "AN".toList, seq_len := 2, hash_num := 1, k := 1, pos := SIZE_MAX,
       initialized := false, hashes_array := [0], forward_hash := 0, reverse_hash := 0 },
      ?_, ?_⟩⟩
  · decide
  · rfl
  · decide
  · decide
  · decide

/-- What the first `roll_back()` does: for a never-rolled `NtHash` with start position `pos`,
`roll_back()` does what the first `roll()` does. It returns `true` with `pos` equal to the smallest `q ≥ pos`
whose window lies inside the buffer and holds no invalid symbol, if such a `q` exists, and
returns `false`, with the sentinel in `pos`, otherwise. The low-level initialisation is
assumed to fail exactly on windows with an invalid symbol and to report the index of the last
one. -/
theorem NtHash.first_roll_back_is_first_roll (L : LowLevel) (hC : InitContract L)
    (s : NtHash) (hun : s.initialized = false) (hlen : s.seq_len < 2 ^ 64)
    (hpos : s.pos < 2 ^ 64) (hk16 : s.k < 2 ^ 16) :
    ∃ b t, NtHash.roll_back L s = some (b, t) ∧ NtHash.roll L s = some (b, t) ∧
      ((∃ q, s.pos ≤ q ∧ q + s.k ≤ s.seq_len ∧ validWindow L s.seq q s.k) →
        b = true ∧ s.pos ≤ t.get_pos ∧ t.get_pos + s.k ≤ s.seq_len ∧
          validWindow L s.seq t.get_pos s.k ∧
          ∀ q, s.pos ≤ q → q < t.get_pos → ¬ validWindow L s.seq q s.k) ∧
      ((¬ ∃ q, s.pos ≤ q ∧ q + s.k ≤ s.seq_len ∧ validWindow L s.seq q s.k) →
        b = false ∧ t.get_pos = SIZE_MAX) := by
  obtain ⟨b, t, hinit, _, htrue, hfalse⟩ := NtHash.init_spec L hC s hlen hpos hk16
  refine ⟨b, t, by simp [NtHash.roll_back, hun, hinit], by simp [NtHash.roll, hun, hinit],
    ?_, ?_⟩
  · rintro ⟨q, hq1, hq2, hq3⟩
    cases b with
    | false =>
      obtain ⟨_, _, hno⟩ := hfalse rfl
      exact absurd hq3 (hno q hq1 hq2)
    | true =>
      obtain ⟨_, h2, h3, h4, h5, _⟩ := htrue rfl
      exact ⟨rfl, h2, h3, h4, h5⟩
  · intro hno
    cases b with
    | false => exact ⟨rfl, (hfalse rfl).1⟩
    | true =>
      obtain ⟨_, h2, h3, h4, _, _⟩ := htrue rfl
      exact absurd ⟨t.pos, h2, h3, h4⟩ hno

/-- An instance of the first `roll_back()`: the buffer `NNACGT` with `k = 3`, not yet rolled,
started at 0. -/
theorem NtHash.first_roll_back_is_first_roll_witness :
    InitContract toyLowLevel ∧
    ∃ b t, NtHash.roll_back toyLowLevel (NtHash.fresh "NNACGT".toList 1 3 0) = some (b, t) ∧
      NtHash.roll toyLowLevel (NtHash.fresh "NNACGT".toList 1 3 0) = some (b, t) ∧
      ((∃ q, 0 ≤ q ∧ q + 3 ≤ 6 ∧ validWindow toyLowLevel "NNACGT".toList q 3) →
        b = true ∧ 0 ≤ t.get_pos ∧ t.get_pos + 3 ≤ 6 ∧
          validWindow toyLowLevel "NNACGT".toList t.get_pos 3 ∧
          ∀ q, 0 ≤ q → q < t.get_pos → ¬ validWindow toyLowLevel "NNACGT".toList q 3) ∧
      ((¬ ∃ q, 0 ≤ q ∧ q + 3 ≤ 6 ∧ validWindow toyLowLevel "NNACGT".toList q 3) →
        b = false ∧ t.get_pos = SIZE_MAX) :=
  ⟨toy_initContract,
    NtHash.first_roll_back_is_first_roll toyLowLevel toy_initContract
      (NtHash.fresh "NNACGT".toList 1 3 0) rfl (by decide) (by decide) (by decide)⟩

/-! ## Copying a `SeedNtHash` -/

/-- Evaluation for C13: a `SeedNtHash` constructed over `ACGT` with the single mask `101`,
one hash per seed and `k = 3` holds the monomer list `[0, 2]` for its seed. Its copy holds the
same blocks but no monomer list at all, so the copy differs from the original. -/
theorem SeedNtHash.copy_drops_monomers :
    ∃ s ws, SeedNtHash.newStrMasks "ACGT".toList ["101".toList] 1 3 0 = Except.ok (s, ws) ∧
      s.monomers = [[0, 2]] ∧ s.copy.monomers = [] ∧ s.copy.blocks = s.blocks ∧
      s.copy ≠ s := by
  refine ⟨_, _, rfl, ?_, ?_, ?_, ?_⟩
  · decide
  · rfl
  · rfl
  · decide

/-! ## Spaced seeds: evaluations -/

/-- Evaluation for C16: for the mask `110110110` the ignore polarity is stored, with the
synthetic block `(0, 9)` as its last block and the monomers `[2, 5]`. Position 8 carries `'0'`
in the mask, but lies in none of the remaining blocks and is none of the monomers: the run of
`'0'` that ends the mask is never recorded. -/
theorem parse_seeds_misses_trailing_ignore_run :
    parse_seeds_blocks ["110110110".toList] [] [] = ([[(0, 9)]], [[2, 5]]) ∧
    termCount (ignore_decomposition "110110110".toList) + 2 <
      termCount (care_decomposition "110110110".toList) ∧
    "110110110".toList.getD 8 nul = '0' ∧
    covers ([(0, 9)] : SpacedSeedBlocks).dropLast [2, 5] 8 = false := by
  refine ⟨by decide, by decide, by decide, by decide⟩

/-- Counterexample to C18: for the don't-care positions `{2, 3, 7}` and `k = 10`,
`parsed_seeds_to_blocks` does not store the blocks `[(0,2),(4,7)]` with the monomers
`[8,9]`. -/
theorem parsed_seeds_to_blocks_example_differs :
    parsed_seeds_to_blocks [[2, 3, 7]] 10 [] [] ≠ ([[(0, 2), (4, 7)]], [[8, 9]]) := by
  decide

/-- C18 (amended): for the single don't-care position list `{2, 3, 7}` and `k = 10`, the mask
built is `1100111011`. Its care decomposition has the blocks `[(0,2),(4,7),(8,10)]` and no
monomer, six terms; its ignore decomposition has the block `(2,4)` and the monomer `7`, five
terms with the synthetic block. `parsed_seeds_to_blocks` stores the ignore decomposition:
blocks `[(2,4),(0,10)]` and monomers `[7]`. -/
theorem parsed_seeds_to_blocks_example :
    seed_to_string [2, 3, 7] 10 = "1100111011".toList ∧
    care_decomposition "1100111011".toList = ([(0, 2), (4, 7), (8, 10)], []) ∧
    ignore_decomposition "1100111011".toList = ([(2, 4)], [7]) ∧
    parsed_seeds_to_blocks [[2, 3, 7]] 10 [] [] = ([[(2, 4), (0, 10)]], [[7]]) := by
  refine ⟨by decide, by decide, by decide, by decide⟩

/-! ## Spaced seeds: the choice of the polarity -/

theorem SeedScan.step_recorded (st : SeedScan) (c : Char) (pos : Nat) :
    (st.step c pos).recorded ≤ st.recorded + 1 := by
  unfold SeedScan.step SeedScan.recorded
  split_ifs <;> simp <;> omega

theorem SeedScan.run_recorded :
    ∀ (cs : List Char) (pos : Nat) (st : SeedScan),
      (SeedScan.run cs pos st).recorded ≤ st.recorded + cs.length := by
  intro cs
  induction cs with
  | nil => intro pos st; simp [SeedScan.run]
  | cons c cs ih =>
    intro pos st
    have h1 := ih (pos + 1) (st.step c pos)
    have h2 := SeedScan.step_recorded st c pos
    simp only [SeedScan.run, List.length_cons]
    omega

theorem SeedScan.ofMask_recorded (seed_string : List Char) :
    (SeedScan.ofMask seed_string).recorded ≤ seed_string.length + 1 := by
  have := SeedScan.run_recorded (seed_string ++ ['0']) 0
    { care_blocks := [], ignore_blocks := [], care_monos := [], ignore_monos := [],
      i_start := 0, is_care_block := true }
  simpa [SeedScan.ofMask, SeedScan.recorded] using this

theorem parse_seeds_blocks_single (seed_string : List Char)
    (out_blocks : List SpacedSeedBlocks) (out_monomers : List SpacedSeedMonomers) :
    parse_seeds_blocks [seed_string] out_blocks out_monomers =
      (out_blocks ++ [(parse_seed_blocks seed_string).1],
       out_monomers ++ [(parse_seed_blocks seed_string).2]) := by
  simp [parse_seeds_blocks]

/-- The choice of `parse_seeds` written with the scan's own lists: the comparison is made on
the numbers of blocks and monomers that the scan recorded, whether or not these are the
maximal runs of the mask. The mask is shorter than `2 ^ 30`, so that the `unsigned` counters
do not wrap. -/
theorem parse_seeds_polarity_choice (seed_string : List Char)
    (out_blocks : List SpacedSeedBlocks) (out_monomers : List SpacedSeedMonomers)
    (hlen : seed_string.length < 2 ^ 30) :
    parse_seeds_blocks [seed_string] out_blocks out_monomers =
      if termCount (ignore_decomposition seed_string) + 2 <
          termCount (care_decomposition seed_string) then
        (out_blocks ++ [(ignore_decomposition seed_string).1 ++ [(0, seed_string.length)]],
         out_monomers ++ [(ignore_decomposition seed_string).2])
      else
        (out_blocks ++ [(care_decomposition seed_string).1],
         out_monomers ++ [(care_decomposition seed_string).2]) := by
  have hrec := SeedScan.ofMask_recorded seed_string
  unfold SeedScan.recorded at hrec
  have h1 : u32 ((SeedScan.ofMask seed_string).care_blocks.length * 2 +
      (SeedScan.ofMask seed_string).care_monos.length) =
      2 * (SeedScan.ofMask seed_string).care_blocks.length +
        (SeedScan.ofMask seed_string).care_monos.length := by
    unfold u32; omega
  have h2 : u32 ((SeedScan.ofMask seed_string).ignore_blocks.length * 2 +
      (SeedScan.ofMask seed_string).ignore_monos.length + 2) =
      2 * (SeedScan.ofMask seed_string).ignore_blocks.length +
        (SeedScan.ofMask seed_string).ignore_monos.length + 2 := by
    unfold u32; omega
  have h3 : u32 seed_string.length = seed_string.length := by
    unfold u32; omega
  rw [parse_seeds_blocks_single]
  unfold parse_seed_blocks termCount ignore_decomposition care_decomposition
  simp only [h1, h2, h3]
  split_ifs <;> rfl

/-- An instance of the choice of `parse_seeds`: the mask `110110110`, for which the scan
recorded fewer ignore terms, and the mask `101`, for which the care lists are kept. -/
theorem parse_seeds_polarity_choice_witness :
    (parse_seeds_blocks ["110110110".toList] [] [] =
      if termCount (ignore_decomposition "110110110".toList) + 2 <
          termCount (care_decomposition "110110110".toList) then
        ([] ++ [(ignore_decomposition "110110110".toList).1 ++
                 [(0, "110110110".toList.length)]],
         [] ++ [(ignore_decomposition "110110110".toList).2])
      else
        ([] ++ [(care_decomposition "110110110".toList).1],
         [] ++ [(care_decomposition "110110110".toList).2])) ∧
    parse_seeds_blocks ["110110110".toList] [] [] = ([[(0, 9)]], [[2, 5]]) ∧
    parse_seeds_blocks ["101".toList] [] [] = ([[]], [[0, 2]]) :=
  ⟨parse_seeds_polarity_choice "110110110".toList [] [] (by decide), by decide, by decide⟩

/-- Evaluation for C17: the mask `0110` has one maximal run of `'1'`, the block `(1, 3)`, and
two maximal runs of `'0'`, the monomers 0 and 3. The care decomposition has 2 terms and the
ignore decomposition, with the synthetic block, has 4, so the care decomposition is the one
to retain. The scan records the care lists `[(0,0),(1,3)]`, 4 terms, and the ignore list
`[0]`, 3 terms with the synthetic block, and `parse_seeds` stores the ignore polarity. For
the mask `1100111011`, which starts and ends with `'1'`, the scan's lists are the maximal
runs. -/
theorem parse_seeds_chooses_against_maximal_runs :
    maximal_runs "0110".toList 0 = [('0', 0, 1), ('1', 1, 3), ('0', 3, 4)] ∧
    runs_care_decomposition "0110".toList = ([(1, 3)], []) ∧
    runs_ignore_decomposition "0110".toList = ([], [0, 3]) ∧
    termCount (runs_care_decomposition "0110".toList) = 2 ∧
    termCount (runs_ignore_decomposition "0110".toList) + 2 = 4 ∧
    runs_polarity_choice "0110".toList = ([(1, 3)], []) ∧
    care_decomposition "0110".toList = ([(0, 0), (1, 3)], []) ∧
    ignore_decomposition "0110".toList = ([], [0]) ∧
    parse_seeds_blocks ["0110".toList] [] [] = ([[(0, 4)]], [[0]]) ∧
    parse_seeds_blocks ["0110".toList] [] [] ≠
      ([(runs_polarity_choice "0110".toList).1], [(runs_polarity_choice "0110".toList).2]) ∧
    runs_care_decomposition "1100111011".toList = care_decomposition "1100111011".toList ∧
    runs_ignore_decomposition "1100111011".toList =
      ignore_decomposition "1100111011".toList := by
  refine ⟨by decide, by decide, by decide, by decide, by decide, by decide, by decide,
    by decide, by decide, by decide, by decide, by decide⟩

/-! ## Spaced seeds: the two input forms -/

theorem parse_seed_positions_eq :
    ∀ (cs : List Char) (pos : Nat) (seed : SpacedSeed), pos + cs.length ≤ 2 ^ 32 →
      parse_seed_positions cs pos seed =
        seed ++ ((List.range cs.length).filter
          (fun i => decide (cs.getD i nul ≠ '1'))).map (fun i => i + pos) := by
  intro cs
  induction cs with
  | nil => intro pos seed _; simp [parse_seed_positions]
  | cons c cs ih =>
    intro pos seed hb
    simp only [List.length_cons] at hb
    have e1 : sz (pos + 1) = pos + 1 := by unfold sz; omega
    have e2 : u32 pos = pos := by unfold u32; omega
    have hmap : ((List.range cs.length).filter
          (fun i => decide (cs.getD i nul ≠ '1'))).map (fun i => i + (pos + 1)) =
        ((List.map Nat.succ (List.range cs.length)).filter
          (fun i => decide ((c :: cs).getD i nul ≠ '1'))).map (fun i => i + pos) := by
      rw [List.filter_map, List.map_map]
      have hf : ((fun i => decide ((c :: cs).getD i nul ≠ '1')) ∘ Nat.succ) =
          (fun i => decide (cs.getD i nul ≠ '1')) := by
        funext i
        simp [Function.comp]
      rw [hf]
      apply List.map_congr_left
      intro i _
      simp only [Function.comp, Nat.succ_eq_add_one]
      omega
    simp only [parse_seed_positions, e1, e2, List.length_cons]
    rw [ih (pos + 1) _ (by omega), List.range_succ_eq_map, List.filter_cons, hmap]
    by_cases hc : c = '1'
    · simp [hc]
    · simp [hc]

theorem mem_parse_seed_positions (cs : List Char) (j : Nat) (hb : cs.length ≤ 2 ^ 32) :
    j ∈ parse_seed_positions cs 0 [] ↔ (j < cs.length ∧ cs.getD j nul ≠ '1') := by
  rw [parse_seed_positions_eq cs 0 [] (by omega)]
  simp [List.mem_filter]

theorem foldl_set_length (ps : List Nat) :
    ∀ (base : List Char),
      (ps.foldl (fun seed_string i => seed_string.set i '0') base).length = base.length := by
  induction ps with
  | nil => intro base; rfl
  | cons p ps ih =>
    intro base
    simp only [List.foldl_cons]
    rw [ih, List.length_set]

theorem foldl_set_getElem (ps : List Nat) :
    ∀ (base : List Char) (j : Nat) (hj : j < base.length)
      (h2 : j < (ps.foldl (fun seed_string i => seed_string.set i '0') base).length),
      (ps.foldl (fun seed_string i => seed_string.set i '0') base)[j] =
        if j ∈ ps then '0' else base[j] := by
  induction ps with
  | nil => intro base j hj h2; simp
  | cons p ps ih =>
    intro base j hj h2
    simp only [List.foldl_cons]
    rw [ih (base.set p '0') j (by rw [List.length_set]; exact hj), List.getElem_set]
    by_cases h1 : j ∈ ps
    · simp [h1]
    · by_cases h3 : p = j
      · simp [h3]
      · have h4 : ¬ j = p := fun h => h3 h.symm
        simp [h1, h3, h4]

/-- Writing `'0'` at the don't-care positions read off a mask over `'0'` and `'1'` gives the
mask back. -/
theorem seed_to_string_parse_seed_positions (cs : List Char) (k : Nat)
    (hk : cs.length = k) (hb : k ≤ 2 ^ 32) (h01 : ∀ c ∈ cs, c = '0' ∨ c = '1') :
    seed_to_string (parse_seed_positions cs 0 []) k = cs := by
  unfold seed_to_string
  apply List.ext_getElem
  · rw [foldl_set_length, List.length_replicate, hk]
  · intro j h1 h2
    rw [foldl_set_getElem _ _ j (by rw [List.length_replicate, ← hk]; exact h2) h1,
      List.getElem_replicate]
    have hmem := mem_parse_seed_positions cs j (by omega)
    have hget : cs.getD j nul = cs[j] := List.getD_eq_getElem cs nul h2
    rw [hget] at hmem
    rcases h01 cs[j] (List.getElem_mem h2) with h0 | h1c
    · have : j ∈ parse_seed_positions cs 0 [] := hmem.mpr ⟨h2, by rw [h0]; decide⟩
      rw [if_pos this, h0]
    · have : ¬ j ∈ parse_seed_positions cs 0 [] := fun h => (hmem.mp h).2 h1c
      rw [if_neg this, h1c]

/-- C19: the two seed input forms are equivalent. For every list of mask strings over `'0'`
and `'1'` that all have length `k`, `parse_seeds(strings)` followed by
`parsed_seeds_to_blocks(lists, k, ...)` produces the same blocks and monomers as
`parse_seeds(strings, blocks, monomers)`; and `parse_seeds(strings)` returns, per string, the
ascending list of the positions whose character is not `'1'`. The window length `k` is an
`unsigned`. -/
theorem parse_seeds_forms_agree (seed_strings : List (List Char)) (k : Nat)
    (out_blocks : List SpacedSeedBlocks) (out_monomers : List SpacedSeedMonomers)
    (hk : k < 2 ^ 32)
    (hmask : ∀ m ∈ seed_strings, m.length = k ∧ ∀ c ∈ m, c = '0' ∨ c = '1') :
    parsed_seeds_to_blocks (parse_seeds seed_strings) k out_blocks out_monomers =
      parse_seeds_blocks seed_strings out_blocks out_monomers ∧
    parse_seeds seed_strings =
      seed_strings.map (fun m =>
        (List.range m.length).filter (fun i => decide (m.getD i nul ≠ '1'))) := by
  constructor
  · unfold parsed_seeds_to_blocks parse_seeds
    rw [List.map_map]
    have : List.map ((fun seed => seed_to_string seed k) ∘
        (fun seed_string => parse_seed_positions seed_string 0 [])) seed_strings =
        seed_strings := by
      have hid : List.map ((fun seed => seed_to_string seed k) ∘
          (fun seed_string => parse_seed_positions seed_string 0 [])) seed_strings =
          List.map id seed_strings := by
        apply List.map_congr_left
        intro m hm
        obtain ⟨h1, h2⟩ := hmask m hm
        exact seed_to_string_parse_seed_positions m k h1 (by omega) h2
      rw [hid, List.map_id]
    rw [this]
  · unfold parse_seeds
    apply List.map_congr_left
    intro m hm
    obtain ⟨h1, _⟩ := hmask m hm
    rw [parse_seed_positions_eq m 0 [] (by omega)]
    simp

/-- Witness for C19: the masks `1101` and `0110`, with `k = 4`. -/
theorem parse_seeds_forms_agree_witness :
    parsed_seeds_to_blocks (parse_seeds ["1101".toList, "0110".toList]) 4 [] [] =
      parse_seeds_blocks ["1101".toList, "0110".toList] [] [] ∧
    parse_seeds ["1101".toList, "0110".toList] =
      ["1101".toList, "0110".toList].map (fun m =>
        (List.range m.length).filter (fun i => decide (m.getD i nul ≠ '1'))) :=
  parse_seeds_forms_agree ["1101".toList, "0110".toList] 4 [] [] (by decide) (by decide)

/-! ## `change_seq` against a fresh construction -/

theorem NtHash.init_loop_hashes (L : LowLevel) :
    ∀ (fuel : Nat) (s : NtHash) (h : List Nat),
      (NtHash.init_loop L fuel s = none ∧
        NtHash.init_loop L fuel { s with hashes_array := h } = none) ∨
      ∃ t h2, NtHash.init_loop L fuel s = some t ∧
        NtHash.init_loop L fuel { s with hashes_array := h } =
          some { t with hashes_array := h2 } ∧
        t.initialized = s.initialized ∧ t.seq_len = s.seq_len ∧ t.k = s.k ∧
        (h2 = t.hashes_array ∨ ¬ (t.pos < sz (szSub s.seq_len s.k + 1))) := by
  intro fuel
  induction fuel with
  | zero => intro s h; left; exact ⟨rfl, rfl⟩
  | succ n ih =>
    intro s h
    by_cases hc : s.pos < sz (szSub s.seq_len s.k + 1)
    · cases hres : L.ntmc64_init (window s.seq s.pos s.k) s.k s.hash_num with
      | ok fh rh hs =>
        right
        refine ⟨{ s with forward_hash := fh, reverse_hash := rh, hashes_array := hs }, hs,
          ?_, ?_, rfl, rfl, rfl, Or.inl rfl⟩
        · simp [NtHash.init_loop, hc, hres]
        · simp [NtHash.init_loop, hc, hres]
      | invalid posN fh rh =>
        have e1 : NtHash.init_loop L (n + 1) s =
            NtHash.init_loop L n { s with pos := sz (s.pos + u32 (posN + 1)),
                                          forward_hash := fh, reverse_hash := rh } := by
          simp [NtHash.init_loop, hc, hres]
        have e2 : NtHash.init_loop L (n + 1) { s with hashes_array := h } =
            NtHash.init_loop L n
              { ({ s with pos := sz (s.pos + u32 (posN + 1)), forward_hash := fh,
                          reverse_hash := rh } : NtHash) with hashes_array := h } := by
          simp [NtHash.init_loop, hc, hres]
        rw [e1, e2]
        exact ih _ h
    · right
      refine ⟨s, h, ?_, ?_, rfl, rfl, rfl, Or.inr hc⟩
      · simp [NtHash.init_loop, hc]
      · simp [NtHash.init_loop, hc]

theorem NtHash.init_hashes (L : LowLevel) (s : NtHash) (h : List Nat)
    (hlen : s.seq_len + 1 < 2 ^ 64) :
    (NtHash.init L s = none ∧ NtHash.init L { s with hashes_array := h } = none) ∨
    ∃ b t h2, NtHash.init L s = some (b, t) ∧
      NtHash.init L { s with hashes_array := h } = some (b, { t with hashes_array := h2 }) ∧
      t.seq_len = s.seq_len ∧
      (b = false → t.initialized = s.initialized) ∧
      (b = true → t.initialized = true ∧ h2 = t.hashes_array) := by
  by_cases hk : s.k > s.seq_len
  · right
    refine ⟨false, { s with pos := SIZE_MAX }, h, ?_, ?_, rfl, fun _ => rfl, by simp⟩
    · simp [NtHash.init, hk]
    · simp [NtHash.init, hk]
  · rcases NtHash.init_loop_hashes L (s.seq_len + 2) s h with ⟨h1, h2⟩ | ⟨t, h2, e1, e2, hi, hl, hkk, hh⟩
    · left
      exact ⟨by simp [NtHash.init, hk, h1], by simp [NtHash.init, hk, h2]⟩
    · right
      have hsub : szSub t.seq_len t.k = s.seq_len - s.k := by
        rw [hl, hkk]; exact szSub_of_le (by omega) (by omega)
      by_cases hgt : t.pos > s.seq_len - s.k
      · refine ⟨false, { t with pos := SIZE_MAX }, h2, ?_, ?_, hl, fun _ => hi, by simp⟩
        · simp [NtHash.init, hk, e1, hsub, hgt]
        · simp [NtHash.init, hk, e2, hsub, hgt]
      · refine ⟨true, { t with initialized := true }, h2, ?_, ?_, hl, by simp, ?_⟩
        · simp [NtHash.init, hk, e1, hsub, hgt]
        · simp [NtHash.init, hk, e2, hsub, hgt]
        · intro _
          refine ⟨rfl, ?_⟩
          rcases hh with hh | hh
          · exact hh
          · exfalso
            apply hh
            have : sz (szSub s.seq_len s.k + 1) = s.seq_len - s.k + 1 := by
              rw [szSub_of_le (by omega) (by omega)]; unfold sz; omega
            rw [this]; omega

theorem NtHash.init_loop_seq_len (L : LowLevel) :
    ∀ (fuel : Nat) (s t : NtHash), NtHash.init_loop L fuel s = some t →
      t.seq_len = s.seq_len ∧ t.initialized = s.initialized := by
  intro fuel s t ht
  rcases NtHash.init_loop_hashes L fuel s s.hashes_array with ⟨h1, _⟩ | ⟨u, _, e1, _, hi, hl, _, _⟩
  · rw [h1] at ht; cases ht
  · rw [e1] at ht
    simp only [Option.some.injEq] at ht
    subst ht
    exact ⟨hl, hi⟩

theorem NtHash.init_frame (L : LowLevel) (s t : NtHash) (b : Bool)
    (h : NtHash.init L s = some (b, t)) :
    t.seq_len = s.seq_len ∧ (s.initialized = true → t.initialized = true) := by
  unfold NtHash.init at h
  by_cases hk : s.k > s.seq_len
  · simp only [hk, if_true, Option.some.injEq, Prod.mk.injEq] at h
    obtain ⟨_, h2⟩ := h
    subst h2
    exact ⟨rfl, fun hi => hi⟩
  · simp only [hk, if_false] at h
    cases hl : NtHash.init_loop L (s.seq_len + 2) s with
    | none => rw [hl] at h; cases h
    | some u =>
      rw [hl] at h
      obtain ⟨hs, hi⟩ := NtHash.init_loop_seq_len L _ s u hl
      by_cases hgt : u.pos > szSub u.seq_len u.k
      · simp only [hgt, if_true, Option.some.injEq, Prod.mk.injEq] at h
        obtain ⟨_, h2⟩ := h
        subst h2
        exact ⟨hs, fun h1 => by show u.initialized = true; rw [hi]; exact h1⟩
      · simp only [hgt, if_false, Option.some.injEq, Prod.mk.injEq] at h
        obtain ⟨_, h2⟩ := h
        subst h2
        exact ⟨hs, fun _ => rfl⟩

theorem NtHash.call_frame (L : LowLevel) (c : Call) (s t : NtHash) (b : Bool)
    (h : NtHash.call L c s = some (b, t)) :
    t.seq_len = s.seq_len ∧ (s.initialized = true → t.initialized = true) := by
  cases c with
  | roll =>
    simp only [NtHash.call] at h
    unfold NtHash.roll at h
    split_ifs at h
    all_goals first
      | exact NtHash.init_frame L s t b h
      | (have hf := NtHash.init_frame L _ t b h
         exact hf)
      | (simp only [Option.some.injEq, Prod.mk.injEq] at h
         obtain ⟨_, h5⟩ := h
         subst h5
         exact ⟨rfl, fun hi => hi⟩)
  | roll_back =>
    simp only [NtHash.call] at h
    unfold NtHash.roll_back at h
    split_ifs at h
    all_goals first
      | exact NtHash.init_frame L s t b h
      | (have hf := NtHash.init_frame L _ t b h
         exact hf)
      | (simp only [Option.some.injEq, Prod.mk.injEq] at h
         obtain ⟨_, h5⟩ := h
         subst h5
         exact ⟨rfl, fun hi => hi⟩)

theorem NtHash.call_hashesApart (L : LowLevel) (c : Call) (s t : NtHash)
    (hst : s.hashesApart t) :
    (NtHash.call L c s = none ∧ NtHash.call L c t = none) ∨
    ∃ b s2 t2, NtHash.call L c s = some (b, s2) ∧ NtHash.call L c t = some (b, t2) ∧
      s2.hashesApart t2 ∧ (b = true → s2 = t2) := by
  obtain ⟨hlen, h, ht, hh⟩ := hst
  subst ht
  rcases hh with hh | hun
  · subst hh
    have heta : ({ s with hashes_array := s.hashes_array } : NtHash) = s := rfl
    rw [heta]
    cases hcall : NtHash.call L c s with
    | none => left; exact ⟨rfl, rfl⟩
    | some p =>
      right
      obtain ⟨hl, _⟩ := NtHash.call_frame L c s p.2 p.1 hcall
      exact ⟨p.1, p.2, p.2, rfl, rfl, ⟨by rw [hl]; exact hlen, p.2.hashes_array, rfl, Or.inl rfl⟩,
        fun _ => rfl⟩
  · have hc1 : NtHash.call L c s = NtHash.init L s := by
      cases c <;> simp [NtHash.call, NtHash.roll, NtHash.roll_back, hun]
    have hc2 : NtHash.call L c { s with hashes_array := h } =
        NtHash.init L { s with hashes_array := h } := by
      cases c <;> simp [NtHash.call, NtHash.roll, NtHash.roll_back, hun]
    rw [hc1, hc2]
    rcases NtHash.init_hashes L s h hlen with hn | ⟨b, t1, h2, e1, e2, hl, hf, htr⟩
    · left; exact hn
    · right
      refine ⟨b, t1, { t1 with hashes_array := h2 }, e1, e2,
        ⟨by rw [hl]; exact hlen, h2, rfl, ?_⟩, ?_⟩
      · cases b with
        | false => right; rw [hf rfl]; exact hun
        | true => left; exact (htr rfl).2
      · intro hb
        rw [(htr hb).2]

theorem NtHash.run_hashesApart (L : LowLevel) :
    ∀ (calls : List Call) (s t : NtHash), s.hashesApart t →
      (NtHash.run L calls s = none ∧ NtHash.run L calls t = none) ∨
      ∃ bs s2 t2, NtHash.run L calls s = some (bs, s2) ∧ NtHash.run L calls t = some (bs, t2) ∧
        s2.hashesApart t2 ∧ (true ∈ bs → s2 = t2) := by
  intro calls
  induction calls with
  | nil =>
    intro s t hst
    right
    exact ⟨[], s, t, rfl, rfl, hst, fun h => by cases h⟩
  | cons c cs ih =>
    intro s t hst
    rcases NtHash.call_hashesApart L c s t hst with ⟨h1, h2⟩ | ⟨b, s1, t1, e1, e2, h12, hb⟩
    · left
      exact ⟨by simp [NtHash.run, h1], by simp [NtHash.run, h2]⟩
    · rcases ih s1 t1 h12 with ⟨h1, h2⟩ | ⟨bs, s2, t2, f1, f2, h22, hbs⟩
      · left
        exact ⟨by simp [NtHash.run, e1, h1], by simp [NtHash.run, e2, h2]⟩
      · right
        refine ⟨b :: bs, s2, t2, by simp [NtHash.run, e1, f1], by simp [NtHash.run, e2, f2],
          h22, ?_⟩
        intro hmem
        rcases List.mem_cons.mp hmem with hb1 | hb2
        · have h3 := hb hb1.symm
          rw [h3] at f1
          rw [f1] at f2
          simp only [Option.some.injEq, Prod.mk.injEq, true_and] at f2
          exact f2
        · exact hbs hb2

/-- C14: for every `NtHash` state, every string `new_seq` and every offset `new_pos`, after
`change_seq(new_seq, new_pos)` the initialized flag is `false`, `pos` is `new_pos`, both
accumulators are 0, and `k` and `hash_num` are unchanged: the state is that of an `NtHash`
freshly constructed over `new_seq` at `new_pos` with the same `k` and `hash_num`, apart from
the hash array. Every sequence of `roll()` and `roll_back()` calls then gives the same
return values on both, leaves states that agree in all members other than the hash array,
and leaves equal states as soon as one call has returned `true`. The string is shorter than
the largest `size_t` value. -/
theorem NtHash.change_seq_like_fresh (L : LowLevel) (s : NtHash) (new_seq : List Char)
    (new_pos : Nat) (f : NtHash) (ws : List String)
    (hnew : NtHash.new new_seq new_seq.length s.hash_num s.k new_pos = Except.ok (f, ws))
    (hlen : new_seq.length + 1 < 2 ^ 64) (calls : List Call) :
    (s.change_seq new_seq new_pos).initialized = false ∧
    (s.change_seq new_seq new_pos).get_pos = new_pos ∧
    (s.change_seq new_seq new_pos).get_forward_hash = 0 ∧
    (s.change_seq new_seq new_pos).get_reverse_hash = 0 ∧
    (s.change_seq new_seq new_pos).get_k = s.get_k ∧
    (s.change_seq new_seq new_pos).get_hash_num = s.get_hash_num ∧
    f.sameButHashes (s.change_seq new_seq new_pos) ∧
    ((NtHash.run L calls f = none ∧ NtHash.run L calls (s.change_seq new_seq new_pos) = none) ∨
      ∃ bs a b, NtHash.run L calls f = some (bs, a) ∧
        NtHash.run L calls (s.change_seq new_seq new_pos) = some (bs, b) ∧
        a.sameButHashes b ∧ (true ∈ bs → a = b)) := by
  obtain ⟨_, _, hf⟩ := NtHash.new_ok new_seq new_seq.length s.hash_num s.k new_pos f ws hnew
  have hsame : f.sameButHashes (s.change_seq new_seq new_pos) := by
    subst hf; rfl
  have hap : f.hashesApart (s.change_seq new_seq new_pos) := by
    refine ⟨by subst hf; exact hlen, s.hashes_array, ?_, Or.inr (by subst hf; rfl)⟩
    subst hf; rfl
  refine ⟨rfl, rfl, rfl, rfl, rfl, rfl, hsame, ?_⟩
  rcases NtHash.run_hashesApart L calls f _ hap with hn | ⟨bs, a, b, e1, e2, hab, htrue⟩
  · left; exact hn
  · right
    obtain ⟨_, h, hb, _⟩ := hab
    exact ⟨bs, a, b, e1, e2, by rw [hb]; rfl, htrue⟩

/-- Witness for C14: an iterator that has rolled over `ACGTA` is given the string `NACGT` at
offset 0; two calls of `roll()` and one of `roll_back()` follow. -/
theorem NtHash.change_seq_like_fresh_witness :
    (NtHash.demoSecond.change_seq "NACGT".toList 0).initialized = false ∧
    (NtHash.demoSecond.change_seq "NACGT".toList 0).get_pos = 0 ∧
    (NtHash.demoSecond.change_seq "NACGT".toList 0).get_forward_hash = 0 ∧
    (NtHash.demoSecond.change_seq "NACGT".toList 0).get_reverse_hash = 0 ∧
    (NtHash.demoSecond.change_seq "NACGT".toList 0).get_k = NtHash.demoSecond.get_k ∧
    (NtHash.demoSecond.change_seq "NACGT".toList 0).get_hash_num =
      NtHash.demoSecond.get_hash_num ∧
    (NtHash.fresh "NACGT".toList 1 3 0).sameButHashes
      (NtHash.demoSecond.change_seq "NACGT".toList 0) ∧
    ((NtHash.run toyLowLevel [Call.roll, Call.roll, Call.roll_back]
          (NtHash.fresh "NACGT".toList 1 3 0) = none ∧
        NtHash.run toyLowLevel [Call.roll, Call.roll, Call.roll_back]
          (NtHash.demoSecond.change_seq "NACGT".toList 0) = none) ∨
      ∃ bs a b, NtHash.run toyLowLevel [Call.roll, Call.roll, Call.roll_back]
          (NtHash.fresh "NACGT".toList 1 3 0) = some (bs, a) ∧
        NtHash.run toyLowLevel [Call.roll, Call.roll, Call.roll_back]
          (NtHash.demoSecond.change_seq "NACGT".toList 0) = some (bs, b) ∧
        a.sameButHashes b ∧ (true ∈ bs → a = b)) :=
  NtHash.change_seq_like_fresh toyLowLevel NtHash.demoSecond "NACGT".toList 0
    (NtHash.fresh "NACGT".toList 1 3 0) [] rfl (by decide)
    [Call.roll, Call.roll, Call.roll_back]

/-! ## The direction flag -/

/-- Claim C23: in every state of an `NtHash` and of a `BlindNtHash`, reachable or not,
`forward()` returns `true` exactly when `get_forward_hash() <= get_reverse_hash()`. -/
theorem forward_iff_forward_hash_le :
    (∀ s : NtHash, s.forward = true ↔ s.get_forward_hash ≤ s.get_reverse_hash) ∧
    (∀ s : BlindNtHash, s.forward = true ↔ s.get_forward_hash ≤ s.get_reverse_hash) := by
  constructor
  · intro s
    simp [NtHash.forward, NtHash.get_forward_hash, NtHash.get_reverse_hash]
  · intro s
    simp [BlindNtHash.forward, BlindNtHash.get_forward_hash, BlindNtHash.get_reverse_hash]

/-! ## Spaced seeds: a mask that starts with `'0'` -/

/-- Evaluation for C24: for the mask `0101` the scan starts in care mode at index 0, meets
`'0'` at once and records the care run from 0 to 0, which is no monomer and so becomes the
block `(0, 0)`, a block of length 0. Both polarities count 4 terms, so the care decomposition
with the empty block is the one stored. -/
theorem care_decomposition_has_empty_block :
    care_decomposition "0101".toList = ([(0, 0)], [1, 3]) ∧
    ignore_decomposition "0101".toList = ([], [0, 2]) ∧
    parse_seeds_blocks ["0101".toList] [] [] = ([[(0, 0)]], [[1, 3]]) ∧
    ¬ ((0, 0) : Nat × Nat).2 - ((0, 0) : Nat × Nat).1 ≥ 2 := by
  refine ⟨by decide, by decide, by decide, by decide⟩

/-! ## `roll_back()` over an invalid symbol -/

/-- On a valid window whose preceding symbol is invalid, `roll_back()` never moves back: it
returns `true` with the position it started from, or `false` with the sentinel. -/
theorem NtHash.roll_back_never_moves_over_invalid (L : LowLevel) (hC : InitContract L)
    (s : NtHash) (hgood : s.onValidWindow L) (hlen : s.seq_len < 2 ^ 64) (hk16 : s.k < 2 ^ 16)
    (hpos : 1 ≤ s.pos) (hN : L.SEED_TAB (seqAt s.seq (s.pos - 1)) = L.SEED_N) :
    ∃ b t, NtHash.roll_back L s = some (b, t) ∧ (b = true → t.pos = s.pos) ∧
      (b = false → t.pos = SIZE_MAX) := by
  obtain ⟨hinit, hfit, hval⟩ := hgood
  have h1 : szSub s.pos 1 = s.pos - 1 := szSub_of_le hpos (by omega)
  have hp0 : ¬ s.pos ≤ 0 := by omega
  obtain ⟨b, t, ht, _, htrue, hfalse⟩ :=
    NtHash.init_spec L hC { s with pos := szSub s.pos s.k } hlen (szSub_lt _ _) hk16
  have ht2 := ht
  simp only [hinit] at ht2
  refine ⟨b, t, by simp [NtHash.roll_back, hinit, hp0, h1, hN, ht2], ?_,
    fun hb => (hfalse hb).1⟩
  intro hb
  obtain ⟨_, q1, q2, q3, q4, _⟩ := htrue hb
  simp only at q1 q2 q3 q4
  by_cases hk : s.k ≤ s.pos
  · have hs : szSub s.pos s.k = s.pos - s.k := szSub_of_le hk (by omega)
    rw [hs] at q1 q4
    have hge : ¬ t.pos < s.pos := by
      intro hlt
      exact not_validWindow_of_invalid L s.seq t.pos s.k (s.pos - 1) hN (by omega) (by omega) q3
    have hle : ¬ s.pos < t.pos := by
      intro hlt
      exact q4 s.pos (by omega) hlt hval
    omega
  · have hs : szSub s.pos s.k = s.pos + 2 ^ 64 - s.k := by unfold szSub; omega
    rw [hs] at q1
    omega

/-- Evaluation for C25: over the buffer `ANA` with `k = 1` two calls of `roll()` lead to the
window at position 2. The symbol before it is invalid, and the window at position 0 is valid.
`roll_back()` subtracts `k` from `pos` and calls `init()`, which scans forward from position 1
and stops at position 2 again: the call returns `true` and leaves the state as it was. -/
theorem NtHash.roll_back_over_invalid_keeps_pos :
    ∃ s ws t, NtHash.new "ANA".toList 3 1 1 0 = Except.ok (s, ws) ∧
      NtHash.run toyLowLevel [Call.roll, Call.roll] s = some ([true, true], t) ∧
      t.initialized = true ∧ t.get_pos = 2 ∧
      toyLowLevel.SEED_TAB (seqAt t.seq (t.get_pos - 1)) = toyLowLevel.SEED_N ∧
      validWindow toyLowLevel t.seq 0 t.get_k ∧
      NtHash.roll_back toyLowLevel t = some (true, t) := by
  refine ⟨NtHash.fresh "ANA".toList 1 1 0, _, NtHash.demoBehindInvalid,
    rfl, by decide, rfl, rfl, by decide, by decide, by decide⟩

/-! ## The symbol tested by `BlindNtHash::roll` -/

/-- Evaluation for C28: `roll(char_in)` tests `seq[pos + k]`, a symbol of the private buffer,
and never looks at `char_in`. Over the buffer `ACGT` with `k = 3` the call `roll('N')` finds
the valid symbol `T` in the buffer, shifts the invalid symbol in and returns `true`. Over the
buffer `ACGN` the call `roll('A')`, with a valid symbol, finds `N` in the buffer, jumps,
finds no window and returns `false` without a shift. -/
theorem BlindNtHash.roll_tests_buffer_symbol :
    ¬ toyLowLevel.validSym 'N' ∧ toyLowLevel.validSym 'A' ∧
    (∃ s ws t, BlindNtHash.new "ACGT".toList 4 1 3 0 = Except.ok (s, ws) ∧
      BlindNtHash.roll toyLowLevel s 'A' = some (true, BlindNtHash.demoLonger) ∧
      BlindNtHash.roll toyLowLevel BlindNtHash.demoLonger 'N' = some (true, t) ∧
      t.get_pos = 1 ∧ t.seq = "NCGT".toList) ∧
    (∃ s ws t, BlindNtHash.new "ACGN".toList 4 1 3 0 = Except.ok (s, ws) ∧
      BlindNtHash.roll toyLowLevel s 'A' = some (true, BlindNtHash.demoInvalidAhead) ∧
      BlindNtHash.roll toyLowLevel BlindNtHash.demoInvalidAhead 'A' = some (false, t) ∧
      t.get_pos = SIZE_MAX ∧ t.seq = "ACGN".toList) := by
  refine ⟨by decide, by decide, ?_, ?_⟩
  · exact ⟨{ seq := "ACGT".toList, seq_len := 4, hash_num := 1, k := 3, pos := 0,
             initialized := false, hashes_array := [0], forward_hash := 0,
             reverse_hash := 0 }, _,
           { seq := "NCGT".toList, seq_len := 4, hash_num := 1, k := 3, pos := 1,
             initialized := true, hashes_array := [12], forward_hash := 6,
             reverse_hash := 6 }, rfl, by decide, by decide, rfl, rfl⟩
  · exact ⟨{ seq := "ACGN".toList, seq_len := 4, hash_num := 1, k := 3, pos := 0,
             initialized := false, hashes_array := [0], forward_hash := 0,
             reverse_hash := 0 }, _,
           { seq := "ACGN".toList, seq_len := 4, hash_num := 1, k := 3, pos := SIZE_MAX,
             initialized := true, hashes_array := [21], forward_hash := 7,
             reverse_hash := 14 }, rfl, by decide, by decide, rfl, rfl⟩

/-! ## Reads outside the buffer -/

/-- Evaluation for C29: over the buffer `AN` with `k = 1` two calls of `roll()` leave an
initialised iterator whose `pos` is the sentinel. The next `roll_back()` passes the test
`pos <= 0` and reads `seq[pos - 1]`, the index `2 ^ 64 - 2`, which is not below `seq_len`. -/
theorem NtHash.roll_back_reads_outside_buffer :
    ∃ s ws t, NtHash.newStr "AN".toList 1 1 0 = Except.ok (s, ws) ∧
      NtHash.run toyLowLevel [Call.roll, Call.roll] s = some ([true, false], t) ∧
      t.seq_len = 2 ∧
      NtHash.roll_back_reads toyLowLevel t = [2 ^ 64 - 2] ∧
      ¬ (2 ^ 64 - 2 < t.seq_len) := by
  refine ⟨NtHash.fresh "AN".toList 1 1 0, _, NtHash.demoExhausted,
    rfl, by decide, rfl, by decide, by decide⟩

/-! ## The number of hashes of a `SeedNtHash` -/

/-- Evaluation for C22: with two seeds and `hash_num_per_seed = 2 ^ 31` the product
`seeds.size() * hash_num_per_seed` is `2 ^ 32`; passed to the `unsigned` parameter of the
`NtHash` constructor it becomes 0, so the check against 255 lets it pass. The construction
succeeds and `get_hash_num()` is 0. -/
theorem SeedNtHash.new_accepts_wrapped_hash_num :
    ∃ s ws, SeedNtHash.new "ACGT".toList 4 [[], []] (2 ^ 31) 3 0 = Except.ok (s, ws) ∧
      s.get_hash_num = 0 ∧ s.get_hash_num_per_seed = 2 ^ 31 ∧
      [([] : SpacedSeed), []].length * 2 ^ 31 > NTHASH_HASH_NUM_MAX := by
  refine ⟨_, _, rfl, rfl, rfl, by decide⟩

/-! ## Termination of the scan of `init()` -/

theorem posNInWindow_of_initContract (L : LowLevel) (hC : InitContract L) :
    PosNInWindow L := by
  intro w k m posN fh rh hw h
  have hc := hC w k m hw
  rw [h] at hc
  exact hc.1

/-- The scan returns when it is given more rounds than there are window starts left, and its
body runs at most once per window start left. -/
theorem NtHash.init_loop_rounds_spec (L : LowLevel) (hP : PosNInWindow L) :
    ∀ (fuel : Nat) (s : NtHash), s.k ≤ s.seq_len → s.seq_len < 2 ^ 64 → s.pos < 2 ^ 64 →
      s.k < 2 ^ 16 → s.seq_len + 1 - s.k - s.pos < fuel →
      ∃ n t, NtHash.init_loop_rounds L fuel s = some n ∧ NtHash.init_loop L fuel s = some t ∧
        s.pos + n ≤ t.pos ∧ n ≤ s.seq_len + 1 - s.k - s.pos ∧
        (¬ t.pos < sz (szSub s.seq_len s.k + 1) ∨
          L.ntmc64_init (window s.seq t.pos s.k) s.k s.hash_num =
            InitResult.ok t.forward_hash t.reverse_hash t.hashes_array) := by
  intro fuel
  induction fuel with
  | zero => intro s _ _ _ _ hf; omega
  | succ n ih =>
    intro s hk hlen hpos hk16 hfuel
    by_cases hlt : s.pos < sz (szSub s.seq_len s.k + 1)
    · have hb : sz (szSub s.seq_len s.k + 1) ≤ s.seq_len + 1 - s.k := by
        unfold sz szSub; omega
      cases hres : L.ntmc64_init (window s.seq s.pos s.k) s.k s.hash_num with
      | ok fh rh hs =>
        refine ⟨0, { s with forward_hash := fh, reverse_hash := rh, hashes_array := hs }, ?_,
          ?_, Nat.le_refl _, Nat.zero_le _, Or.inr hres⟩
        · simp [NtHash.init_loop_rounds, hlt, hres]
        · simp [NtHash.init_loop, hlt, hres]
      | invalid posN fh rh =>
        have hp : posN < s.k :=
          hP (window s.seq s.pos s.k) s.k s.hash_num posN fh rh (window_length _ _ _) hres
        have hnew : sz (s.pos + u32 (posN + 1)) = s.pos + posN + 1 := by
          unfold sz u32; omega
        obtain ⟨m, t, h1, h2, h3, h4, h5⟩ :=
          ih { s with pos := sz (s.pos + u32 (posN + 1)), forward_hash := fh,
                      reverse_hash := rh } hk hlen
            (by simp only [hnew]; omega) hk16 (by simp only [hnew]; omega)
        simp only [hnew] at h1 h2 h3 h4 h5
        refine ⟨m + 1, t, ?_, ?_, by omega, by omega, h5⟩
        · simp [NtHash.init_loop_rounds, hlt, hres, hnew, h1]
        · simp [NtHash.init_loop, hlt, hres, hnew, h2]
    · refine ⟨0, s, ?_, ?_, Nat.le_refl _, Nat.zero_le _, Or.inl hlt⟩
      · simp [NtHash.init_loop_rounds, hlt]
      · simp [NtHash.init_loop, hlt]

/-- Claim C30: when a failing `ntmc64` leaves an index of the window in `posN`, every round of
the scan loop of `init()` moves `pos` on by at least 1; given more than `seq_len - k + 1`
rounds the loop returns, its body has run at most `seq_len - k + 1` times, and it ends
because `pos` is no longer below `seq_len - k + 1` or because `ntmc64` succeeded; `init()`
itself returns for every buffer, `k` and start position. -/
theorem NtHash.init_scan_terminates (L : LowLevel) (hP : PosNInWindow L) (s : NtHash)
    (hlen : s.seq_len < 2 ^ 64) (hpos : s.pos < 2 ^ 64) (hk16 : s.k < 2 ^ 16) :
    (∀ posN fh rh, s.k ≤ s.seq_len → s.pos < sz (szSub s.seq_len s.k + 1) →
      L.ntmc64_init (window s.seq s.pos s.k) s.k s.hash_num = InitResult.invalid posN fh rh →
      posN < s.k ∧ s.pos + 1 ≤ sz (s.pos + u32 (posN + 1))) ∧
    (s.k ≤ s.seq_len → ∀ fuel, s.seq_len - s.k + 1 < fuel →
      ∃ n t, NtHash.init_loop_rounds L fuel s = some n ∧ NtHash.init_loop L fuel s = some t ∧
        n ≤ s.seq_len - s.k + 1 ∧ s.pos + n ≤ t.pos ∧
        (¬ t.pos < sz (szSub s.seq_len s.k + 1) ∨
          L.ntmc64_init (window s.seq t.pos s.k) s.k s.hash_num =
            InitResult.ok t.forward_hash t.reverse_hash t.hashes_array)) ∧
    ∃ b t, NtHash.init L s = some (b, t) := by
  refine ⟨?_, ?_, ?_⟩
  · intro posN fh rh hk hlt hres
    have hp : posN < s.k :=
      hP (window s.seq s.pos s.k) s.k s.hash_num posN fh rh (window_length _ _ _) hres
    have hb : sz (szSub s.seq_len s.k + 1) ≤ s.seq_len + 1 - s.k := by
      unfold sz szSub; omega
    refine ⟨hp, ?_⟩
    unfold sz u32; omega
  · intro hk fuel hfuel
    obtain ⟨n, t, h1, h2, h3, h4, h5⟩ :=
      NtHash.init_loop_rounds_spec L hP fuel s hk hlen hpos hk16 (by omega)
    exact ⟨n, t, h1, h2, by omega, h3, h5⟩
  · by_cases hk : s.k > s.seq_len
    · exact ⟨false, { s with pos := SIZE_MAX }, by simp [NtHash.init, hk]⟩
    · obtain ⟨n, t, _, h2, _⟩ :=
        NtHash.init_loop_rounds_spec L hP (s.seq_len + 2) s (by omega) hlen hpos hk16
          (by omega)
      by_cases hgt : t.pos > szSub t.seq_len t.k
      · exact ⟨false, { t with pos := SIZE_MAX }, by simp [NtHash.init, hk, h2, hgt]⟩
      · exact ⟨true, { t with initialized := true }, by simp [NtHash.init, hk, h2, hgt]⟩

/-- Witness for C30: the scan over the buffer `NNACG` with `k = 2`, started at 0, under the
stand-in routines. -/
theorem NtHash.init_scan_terminates_witness :
    PosNInWindow toyLowLevel ∧
    (NtHash.fresh "NNACG".toList 1 2 0).seq_len < 2 ^ 64 ∧
    ((∀ posN fh rh, (NtHash.fresh "NNACG".toList 1 2 0).k ≤
          (NtHash.fresh "NNACG".toList 1 2 0).seq_len →
        (NtHash.fresh "NNACG".toList 1 2 0).pos <
          sz (szSub (NtHash.fresh "NNACG".toList 1 2 0).seq_len
            (NtHash.fresh "NNACG".toList 1 2 0).k + 1) →
        toyLowLevel.ntmc64_init
            (window (NtHash.fresh "NNACG".toList 1 2 0).seq
              (NtHash.fresh "NNACG".toList 1 2 0).pos (NtHash.fresh "NNACG".toList 1 2 0).k)
            (NtHash.fresh "NNACG".toList 1 2 0).k
            (NtHash.fresh "NNACG".toList 1 2 0).hash_num = InitResult.invalid posN fh rh →
        posN < (NtHash.fresh "NNACG".toList 1 2 0).k ∧
          (NtHash.fresh "NNACG".toList 1 2 0).pos + 1 ≤
            sz ((NtHash.fresh "NNACG".toList 1 2 0).pos + u32 (posN + 1))) ∧
      ((NtHash.fresh "NNACG".toList 1 2 0).k ≤ (NtHash.fresh "NNACG".toList 1 2 0).seq_len →
        ∀ fuel, (NtHash.fresh "NNACG".toList 1 2 0).seq_len -
            (NtHash.fresh "NNACG".toList 1 2 0).k + 1 < fuel →
          ∃ n t, NtHash.init_loop_rounds toyLowLevel fuel
              (NtHash.fresh "NNACG".toList 1 2 0) = some n ∧
            NtHash.init_loop toyLowLevel fuel (NtHash.fresh "NNACG".toList 1 2 0) = some t ∧
            n ≤ (NtHash.fresh "NNACG".toList 1 2 0).seq_len -
              (NtHash.fresh "NNACG".toList 1 2 0).k + 1 ∧
            (NtHash.fresh "NNACG".toList 1 2 0).pos + n ≤ t.pos ∧
            (¬ t.pos < sz (szSub (NtHash.fresh "NNACG".toList 1 2 0).seq_len
                (NtHash.fresh "NNACG".toList 1 2 0).k + 1) ∨
              toyLowLevel.ntmc64_init
                  (window (NtHash.fresh "NNACG".toList 1 2 0).seq t.pos
                    (NtHash.fresh "NNACG".toList 1 2 0).k)
                  (NtHash.fresh "NNACG".toList 1 2 0).k
                  (NtHash.fresh "NNACG".toList 1 2 0).hash_num =
                InitResult.ok t.forward_hash t.reverse_hash t.hashes_array)) ∧
      ∃ b t, NtHash.init toyLowLevel (NtHash.fresh "NNACG".toList 1 2 0) = some (b, t)) :=
  ⟨posNInWindow_of_initContract toyLowLevel toy_initContract, by decide,
    NtHash.init_scan_terminates toyLowLevel
      (posNInWindow_of_initContract toyLowLevel toy_initContract)
      (NtHash.fresh "NNACG".toList 1 2 0) (by decide) (by decide) (by decide)⟩

/-! ## Substitution of symbols -/

theorem substituted_length (positions : List Nat) :
    ∀ (new_bases : List Char) (w : List Char),
      (substituted w positions new_bases).length = w.length := by
  induction positions with
  | nil => intro new_bases w; simp [substituted]
  | cons p ps ih =>
    intro new_bases w
    cases new_bases with
    | nil => simp [substituted]
    | cons c cs =>
      have h := ih cs (w.set p c)
      simp only [substituted, List.zip_cons_cons, List.foldl_cons] at h ⊢
      rw [h, List.length_set]

theorem getD_set_cases (w : List Char) (p i : Nat) (c : Char) :
    (w.set p c).getD i nul = c ∨ (w.set p c).getD i nul = w.getD i nul := by
  by_cases hpi : p = i
  · subst hpi
    by_cases hp : p < w.length
    · left
      rw [List.getD_eq_getElem _ _ (by simpa using hp)]
      simp
    · right
      rw [List.getD_eq_default _ _ (by simp; omega), List.getD_eq_default _ _ (by omega)]
  · right
    simp [List.getD_eq_getElem?_getD, List.getElem?_set_ne hpi]

/-- Every symbol of the window after the substitution is a symbol of the window before it or
one of the new symbols. -/
theorem substituted_getD (P : Char → Prop) (positions : List Nat) :
    ∀ (new_bases : List Char) (w : List Char) (k : Nat),
      (∀ i, i < k → P (w.getD i nul)) → (∀ c, c ∈ new_bases → P c) →
      ∀ i, i < k → P ((substituted w positions new_bases).getD i nul) := by
  induction positions with
  | nil => intro new_bases w k hw _ i hi; simpa [substituted] using hw i hi
  | cons p ps ih =>
    intro new_bases w k hw hc i hi
    cases new_bases with
    | nil => simpa [substituted] using hw i hi
    | cons c cs =>
      have h := ih cs (w.set p c) k ?_ (fun d hd => hc d (List.mem_cons_of_mem _ hd)) i hi
      · simpa only [substituted, List.zip_cons_cons, List.foldl_cons] using h
      · intro j hj
        rcases getD_set_cases w p j c with e | e
        · rw [e]; exact hc c (List.mem_cons_self _ _)
        · rw [e]; exact hw j hj

theorem toy_subContract : SubContract toyLowLevel toy_sub_hash := by
  intro w positions new_bases k m fh rh hs hlen _ _ hval hinit
  have hinit2 : (match toyScan w k with
      | some i => InitResult.invalid i 0 0
      | none => InitResult.ok (toyAcc toySeed w) (toyAcc toyComp w)
          (toyHashes m (toyAcc toySeed w) (toyAcc toyComp w))) =
      InitResult.ok fh rh hs := hinit
  cases h : toyScan w k with
  | some p => rw [h] at hinit2; cases hinit2
  | none =>
    have hall := (toyScan_none w k).mp h
    have hnone : toyScan (substituted w positions new_bases) k = none := by
      rw [toyScan_none]
      exact substituted_getD (fun c => toySeed c ≠ 0) positions new_bases w k hall
        (fun c hc => hval c hc)
    refine ⟨toyAcc toySeed (substituted w positions new_bases),
      toyAcc toyComp (substituted w positions new_bases), ?_⟩
    show (match toyScan (substituted w positions new_bases) k with
      | some i => InitResult.invalid i 0 0
      | none => InitResult.ok (toyAcc toySeed (substituted w positions new_bases))
          (toyAcc toyComp (substituted w positions new_bases))
          (toyHashes m (toyAcc toySeed (substituted w positions new_bases))
            (toyAcc toyComp (substituted w positions new_bases)))) = _
    rw [hnone]
    rfl

theorem window_full (w : List Char) : window w 0 w.length = w := by
  apply List.ext_getElem
  · simp [window]
  · intro i h1 h2
    simp [window, seqAt, List.getD_eq_getElem?_getD, h2]

/-- Claim C21: for an `NtHash` whose accumulators are those of its current window, positions
below `k` and as many valid new symbols, and a `sub_hash` that meets its contract on the
window it is handed, the hashes left by `sub(positions, new_bases)` are the hashes `ntmc64`
computes from scratch on the window with the symbols substituted; they are also the hashes a
fresh iterator over the substituted window holds after its first `roll()`. -/
theorem NtHash.sub_equals_init_on_substituted (L : LowLevel) (sub_hash : SubHash)
    (hS : SubContract L sub_hash) (s : NtHash) (positions : List Nat) (new_bases : List Char)
    (hacc : s.accFromScratch L)
    (hlen : positions.length = new_bases.length)
    (hpos : ∀ p, p ∈ positions → p < s.get_k)
    (hval : ∀ c, c ∈ new_bases → L.validSym c) :
    (∃ fh2 rh2,
      L.ntmc64_init (substituted (window s.seq s.get_pos s.get_k) positions new_bases)
          s.get_k s.get_hash_num =
        InitResult.ok fh2 rh2 (s.sub sub_hash positions new_bases).hashes) ∧
    ∃ t, NtHash.roll L
        (NtHash.fresh (substituted (window s.seq s.get_pos s.get_k) positions new_bases)
          s.get_hash_num s.get_k 0) = some (true, t) ∧
      t.hashes = (s.sub sub_hash positions new_bases).hashes := by
  obtain ⟨hs, hacc⟩ := hacc
  unfold NtHash.get_k at hpos
  obtain ⟨fh2, rh2, h2⟩ :=
    hS (window s.seq s.pos s.k) positions new_bases s.k s.hash_num s.forward_hash
      s.reverse_hash hs (window_length _ _ _) hlen hpos hval hacc
  have hl : (substituted (window s.seq s.pos s.k) positions new_bases).length = s.k := by
    rw [substituted_length, window_length]
  have hwin : window (substituted (window s.seq s.pos s.k) positions new_bases) 0 s.k =
      substituted (window s.seq s.pos s.k) positions new_bases := by
    have := window_full (substituted (window s.seq s.pos s.k) positions new_bases)
    rw [hl] at this
    exact this
  have hz : szSub s.k s.k = 0 := by unfold szSub; omega
  refine ⟨⟨fh2, rh2, h2⟩, ?_⟩
  refine ⟨{ seq := substituted (window s.seq s.pos s.k) positions new_bases,
            seq_len := s.k, hash_num := s.hash_num, k := s.k, pos := 0,
            initialized := true,
            hashes_array := (s.sub sub_hash positions new_bases).hashes,
            forward_hash := fh2, reverse_hash := rh2 }, ?_, rfl⟩
  simp only [NtHash.get_pos, NtHash.get_k, NtHash.get_hash_num] at h2 ⊢
  have hs1 : sz 1 = 1 := by decide
  simp [NtHash.roll, NtHash.fresh, NtHash.init, NtHash.init_loop, NtHash.sub, NtHash.hashes,
    NtHash.get_k, NtHash.get_hash_num, hl, hwin, hs1, hz, h2]

/-- Witness for C21: the iterator on the window `ACG` of the buffer `ACGTA`; the symbol at
position 1 is replaced by `T`. -/
theorem NtHash.sub_equals_init_on_substituted_witness :
    SubContract toyLowLevel toy_sub_hash ∧ NtHash.demoFirst.accFromScratch toyLowLevel ∧
    substituted (window NtHash.demoFirst.seq NtHash.demoFirst.get_pos NtHash.demoFirst.get_k)
      [1] ['T'] = "ATG".toList ∧
    ((∃ fh2 rh2,
      toyLowLevel.ntmc64_init
          (substituted
            (window NtHash.demoFirst.seq NtHash.demoFirst.get_pos NtHash.demoFirst.get_k)
            [1] ['T'])
          NtHash.demoFirst.get_k NtHash.demoFirst.get_hash_num =
        InitResult.ok fh2 rh2 (NtHash.demoFirst.sub toy_sub_hash [1] ['T']).hashes) ∧
    ∃ t, NtHash.roll toyLowLevel
        (NtHash.fresh
          (substituted
            (window NtHash.demoFirst.seq NtHash.demoFirst.get_pos NtHash.demoFirst.get_k)
            [1] ['T'])
          NtHash.demoFirst.get_hash_num NtHash.demoFirst.get_k 0) = some (true, t) ∧
      t.hashes = (NtHash.demoFirst.sub toy_sub_hash [1] ['T']).hashes) :=
  ⟨toy_subContract, ⟨[21], by decide⟩, by decide,
    NtHash.sub_equals_init_on_substituted toyLowLevel toy_sub_hash toy_subContract
      NtHash.demoFirst [1] ['T'] ⟨[21], by decide⟩ rfl (by decide) (by decide)⟩

/-! ## The temporaries of `SeedNtHash::peek` -/

/-- Evaluation for C26: a `SeedNtHash` over the buffer `ACGTA` with `k = 3` and the mask
`101`, whose two care positions are monomers. After the first `roll()` the array without
monomers differs from the full array. `roll()` shifts the array without monomers; `peek()`
hands the shift a copy of the full array in its place and derives other hashes. -/
theorem SeedNtHash.peek_differs_from_roll :
    ∃ s ws t r p, SeedNtHash.newStrMasks "ACGTA".toList ["101".toList] 1 3 0 =
        Except.ok (s, ws) ∧
      SeedNtHash.roll toyLowLevel toySeedLowLevel s = some (true, t) ∧
      t.fh_no_monomers = [0] ∧ t.forward_hash = [5] ∧
      t.rh_no_monomers = [0] ∧ t.reverse_hash = [10] ∧
      SeedNtHash.roll toyLowLevel toySeedLowLevel t = some (true, r) ∧
      SeedNtHash.peek toySeedLowLevel t = some (true, p) ∧
      r.hashes = [15] ∧ p.hashes = [30] := by
  refine ⟨_, _, _, _, _, rfl, rfl, rfl, rfl, rfl, rfl, rfl, rfl, rfl, rfl⟩

/-! ## `SeedNtHash` against `NtHash`: the same advancement -/

theorem SeedNtHash.init_loop_sim (L : LowLevel) (M : SeedLowLevel) (hF : SameFailures L M) :
    ∀ (fuel : Nat) (sn : SeedNtHash) (s : NtHash), sn.sameCursorAs s →
      (SeedNtHash.init_loop M fuel sn = none ∧ NtHash.init_loop L fuel s = none) ∨
      ∃ tn t, SeedNtHash.init_loop M fuel sn = some tn ∧ NtHash.init_loop L fuel s = some t ∧
        tn.sameCursorAs t := by
  intro fuel
  induction fuel with
  | zero => intro sn s _; left; exact ⟨rfl, rfl⟩
  | succ n ih =>
    intro sn s hR
    rcases sn with ⟨⟨seq', seq_len', hn', k', pos', ini', ha', fh', rh'⟩, h, bl, mo, a0, b0,
      c0, d0⟩
    rcases s with ⟨seq, seq_len, hash_num, k, pos, ini, ha, fh, rh⟩
    obtain ⟨r1, r2, r3, r4, r5⟩ := hR
    simp only at r1 r2 r3 r4 r5
    subst r1 r2 r3 r4 r5
    simp only [SeedNtHash.init_loop, NtHash.init_loop]
    by_cases hlt : pos' < sz (szSub seq_len' k' + 1)
    · simp only [hlt, if_true]
      have hf := hF (window seq' pos' k') bl mo k' bl.length h hash_num
      cases hres : L.ntmc64_init (window seq' pos' k') k' hash_num with
      | ok fh1 rh1 hs1 =>
        cases hresM : M.ntmsm64_init (window seq' pos' k') bl mo k' bl.length h with
        | ok a b c d hsM =>
          right
          exact ⟨_, _, rfl, rfl, ⟨rfl, rfl, rfl, rfl, rfl⟩⟩
        | invalid posN a b c d =>
          rw [hres, hresM] at hf
          simp [InitResult.failure, SeedInitResult.failure] at hf
      | invalid posN fh1 rh1 =>
        cases hresM : M.ntmsm64_init (window seq' pos' k') bl mo k' bl.length h with
        | ok a b c d hsM =>
          rw [hres, hresM] at hf
          simp [InitResult.failure, SeedInitResult.failure] at hf
        | invalid posM a b c d =>
          rw [hres, hresM] at hf
          simp only [InitResult.failure, SeedInitResult.failure, Option.some.injEq] at hf
          subst hf
          exact ih _ _ ⟨rfl, rfl, rfl, rfl, rfl⟩
    · simp only [hlt, if_false]
      right
      exact ⟨_, _, rfl, rfl, ⟨rfl, rfl, rfl, rfl, rfl⟩⟩

theorem SeedNtHash.init_sim (L : LowLevel) (M : SeedLowLevel) (hF : SameFailures L M)
    (sn : SeedNtHash) (s : NtHash) (hR : sn.sameCursorAs s) :
    (SeedNtHash.init M sn = none ∧ NtHash.init L s = none) ∨
    ∃ b tn t, SeedNtHash.init M sn = some (b, tn) ∧ NtHash.init L s = some (b, t) ∧
      tn.sameCursorAs t := by
  have hloop := SeedNtHash.init_loop_sim L M hF (s.seq_len + 2) sn s hR
  obtain ⟨r1, r2, r3, r4, r5⟩ := hR
  unfold SeedNtHash.init NtHash.init
  rw [r2, r3]
  by_cases hk : s.k > s.seq_len
  · simp only [hk, if_true]
    right
    exact ⟨false, _, _, rfl, rfl, ⟨r1, r2, r3, rfl, r5⟩⟩
  · simp only [hk, if_false]
    rcases hloop with ⟨e1, e2⟩ | ⟨tn, t, e1, e2, q1, q2, q3, q4, q5⟩
    · left
      rw [e1, e2]
      exact ⟨rfl, rfl⟩
    · right
      rw [e1, e2]
      simp only [q2, q3, q4]
      by_cases hgt : t.pos > szSub t.seq_len t.k
      · simp only [hgt, if_true]
        exact ⟨false, _, _, rfl, rfl, ⟨q1, q2, q3, rfl, q5⟩⟩
      · simp only [hgt, if_false]
        exact ⟨true, _, _, rfl, rfl, ⟨q1, q2, q3, q4, rfl⟩⟩

theorem SeedNtHash.call_sim (L : LowLevel) (M : SeedLowLevel) (hF : SameFailures L M)
    (c : Call) (sn : SeedNtHash) (s : NtHash) (hR : sn.sameCursorAs s) :
    (SeedNtHash.call L M c sn = none ∧ NtHash.call L c s = none) ∨
    ∃ b tn t, SeedNtHash.call L M c sn = some (b, tn) ∧ NtHash.call L c s = some (b, t) ∧
      tn.sameCursorAs t := by
  rcases sn with ⟨⟨seq', seq_len', hn', k', pos', ini', ha', fh', rh'⟩, h, bl, mo, a0, b0,
    c0, d0⟩
  rcases s with ⟨seq, seq_len, hash_num, k, pos, ini, ha, fh, rh⟩
  obtain ⟨r1, r2, r3, r4, r5⟩ := hR
  simp only at r1 r2 r3 r4 r5
  subst r1 r2 r3 r4 r5
  cases c with
  | roll =>
    simp only [SeedNtHash.call, NtHash.call, SeedNtHash.roll, NtHash.roll]
    by_cases hi : (!ini') = true
    · simp only [hi, if_true]
      exact SeedNtHash.init_sim L M hF _ _ ⟨rfl, rfl, rfl, rfl, rfl⟩
    · simp only [hi, if_false]
      by_cases hend : pos' ≥ szSub seq_len' k'
      · simp only [hend, if_true]
        right
        exact ⟨false, _, _, rfl, rfl, ⟨rfl, rfl, rfl, rfl, rfl⟩⟩
      · simp only [hend, if_false]
        by_cases hN : L.SEED_TAB (seqAt seq' (sz (pos' + k'))) = L.SEED_N
        · simp only [hN, if_true]
          exact SeedNtHash.init_sim L M hF _ _ ⟨rfl, rfl, rfl, rfl, rfl⟩
        · simp only [hN, if_false]
          right
          exact ⟨true, _, _, rfl, rfl, ⟨rfl, rfl, rfl, rfl, rfl⟩⟩
  | roll_back =>
    simp only [SeedNtHash.call, NtHash.call, SeedNtHash.roll_back, NtHash.roll_back]
    by_cases hi : (!ini') = true
    · simp only [hi, if_true]
      exact SeedNtHash.init_sim L M hF _ _ ⟨rfl, rfl, rfl, rfl, rfl⟩
    · simp only [hi, if_false]
      by_cases hend : pos' ≤ 0
      · simp only [hend, if_true]
        right
        exact ⟨false, _, _, rfl, rfl, ⟨rfl, rfl, rfl, rfl, rfl⟩⟩
      · simp only [hend, if_false]
        by_cases hN : L.SEED_TAB (seqAt seq' (szSub pos' 1)) = L.SEED_N
        · simp only [hN, if_true]
          exact SeedNtHash.init_sim L M hF _ _ ⟨rfl, rfl, rfl, rfl, rfl⟩
        · simp only [hN, if_false]
          right
          exact ⟨true, _, _, rfl, rfl, ⟨rfl, rfl, rfl, rfl, rfl⟩⟩

/-- A call of `roll()` or `roll_back()` returns, and it leaves the members in the range of
their types. -/
theorem NtHash.call_returns (L : LowLevel) (hC : InitContract L) (c : Call) (s : NtHash)
    (hlen : s.seq_len < 2 ^ 64) (hpos : s.pos < 2 ^ 64) (hk16 : s.k < 2 ^ 16) :
    ∃ b t, NtHash.call L c s = some (b, t) ∧ t.seq_len = s.seq_len ∧ t.k = s.k ∧
      t.pos < 2 ^ 64 := by
  have hinit : ∀ u : NtHash, u.seq_len = s.seq_len → u.k = s.k → u.pos < 2 ^ 64 →
      ∃ b t, NtHash.init L u = some (b, t) ∧ t.seq_len = s.seq_len ∧ t.k = s.k ∧
        t.pos < 2 ^ 64 := by
    intro u h1 h2 h3
    obtain ⟨b, t, ht, ⟨_, c2, _, c4⟩, htrue, hfalse⟩ :=
      NtHash.init_spec L hC u (by omega) h3 (by omega)
    refine ⟨b, t, ht, by omega, by omega, ?_⟩
    cases b with
    | true => have := (htrue rfl).2.2.1; omega
    | false => rw [(hfalse rfl).1]; unfold SIZE_MAX; omega
  cases c with
  | roll =>
    simp only [NtHash.call, NtHash.roll]
    by_cases hi : (!s.initialized) = true
    · simp only [hi, if_true]; exact hinit s rfl rfl hpos
    · simp only [hi, if_false]
      by_cases hend : s.pos ≥ szSub s.seq_len s.k
      · simp only [hend, if_true]; exact ⟨false, s, rfl, rfl, rfl, hpos⟩
      · simp only [hend, if_false]
        by_cases hN : L.SEED_TAB (seqAt s.seq (sz (s.pos + s.k))) = L.SEED_N
        · simp only [hN, if_true]
          exact hinit _ rfl rfl (by show sz (s.pos + s.k) < 2 ^ 64; unfold sz; omega)
        · simp only [hN, if_false]
          exact ⟨true, _, rfl, rfl, rfl, by show sz (s.pos + 1) < 2 ^ 64; unfold sz; omega⟩
  | roll_back =>
    simp only [NtHash.call, NtHash.roll_back]
    by_cases hi : (!s.initialized) = true
    · simp only [hi, if_true]; exact hinit s rfl rfl hpos
    · simp only [hi, if_false]
      by_cases hend : s.pos ≤ 0
      · simp only [hend, if_true]; exact ⟨false, s, rfl, rfl, rfl, hpos⟩
      · simp only [hend, if_false]
        by_cases hN : L.SEED_TAB (seqAt s.seq (szSub s.pos 1)) = L.SEED_N
        · simp only [hN, if_true]
          exact hinit _ rfl rfl (szSub_lt _ _)
        · simp only [hN, if_false]
          exact ⟨true, _, rfl, rfl, rfl, szSub_lt _ _⟩

theorem toy_sameFailures : SameFailures toyLowLevel toySeedLowLevel := by
  intro w blocks monomers k m m2 hash_num
  show (match toyScan w k with
      | some i =>
        SeedInitResult.invalid i (blocks.map (fun _ => 0)) (blocks.map (fun _ => 0))
          (blocks.map (fun _ => 0)) (blocks.map (fun _ => 0))
      | none => _).failure =
    (match toyScan w k with
      | some i => InitResult.invalid i 0 0
      | none => _).failure
  cases toyScan w k with
  | none => rfl
  | some i => rfl

/-- Claim C27: when the masked initialisation fails on the same windows as the unmasked one
and reports the same index, a `SeedNtHash` and an `NtHash` that stand over the same buffer
with the same `k`, at the same position and both initialised or both not, answer every
sequence of `roll()` and `roll_back()` calls alike: all calls return, with the same values
and the same `get_pos()` after each call. -/
theorem SeedNtHash.mirrors_NtHash (L : LowLevel) (M : SeedLowLevel) (hC : InitContract L)
    (hF : SameFailures L M) (cs : List Call) :
    ∀ (sn : SeedNtHash) (s : NtHash), sn.sameCursorAs s → s.seq_len < 2 ^ 64 →
      s.pos < 2 ^ 64 → s.k < 2 ^ 16 →
      ∃ tr, SeedNtHash.trace L M cs sn = some tr ∧ NtHash.trace L cs s = some tr ∧
        tr.length = cs.length := by
  induction cs with
  | nil => intro sn s _ _ _ _; exact ⟨[], rfl, rfl, rfl⟩
  | cons c cs ih =>
    intro sn s hR hlen hpos hk16
    obtain ⟨b, t, ht, h1, h2, h3⟩ := NtHash.call_returns L hC c s hlen hpos hk16
    rcases SeedNtHash.call_sim L M hF c sn s hR with ⟨_, e2⟩ | ⟨b2, tn, t2, e1, e2, hR2⟩
    · rw [ht] at e2; cases e2
    · rw [ht] at e2
      simp only [Option.some.injEq, Prod.mk.injEq] at e2
      obtain ⟨eb, et⟩ := e2
      subst eb et
      obtain ⟨tr, q1, q2, q3⟩ := ih tn t hR2 (by omega) h3 (by omega)
      refine ⟨(b, t.get_pos) :: tr, ?_, ?_, by simp [q3]⟩
      · simp only [SeedNtHash.trace, e1, q1, Option.map_some']
        have : tn.get_pos = t.get_pos := hR2.2.2.2.1
        rw [this]
      · simp only [NtHash.trace, ht, q2, Option.map_some']

/-- Witness for C27: a `SeedNtHash` with the mask `101` and an `NtHash` with two hashes, both
over the buffer `NACGTA` with `k = 3`; two calls of `roll()` and one of `roll_back()`. -/
theorem SeedNtHash.mirrors_NtHash_witness :
    SameFailures toyLowLevel toySeedLowLevel ∧
    SeedNtHash.newStrMasks "NACGTA".toList ["101".toList] 1 3 0 =
      Except.ok (SeedNtHash.fresh "NACGTA".toList ["101".toList] 1 3 0, []) ∧
    NtHash.newStr "NACGTA".toList 2 3 0 = Except.ok (NtHash.fresh "NACGTA".toList 2 3 0, []) ∧
    NtHash.trace toyLowLevel [Call.roll, Call.roll, Call.roll_back]
      (NtHash.fresh "NACGTA".toList 2 3 0) = some [(true, 1), (true, 2), (true, 1)] ∧
    ∃ tr, SeedNtHash.trace toyLowLevel toySeedLowLevel [Call.roll, Call.roll, Call.roll_back]
        (SeedNtHash.fresh "NACGTA".toList ["101".toList] 1 3 0) = some tr ∧
      NtHash.trace toyLowLevel [Call.roll, Call.roll, Call.roll_back]
        (NtHash.fresh "NACGTA".toList 2 3 0) = some tr ∧
      tr.length = [Call.roll, Call.roll, Call.roll_back].length :=
  ⟨toy_sameFailures, rfl, rfl, by decide,
    SeedNtHash.mirrors_NtHash toyLowLevel toySeedLowLevel toy_initContract toy_sameFailures
      [Call.roll, Call.roll, Call.roll_back]
      (SeedNtHash.fresh "NACGTA".toList ["101".toList] 1 3 0)
      (NtHash.fresh "NACGTA".toList 2 3 0) ⟨rfl, rfl, rfl, rfl, rfl⟩
      (by decide) (by decide) (by decide)⟩

/-! ## Construction of a `SeedNtHash` -/

/-- What a successful construction from lists of positions leaves in the member `nthash`. -/
theorem SeedNtHash.new_nthash (seq : List Char) (seq_len : Nat) (seeds : List SpacedSeed)
    (h k pos : Nat) (sn : SeedNtHash) (ws : List String)
    (hok : SeedNtHash.new seq seq_len seeds h k pos = Except.ok (sn, ws)) :
    NtHash.new seq seq_len (u32 (sz (seeds.length * h))) k pos = Except.ok (sn.nthash, ws) ∧
      sn.hash_num_per_seed = h := by
  unfold SeedNtHash.new at hok
  cases hres : NtHash.new seq seq_len (u32 (sz (seeds.length * h))) k pos with
  | error m => rw [hres] at hok; simp [bind, Except.bind] at hok
  | ok p =>
    rw [hres] at hok
    simp only [bind, Except.bind, pure, Except.pure, Except.ok.injEq, Prod.mk.injEq] at hok
    obtain ⟨e1, e2⟩ := hok
    subst e1 e2
    exact ⟨rfl, rfl⟩

/-- As long as the product of the number of seeds and `hash_num_per_seed` is below `2 ^ 32`,
the construction of a `SeedNtHash` is fatal exactly when the product exceeds 255 or `k`
exceeds 65535, and a successful one leaves the product in `get_hash_num()`. -/
theorem SeedNtHash.new_without_wrap (seq : List Char) (seq_len : Nat)
    (seeds : List SpacedSeed) (h k pos : Nat) (hsmall : seeds.length * h < 2 ^ 32) :
    ((∃ msg, SeedNtHash.new seq seq_len seeds h k pos = Except.error msg) ↔
      (seeds.length * h > NTHASH_HASH_NUM_MAX ∨ k > NTHASH_K_MAX)) ∧
    ∀ sn ws, SeedNtHash.new seq seq_len seeds h k pos = Except.ok (sn, ws) →
      sn.get_hash_num = seeds.length * h ∧ sn.get_hash_num_per_seed = h := by
  have e : u32 (sz (seeds.length * h)) = seeds.length * h := by unfold u32 sz; omega
  constructor
  · cases hres : SeedNtHash.new seq seq_len seeds h k pos with
    | error m =>
      refine ⟨fun _ => ?_, fun _ => ⟨m, rfl⟩⟩
      by_contra hcon
      have h1 : ¬ k > NTHASH_K_MAX := fun hh => hcon (Or.inr hh)
      have h2 : ¬ seeds.length * h > NTHASH_HASH_NUM_MAX := fun hh => hcon (Or.inl hh)
      simp [SeedNtHash.new, NtHash.new, check_error, e, h1, h2, bind, Except.bind, pure,
        Except.pure] at hres
    | ok p =>
      obtain ⟨sn, ws⟩ := p
      obtain ⟨hn, _⟩ := SeedNtHash.new_nthash seq seq_len seeds h k pos sn ws hres
      rw [e] at hn
      obtain ⟨b1, b2, _⟩ := NtHash.new_ok seq seq_len (seeds.length * h) k pos sn.nthash ws hn
      constructor
      · intro hex; obtain ⟨msg, hm⟩ := hex; cases hm
      · intro hor
        rcases hor with hh | hh
        · omega
        · omega
  · intro sn ws hok
    obtain ⟨hn, hh⟩ := SeedNtHash.new_nthash seq seq_len seeds h k pos sn ws hok
    rw [e] at hn
    obtain ⟨_, _, hs⟩ := NtHash.new_ok seq seq_len (seeds.length * h) k pos sn.nthash ws hn
    refine ⟨?_, hh⟩
    show sn.nthash.hash_num = seeds.length * h
    rw [hs]

/-- A `SeedNtHash` and an `NtHash` constructed over the same buffer with the same `k` and
start position stand at the same cursor. -/
theorem SeedNtHash.new_sameCursorAs (seq : List Char) (seq_len : Nat)
    (seeds : List SpacedSeed) (h hash_num k pos : Nat) (sn : SeedNtHash) (s : NtHash)
    (ws1 ws2 : List String)
    (h1 : SeedNtHash.new seq seq_len seeds h k pos = Except.ok (sn, ws1))
    (h2 : NtHash.new seq seq_len hash_num k pos = Except.ok (s, ws2)) :
    sn.sameCursorAs s ∧ s.k < 2 ^ 16 := by
  obtain ⟨hn, _⟩ := SeedNtHash.new_nthash seq seq_len seeds h k pos sn ws1 h1
  obtain ⟨_, _, e1⟩ := NtHash.new_ok seq seq_len _ k pos sn.nthash ws1 hn
  obtain ⟨b1, _, e2⟩ := NtHash.new_ok seq seq_len hash_num k pos s ws2 h2
  unfold NTHASH_K_MAX at b1
  refine ⟨?_, by rw [e2]; show k < 2 ^ 16; omega⟩
  unfold SeedNtHash.sameCursorAs
  rw [e1, e2]
  exact ⟨rfl, rfl, rfl, rfl, rfl⟩

/-! ## The direction flag of a `SeedNtHash` -/

theorem SeedNtHash.init_loop_acc (M : SeedLowLevel) :
    ∀ (fuel : Nat) (s t : SeedNtHash), SeedNtHash.init_loop M fuel s = some t →
      t.nthash.forward_hash = s.nthash.forward_hash ∧
        t.nthash.reverse_hash = s.nthash.reverse_hash := by
  intro fuel
  induction fuel with
  | zero => intro s t h; simp [SeedNtHash.init_loop] at h
  | succ n ih =>
    intro s t h
    simp only [SeedNtHash.init_loop] at h
    by_cases hlt : s.nthash.pos < sz (szSub s.nthash.seq_len s.nthash.k + 1)
    · simp only [hlt, if_true] at h
      cases hres : M.ntmsm64_init (window s.nthash.seq s.nthash.pos s.nthash.k) s.blocks
          s.monomers s.nthash.k s.blocks.length s.hash_num_per_seed with
      | ok a b c d hs =>
        rw [hres] at h
        simp only [Option.some.injEq] at h
        subst h
        exact ⟨rfl, rfl⟩
      | invalid posN a b c d =>
        rw [hres] at h
        dsimp only at h
        have hf := ih _ t h
        dsimp only [SeedNtHash.setPos, SeedNtHash.setArrays] at hf
        exact hf
    · simp only [hlt, if_false, Option.some.injEq] at h
      subst h
      exact ⟨rfl, rfl⟩

theorem SeedNtHash.init_acc (M : SeedLowLevel) (s t : SeedNtHash) (b : Bool)
    (h : SeedNtHash.init M s = some (b, t)) :
    t.nthash.forward_hash = s.nthash.forward_hash ∧
      t.nthash.reverse_hash = s.nthash.reverse_hash := by
  unfold SeedNtHash.init at h
  by_cases hk : s.nthash.k > s.nthash.seq_len
  · simp only [hk, if_true, Option.some.injEq, Prod.mk.injEq] at h
    rw [← h.2]
    exact ⟨rfl, rfl⟩
  · simp only [hk, if_false] at h
    cases hl : SeedNtHash.init_loop M (s.nthash.seq_len + 2) s with
    | none => rw [hl] at h; cases h
    | some u =>
      rw [hl] at h
      have hu := SeedNtHash.init_loop_acc M _ s u hl
      by_cases hgt : u.nthash.pos > szSub u.nthash.seq_len u.nthash.k
      · simp only [hgt, if_true, Option.some.injEq, Prod.mk.injEq] at h
        rw [← h.2]
        exact hu
      · simp only [hgt, if_false, Option.some.injEq, Prod.mk.injEq] at h
        rw [← h.2]
        exact hu

theorem SeedNtHash.setPos_acc (s : SeedNtHash) (p : Nat) :
    (s.setPos p).nthash.forward_hash = s.nthash.forward_hash ∧
      (s.setPos p).nthash.reverse_hash = s.nthash.reverse_hash := ⟨rfl, rfl⟩

theorem SeedNtHash.shifted_acc (s : SeedNtHash) (r : SeedShift) :
    (s.shifted r).nthash.forward_hash = s.nthash.forward_hash ∧
      (s.shifted r).nthash.reverse_hash = s.nthash.reverse_hash := ⟨rfl, rfl⟩

theorem SeedNtHash.setHashes_acc (s : SeedNtHash) (hs : List Nat) :
    (s.setHashes hs).nthash.forward_hash = s.nthash.forward_hash ∧
      (s.setHashes hs).nthash.reverse_hash = s.nthash.reverse_hash := ⟨rfl, rfl⟩

/-- No call of `roll`, `roll_back` or a peek writes the two accumulators of the member
`nthash`, and `change_seq` sets them to 0. -/
theorem SeedNtHash.op_acc (L : LowLevel) (M : SeedLowLevel) (o : SeedOp) (s t : SeedNtHash)
    (h : SeedNtHash.op L M o s = some t)
    (h0 : s.nthash.forward_hash = 0 ∧ s.nthash.reverse_hash = 0) :
    t.nthash.forward_hash = 0 ∧ t.nthash.reverse_hash = 0 := by
  have key : ∀ r : Option (Bool × SeedNtHash),
      (∀ b u, r = some (b, u) → u.nthash.forward_hash = s.nthash.forward_hash ∧
        u.nthash.reverse_hash = s.nthash.reverse_hash) →
      r.map (fun r => r.2) = some t →
      t.nthash.forward_hash = 0 ∧ t.nthash.reverse_hash = 0 := by
    intro r hr hm
    cases r with
    | none => cases hm
    | some p =>
      simp only [Option.map_some', Option.some.injEq] at hm
      have := hr p.1 p.2 rfl
      rw [hm] at this
      rw [this.1, this.2]
      exact h0
  have hinit := SeedNtHash.init_acc M
  cases o with
  | roll =>
    refine key _ ?_ h
    intro b u hu
    unfold SeedNtHash.roll at hu
    split_ifs at hu
    · exact hinit s u b hu
    · simp only [Option.some.injEq, Prod.mk.injEq] at hu
      rw [← hu.2]
      exact ⟨rfl, rfl⟩
    · have hf := hinit _ u b hu
      rw [(SeedNtHash.setPos_acc s _).1, (SeedNtHash.setPos_acc s _).2] at hf
      exact hf
    · simp only [Option.some.injEq, Prod.mk.injEq] at hu
      rw [← hu.2, (SeedNtHash.setPos_acc _ _).1, (SeedNtHash.setPos_acc _ _).2]
      exact SeedNtHash.shifted_acc s _
  | roll_back =>
    refine key _ ?_ h
    intro b u hu
    unfold SeedNtHash.roll_back at hu
    split_ifs at hu
    · exact hinit s u b hu
    · simp only [Option.some.injEq, Prod.mk.injEq] at hu
      rw [← hu.2]
      exact ⟨rfl, rfl⟩
    · have hf := hinit _ u b hu
      rw [(SeedNtHash.setPos_acc s _).1, (SeedNtHash.setPos_acc s _).2] at hf
      exact hf
    · simp only [Option.some.injEq, Prod.mk.injEq] at hu
      rw [← hu.2, (SeedNtHash.setPos_acc _ _).1, (SeedNtHash.setPos_acc _ _).2]
      exact SeedNtHash.shifted_acc s _
  | peek =>
    refine key _ ?_ h
    intro b u hu
    unfold SeedNtHash.peek at hu
    split_ifs at hu
    · exact hinit s u b hu
    · simp only [Option.some.injEq, Prod.mk.injEq] at hu
      rw [← hu.2]
      exact SeedNtHash.setHashes_acc s _
  | peek_back =>
    refine key _ ?_ h
    intro b u hu
    unfold SeedNtHash.peek_back at hu
    split_ifs at hu
    · exact hinit s u b hu
    · simp only [Option.some.injEq, Prod.mk.injEq] at hu
      rw [← hu.2]
      exact SeedNtHash.setHashes_acc s _
  | peek_char c =>
    refine key _ ?_ h
    intro b u hu
    unfold SeedNtHash.peek_char at hu
    split_ifs at hu
    · exact hinit s u b hu
    · simp only [Option.some.injEq, Prod.mk.injEq] at hu
      rw [← hu.2]
      exact SeedNtHash.setHashes_acc s _
  | peek_back_char c =>
    refine key _ ?_ h
    intro b u hu
    unfold SeedNtHash.peek_back_char at hu
    split_ifs at hu
    · exact hinit s u b hu
    · simp only [Option.some.injEq, Prod.mk.injEq] at hu
      rw [← hu.2]
      exact SeedNtHash.setHashes_acc s _
  | change_seq seq pos =>
    simp only [SeedNtHash.op, Option.some.injEq] at h
    rw [← h]
    exact ⟨rfl, rfl⟩

theorem SeedNtHash.ops_acc (L : LowLevel) (M : SeedLowLevel) :
    ∀ (os : List SeedOp) (s t : SeedNtHash), SeedNtHash.ops L M os s = some t →
      s.nthash.forward_hash = 0 ∧ s.nthash.reverse_hash = 0 →
      t.nthash.forward_hash = 0 ∧ t.nthash.reverse_hash = 0 := by
  intro os
  induction os with
  | nil =>
    intro s t h h0
    simp only [SeedNtHash.ops, Option.some.injEq] at h
    rw [← h]; exact h0
  | cons o os ih =>
    intro s t h h0
    simp only [SeedNtHash.ops] at h
    cases ho : SeedNtHash.op L M o s with
    | none => rw [ho] at h; cases h
    | some u =>
      rw [ho] at h
      exact ih u t h (SeedNtHash.op_acc L M o s u ho h0)

/-- What a successful construction from mask strings leaves in the member `nthash`. -/
theorem SeedNtHash.newMasks_nthash (seq : List Char) (seq_len : Nat)
    (seeds : List (List Char)) (h k pos : Nat) (sn : SeedNtHash) (ws : List String)
    (hok : SeedNtHash.newMasks seq seq_len seeds h k pos = Except.ok (sn, ws)) :
    NtHash.new seq seq_len (u32 (sz (seeds.length * h))) k pos = Except.ok (sn.nthash, ws) ∧
      sn.hash_num_per_seed = h := by
  unfold SeedNtHash.newMasks at hok
  cases hres : NtHash.new seq seq_len (u32 (sz (seeds.length * h))) k pos with
  | error m => rw [hres] at hok; simp [bind, Except.bind] at hok
  | ok p =>
    rw [hres] at hok
    simp only [bind, Except.bind, pure, Except.pure, Except.ok.injEq, Prod.mk.injEq] at hok
    obtain ⟨e1, e2⟩ := hok
    subst e1 e2
    exact ⟨rfl, rfl⟩

/-- Claim C31: in every state that a `SeedNtHash` reaches from a successful construction, from
lists of positions or from mask strings, by calls of `roll`, `roll_back`, the four peeks and
`change_seq`, the two accumulators of the member `nthash` are 0 and `forward()` returns
`true`, whatever the per-seed arrays hold. -/
theorem SeedNtHash.forward_always_true (L : LowLevel) (M : SeedLowLevel) (seq : List Char)
    (seq_len : Nat) (seeds : List SpacedSeed) (masks : List (List Char)) (h k pos : Nat)
    (sn : SeedNtHash) (ws : List String)
    (hnew : SeedNtHash.new seq seq_len seeds h k pos = Except.ok (sn, ws) ∨
      SeedNtHash.newMasks seq seq_len masks h k pos = Except.ok (sn, ws))
    (os : List SeedOp) (t : SeedNtHash) (hrun : SeedNtHash.ops L M os sn = some t) :
    t.forward = true ∧ t.nthash.get_forward_hash = 0 ∧ t.nthash.get_reverse_hash = 0 := by
  have h0 : sn.nthash.forward_hash = 0 ∧ sn.nthash.reverse_hash = 0 := by
    rcases hnew with hn | hn
    · obtain ⟨hn2, _⟩ := SeedNtHash.new_nthash seq seq_len seeds h k pos sn ws hn
      obtain ⟨_, _, e⟩ := NtHash.new_ok seq seq_len _ k pos sn.nthash ws hn2
      rw [e]; exact ⟨rfl, rfl⟩
    · obtain ⟨hn2, _⟩ := SeedNtHash.newMasks_nthash seq seq_len masks h k pos sn ws hn
      obtain ⟨_, _, e⟩ := NtHash.new_ok seq seq_len _ k pos sn.nthash ws hn2
      rw [e]; exact ⟨rfl, rfl⟩
  obtain ⟨e1, e2⟩ := SeedNtHash.ops_acc L M os sn t hrun h0
  refine ⟨?_, e1, e2⟩
  simp [SeedNtHash.forward, NtHash.forward, e1, e2]

/-- Witness for C31: a `SeedNtHash` over `ACGTA` with the mask `101`; after two calls of
`roll()` and a peek the per-seed forward value exceeds the per-seed reverse value, and
`forward()` still returns `true`. -/
theorem SeedNtHash.forward_always_true_witness :
    ∃ t, SeedNtHash.ops toyLowLevel toySeedLowLevel
        [SeedOp.roll, SeedOp.roll, SeedOp.peek_char 'C']
        (SeedNtHash.fresh "ACGTA".toList ["101".toList] 1 3 0) = some t ∧
      t.get_forward_hash = [10] ∧ t.get_reverse_hash = [5] ∧
      (t.forward = true ∧ t.nthash.get_forward_hash = 0 ∧ t.nthash.get_reverse_hash = 0) :=
  ⟨_, rfl, rfl, rfl,
    SeedNtHash.forward_always_true toyLowLevel toySeedLowLevel "ACGTA".toList 5 []
      ["101".toList] 1 3 0 (SeedNtHash.fresh "ACGTA".toList ["101".toList] 1 3 0) []
      (Or.inr rfl) [SeedOp.roll, SeedOp.roll, SeedOp.peek_char 'C'] _ rfl⟩

/-! ## `util.cpp`: the searches -/

theorem isPrefixOf_iff (d l : List Char) : d.isPrefixOf l = true ↔ ∃ t, d ++ t = l := by
  rw [ List.isPrefixOf_iff_prefix]
  rfl

theorem findIn_ge (d : List Char) :
    ∀ (l : List Char) (p q : Nat), findIn d l p = some q → p ≤ q := by
  intro l
  induction l with
  | nil =>
    intro p q h
    simp only [findIn] at h
    split_ifs at h
    simp only [Option.some.injEq] at h
    omega
  | cons c cs ih =>
    intro p q h
    simp only [findIn] at h
    split_ifs at h
    · simp only [Option.some.injEq] at h; omega
    · have := ih (p + 1) q h; omega

theorem str_find_zero (s d : List Char) :
    str_find s d 0 = some 0 ↔ ∃ t, d ++ t = s := by
  rw [← isPrefixOf_iff]
  unfold str_find
  simp only [Nat.not_lt_zero, if_false, List.drop_zero, gt_iff_lt]
  cases s with
  | nil =>
    simp only [findIn]
    split_ifs with h
    · simp [h]
    · simp [h]
  | cons c cs =>
    simp only [findIn]
    split_ifs with h
    · simp [h]
    · constructor
      · intro hf
        have := findIn_ge d cs 1 0 hf
        omega
      · intro hp
        exact absurd hp h

theorem rfindBelow_lt (s d : List Char) :
    ∀ (n q : Nat), rfindBelow s d n = some q → q < n := by
  intro n
  induction n with
  | zero => intro q h; simp [rfindBelow] at h
  | succ n ih =>
    intro q h
    simp only [rfindBelow] at h
    split_ifs at h
    · simp only [Option.some.injEq] at h; omega
    · have := ih q h; omega

/-- A list that is a prefix of a list of its own length is that list. -/
theorem isPrefixOf_same_length (d l : List Char) (hl : l.length = d.length) :
    d.isPrefixOf l = true ↔ l = d := by
  rw [isPrefixOf_iff]
  constructor
  · rintro ⟨t, ht⟩
    have hlen : (d ++ t).length = l.length := by rw [ht]
    rw [List.length_append] at hlen
    have : t = [] := List.length_eq_zero.mp (by omega)
    rw [this, List.append_nil] at ht
    exact ht.symm
  · intro h
    exact ⟨[], by rw [h, List.append_nil]⟩

theorem suffix_iff_drop (s d : List Char) (hd : d.length ≤ s.length) :
    (∃ t, t ++ d = s) ↔ s.drop (s.length - d.length) = d := by
  constructor
  · rintro ⟨t, ht⟩
    have hlen : (t ++ d).length = s.length := by rw [ht]
    rw [List.length_append] at hlen
    rw [← ht, show (t ++ d).length - d.length = t.length by rw [List.length_append]; omega]
    exact List.drop_left' rfl
  · intro h
    refine ⟨s.take (s.length - d.length), ?_⟩
    have := List.take_append_drop (s.length - d.length) s
    rw [h] at this
    exact this

/-! ## `util.cpp`: `startswith` and `endswith` -/

/-- Claim C33: `startswith(s, x)` is `true` exactly when the lower-cased `x` is a prefix of the
lower-cased `s`, and `endswith(s, x)` exactly when it is a suffix; an empty `x` gives `true`
and an `x` longer than `s` gives `false`. -/
theorem startswith_endswith_exact (s x : List Char) (hlen : s.length < 2 ^ 64) :
    (startswith s x = true ↔ ∃ t, x.map tolower ++ t = s.map tolower) ∧
    (endswith s x = true ↔ ∃ t, t ++ x.map tolower = s.map tolower) ∧
    (x = [] → startswith s x = true ∧ endswith s x = true) ∧
    (s.length < x.length → startswith s x = false ∧ endswith s x = false) := by
  have hstart : startswith s x = true ↔ ∃ t, x.map tolower ++ t = s.map tolower := by
    unfold startswith
    rw [decide_eq_true_iff]
    exact str_find_zero _ _
  have hend : endswith s x = true ↔ ∃ t, t ++ x.map tolower = s.map tolower := by
    unfold endswith str_rfind
    by_cases hlong : (x.map tolower).length > (s.map tolower).length
    · simp only [hlong, if_true]
      constructor
      · intro h; cases h
      · rintro ⟨t, ht⟩
        have hl : (t ++ x.map tolower).length = (s.map tolower).length := by rw [ht]
        rw [List.length_append] at hl
        omega
    · simp only [hlong, if_false]
      have hle : (x.map tolower).length ≤ (s.map tolower).length := by omega
      have hs64 : (s.map tolower).length < 2 ^ 64 := by rw [List.length_map]; exact hlen
      have hsub : szSub (s.map tolower).length (x.map tolower).length =
          (s.map tolower).length - (x.map tolower).length := szSub_of_le hle hs64
      rw [suffix_iff_drop _ _ hle]
      rw [← isPrefixOf_same_length _ _ (by rw [List.length_drop]; omega)]
      simp only [rfindBelow]
      split_ifs with hp
      · simp only [hsub, decide_True, true_iff]
        exact hp
      · constructor
        · intro h
          cases hr : rfindBelow (s.map tolower) (x.map tolower)
              ((s.map tolower).length - (x.map tolower).length) with
          | none => rw [hr] at h; cases h
          | some q =>
            rw [hr] at h
            have := rfindBelow_lt _ _ _ q hr
            simp only [hsub, decide_eq_true_eq] at h
            omega
        · intro h; exact absurd h hp
  refine ⟨hstart, hend, ?_, ?_⟩
  · intro hx
    subst hx
    exact ⟨hstart.mpr ⟨s.map tolower, rfl⟩, hend.mpr ⟨s.map tolower, by simp⟩⟩
  · intro hlt
    constructor
    · rw [← Bool.not_eq_true, hstart]
      rintro ⟨t, ht⟩
      have hl : (x.map tolower ++ t).length = (s.map tolower).length := by rw [ht]
      simp only [List.length_append, List.length_map] at hl
      omega
    · rw [← Bool.not_eq_true, hend]
      rintro ⟨t, ht⟩
      have hl : (t ++ x.map tolower).length = (s.map tolower).length := by rw [ht]
      simp only [List.length_append, List.length_map] at hl
      omega

/-- Witness for C33: the string `Hello.TXT` against the affixes `heL` and `.txt`. -/
theorem startswith_endswith_exact_witness :
    startswith "Hello.TXT".toList "heL".toList = true ∧
    endswith "Hello.TXT".toList ".txt".toList = true ∧
    endswith "Hello.TXT".toList "heL".toList = false ∧
    ((startswith "Hello.TXT".toList "heL".toList = true ↔
        ∃ t, "heL".toList.map tolower ++ t = "Hello.TXT".toList.map tolower) ∧
      (endswith "Hello.TXT".toList "heL".toList = true ↔
        ∃ t, t ++ "heL".toList.map tolower = "Hello.TXT".toList.map tolower) ∧
      ("heL".toList = [] →
        startswith "Hello.TXT".toList "heL".toList = true ∧
          endswith "Hello.TXT".toList "heL".toList = true) ∧
      ("Hello.TXT".toList.length < "heL".toList.length →
        startswith "Hello.TXT".toList "heL".toList = false ∧
          endswith "Hello.TXT".toList "heL".toList = false)) :=
  ⟨by decide, by decide, by decide,
    startswith_endswith_exact "Hello.TXT".toList "heL".toList (by decide)⟩

/-! ## `util.cpp`: `split` and `join` -/

theorem findIn_some (d : List Char) :
    ∀ (l : List Char) (p q : Nat), findIn d l p = some q →
      ∃ a b, l = a ++ d ++ b ∧ q = p + a.length ∧
        ∀ a2 b2, l = a2 ++ d ++ b2 → a.length ≤ a2.length := by
  intro l
  induction l with
  | nil =>
    intro p q h
    simp only [findIn] at h
    split_ifs at h with hp
    simp only [Option.some.injEq] at h
    obtain ⟨t, ht⟩ := (isPrefixOf_iff d []).mp hp
    exact ⟨[], t, by simpa using ht.symm, by simpa using h.symm, fun _ _ _ => Nat.zero_le _⟩
  | cons c cs ih =>
    intro p q h
    simp only [findIn] at h
    split_ifs at h with hp
    · simp only [Option.some.injEq] at h
      obtain ⟨t, ht⟩ := (isPrefixOf_iff d (c :: cs)).mp hp
      exact ⟨[], t, by simpa using ht.symm, by simpa using h.symm, fun _ _ _ => Nat.zero_le _⟩
    · obtain ⟨a, b, e1, e2, e3⟩ := ih (p + 1) q h
      refine ⟨c :: a, b, by rw [e1]; rfl, by rw [e2, List.length_cons]; omega, ?_⟩
      intro a2 b2 e
      cases a2 with
      | nil =>
        exfalso
        apply hp
        rw [isPrefixOf_iff]
        exact ⟨b2, by simpa using e.symm⟩
      | cons c2 a3 =>
        simp only [List.cons_append, List.cons.injEq] at e
        have := e3 a3 b2 e.2
        simp only [List.length_cons]
        omega

theorem findIn_none (d : List Char) :
    ∀ (l : List Char) (p : Nat), findIn d l p = none → ∀ a b, l ≠ a ++ d ++ b := by
  intro l
  induction l with
  | nil =>
    intro p h a b e
    simp only [findIn] at h
    split_ifs at h with hp
    apply hp
    rw [isPrefixOf_iff]
    have h1 : a ++ d ++ b = [] := e.symm
    simp only [List.append_eq_nil] at h1
    exact ⟨[], by rw [h1.1.2]; rfl⟩
  | cons c cs ih =>
    intro p h a b e
    simp only [findIn] at h
    split_ifs at h with hp
    cases a with
    | nil =>
      apply hp
      rw [isPrefixOf_iff]
      exact ⟨b, by simpa using e.symm⟩
    | cons c2 a3 =>
      simp only [List.cons_append, List.cons.injEq] at e
      exact ih (p + 1) h a3 b e.2

theorem foldl_join_append (delim : List Char) :
    ∀ (ts : List (List Char)) (x y : List Char),
      ts.foldl (fun joined t => joined ++ delim ++ t) (x ++ y) =
        x ++ ts.foldl (fun joined t => joined ++ delim ++ t) y := by
  intro ts
  induction ts with
  | nil => intro x y; rfl
  | cons t ts ih =>
    intro x y
    simp only [List.foldl_cons]
    rw [List.append_assoc x y delim, List.append_assoc x (y ++ delim) t]
    exact ih x (y ++ delim ++ t)

/-- The loop of `split`, entered with `pos1 = pos2 = p`, returns when it has more rounds than
characters left, and it appends the tokens of the rest of the string. -/
theorem split_loop_spec (s d : List Char) (hd : d ≠ []) (hlen : s.length < 2 ^ 64) :
    ∀ (fuel : Nat) (tokens : List (List Char)) (p : Nat), p ≤ s.length →
      s.length - p < fuel →
      ∃ toks, split_loop s d fuel tokens p p = some (tokens ++ toks) ∧ toks ≠ [] ∧
        (∀ t, t ∈ toks → ∀ a b, t ≠ a ++ d ++ b) ∧ join toks d = some (s.drop p) := by
  have hdl : 0 < d.length := List.length_pos.mpr hd
  intro fuel
  induction fuel with
  | zero => intro _ p _ hf; omega
  | succ n ih =>
    intro tokens p hp hf
    have hp2 : ¬ p > s.length := by omega
    simp only [split_loop, str_find, substr, substr_from, hp2, if_false]
    cases hfind : findIn d (s.drop p) p with
    | none =>
      refine ⟨[s.drop p], rfl, by simp, ?_, rfl⟩
      intro t ht
      simp only [List.mem_singleton] at ht
      rw [ht]
      exact findIn_none d _ p hfind
    | some q =>
      obtain ⟨a, b, e1, e2, e3⟩ := findIn_some d _ p q hfind
      have hl : (s.drop p).length = a.length + d.length + b.length := by
        rw [e1, List.length_append, List.length_append]
      rw [List.length_drop] at hl
      have hsub : szSub q p = a.length := by
        rw [szSub_of_le (by omega) (by omega)]; omega
      have hnew : sz (q + d.length) = q + d.length := sz_of_lt (by omega)
      have htok : List.take a.length (List.drop p s) = a := by
        rw [e1, List.append_assoc]
        exact List.take_left' rfl
      have hrest : s.drop (q + d.length) = b := by
        rw [show q + d.length = p + (a.length + d.length) by omega, ← List.drop_drop, e1]
        exact List.drop_left' (by rw [List.length_append])
      obtain ⟨toks, h1, h2, h3, h4⟩ := ih (tokens ++ [a]) (q + d.length) (by omega) (by omega)
      simp only [hsub, hnew, htok]
      refine ⟨a :: toks, ?_, by simp, ?_, ?_⟩
      · rw [h1, List.append_assoc]; rfl
      · intro t ht
        rcases List.mem_cons.mp ht with h | h
        · intro a1 b1 e
          rw [h] at e
          have := e3 a1 (b1 ++ d ++ b) (by rw [e1, e]; simp [List.append_assoc])
          have hla : a.length = a1.length + d.length + b1.length := by
            rw [e, List.length_append, List.length_append]
          omega
        · exact h3 t h
      · cases toks with
        | nil => exact absurd rfl h2
        | cons t1 ts =>
          simp only [join, Option.some.injEq] at h4 ⊢
          simp only [List.foldl_cons]
          rw [List.append_assoc a d t1, foldl_join_append, foldl_join_append, h4, hrest, e1,
            List.append_assoc]

/-- Claim C32: for every string `s` shorter than `2 ^ 64` and every non-empty delimiter `d`,
`split(s, d)` returns a non-empty list of tokens, none of which contains `d`, and
`join(split(s, d), d)` is `s`. -/
theorem split_then_join (s d : List Char) (hd : d ≠ []) (hlen : s.length < 2 ^ 64) :
    ∃ tokens, split s d = some tokens ∧ tokens ≠ [] ∧
      (∀ t, t ∈ tokens → ¬ ∃ a b, t = a ++ d ++ b) ∧ join tokens d = some s := by
  obtain ⟨toks, h1, h2, h3, h4⟩ :=
    split_loop_spec s d hd hlen (s.length + 2) [] 0 (Nat.zero_le _) (by omega)
  refine ⟨toks, by simpa [split] using h1, h2, ?_, by simpa using h4⟩
  intro t ht hex
  obtain ⟨a, b, e⟩ := hex
  exact h3 t ht a b e

/-- Witness for C32: the string `a,b,,c` split at commas, and `aaa` split at `aa`. -/
theorem split_then_join_witness :
    split "a,b,,c".toList ",".toList = some ["a".toList, "b".toList, [], "c".toList] ∧
    split "aaa".toList "aa".toList = some [[], "a".toList] ∧
    ∃ tokens, split "a,b,,c".toList ",".toList = some tokens ∧ tokens ≠ [] ∧
      (∀ t, t ∈ tokens → ¬ ∃ a b, t = a ++ ",".toList ++ b) ∧
      join tokens ",".toList = some "a,b,,c".toList :=
  ⟨by decide, by decide,
    split_then_join "a,b,,c".toList ",".toList (by decide) (by decide)⟩

/-! ## `util.cpp`: `get_dirname` -/

theorem seqAt_eq_slash (p : List Char) (j : Nat) : seqAt p j = '/' ↔ p[j]? = some '/' := by
  unfold seqAt
  rw [List.getD_eq_getElem?_getD]
  cases h : p[j]? with
  | none => simp [nul]
  | some c => simp

theorem lastBelow_some (s : List Char) (c : Char) :
    ∀ (m l : Nat), lastBelow s c m = some l →
      l < m ∧ s[l]? = some c ∧ ∀ j, l < j → j < m → s[j]? ≠ some c := by
  intro m
  induction m with
  | zero => intro l h; simp [lastBelow] at h
  | succ m ih =>
    intro l h
    simp only [lastBelow] at h
    split_ifs at h with hc
    · simp only [Option.some.injEq] at h
      subst h
      exact ⟨by omega, hc, fun j h1 h2 => by omega⟩
    · obtain ⟨h1, h2, h3⟩ := ih l h
      refine ⟨by omega, h2, ?_⟩
      intro j hj1 hj2
      by_cases hjm : j = m
      · subst hjm; exact hc
      · exact h3 j hj1 (by omega)

theorem lastBelow_eq_none_iff (s : List Char) (c : Char) :
    ∀ (m : Nat), lastBelow s c m = none ↔ ∀ j, j < m → s[j]? ≠ some c := by
  intro m
  induction m with
  | zero => simp [lastBelow]
  | succ m ih =>
    simp only [lastBelow]
    split_ifs with hc
    · simp only [reduceCtorEq, false_iff, not_forall]
      exact ⟨m, by omega, fun h => h hc⟩
    · rw [ih]
      constructor
      · intro h j hj
        by_cases hjm : j = m
        · subst hjm; exact hc
        · exact h j (by omega)
      · intro h j hj
        exact h j (by omega)

theorem lastBelow_congr (s t : List Char) (c : Char) :
    ∀ (m : Nat), (∀ j, j < m → s[j]? = t[j]?) → lastBelow s c m = lastBelow t c m := by
  intro m
  induction m with
  | zero => intro _; rfl
  | succ m ih =>
    intro h
    simp only [lastBelow]
    rw [h m (by omega), ih (fun j hj => h j (by omega))]

theorem back_over_slashes_spec (p : List Char) :
    ∀ (l : Nat), back_over_slashes p l ≤ l ∧
      (∀ j, back_over_slashes p l ≤ j → j < l → seqAt p j = '/') ∧
      (back_over_slashes p l = 0 ∨ seqAt p (back_over_slashes p l - 1) ≠ '/') := by
  intro l
  induction l with
  | zero => exact ⟨Nat.le_refl _, fun j _ h => by omega, Or.inl rfl⟩
  | succ l ih =>
    simp only [back_over_slashes]
    split_ifs with hc
    · exact ⟨Nat.le_refl _, fun j h1 h2 => by omega, Or.inr (by simpa using hc)⟩
    · obtain ⟨h1, h2, h3⟩ := ih
      refine ⟨by omega, ?_, h3⟩
      intro j hj1 hj2
      by_cases hjl : j = l
      · subst hjl; exact not_not.mp hc
      · exact h2 j hj1 (by omega)

theorem back_over_slashes_congr (p q : List Char) :
    ∀ (l : Nat), (∀ j, j < l → seqAt p j = seqAt q j) →
      back_over_slashes p l = back_over_slashes q l := by
  intro l
  induction l with
  | zero => intro _; rfl
  | succ l ih =>
    intro h
    simp only [back_over_slashes]
    rw [h l (by omega), ih (fun j hj => h j (by omega))]

theorem seqAt_append_left (q r : List Char) (j : Nat) (hj : j < q.length) :
    seqAt (q ++ r) j = seqAt q j := by
  unfold seqAt
  rw [List.getD_append _ _ _ _ hj]

theorem withoutTrailingSlashes_eq (p : List Char) :
    withoutTrailingSlashes p = p.take (back_over_slashes p p.length) := by
  induction p using List.reverseRecOn with
  | nil => rfl
  | append_singleton q c ih =>
    have hat : seqAt (q ++ [c]) q.length = c := by
      unfold seqAt
      rw [List.getD_append_right _ _ _ _ (Nat.le_refl _)]
      simp
    have hcongr : back_over_slashes (q ++ [c]) q.length = back_over_slashes q q.length :=
      back_over_slashes_congr _ _ _ (fun j hj => seqAt_append_left q [c] j hj)
    unfold withoutTrailingSlashes at ih ⊢
    rw [List.reverse_append, List.reverse_singleton, List.singleton_append,
      List.length_append, List.length_singleton]
    simp only [back_over_slashes, hat]
    by_cases hc : c = '/'
    · simp only [hc, List.dropWhile_cons, decide_True, if_true, ne_eq, not_true_eq_false,
        if_false]
      rw [ih, ← hc, hcongr, hc]
      exact (List.take_append_of_le_length (back_over_slashes_spec q q.length).1).symm
    · simp only [hc, List.dropWhile_cons, decide_False, ne_eq, not_false_eq_true, if_true]
      simp

theorem mem_take_iff (p : List Char) (e : Nat) (c : Char) :
    c ∈ p.take e ↔ ∃ j, j < e ∧ p[j]? = some c := by
  rw [List.mem_iff_getElem?]
  constructor
  · rintro ⟨j, hj⟩
    rw [List.getElem?_take] at hj
    split_ifs at hj with h
    exact ⟨j, h, hj⟩
  · rintro ⟨j, h, hj⟩
    exact ⟨j, by rw [List.getElem?_take_of_lt h]; exact hj⟩

theorem no_slash_kept_iff (p : List Char) :
    '/' ∉ withoutTrailingSlashes p ↔
      lastBelow p '/' (back_over_slashes p p.length) = none := by
  rw [withoutTrailingSlashes_eq, lastBelow_eq_none_iff, mem_take_iff]
  constructor
  · intro h j hj hpj
    exact h ⟨j, hj, hpj⟩
  · rintro h ⟨j, hj, hpj⟩
    exact h j hj hpj

theorem only_slashes_iff (p : List Char) :
    (p ≠ [] ∧ ∀ c, c ∈ p → c = '/') ↔
      (p.length ≠ 0 ∧ back_over_slashes p p.length = 0) := by
  obtain ⟨h1, h2, h3⟩ := back_over_slashes_spec p p.length
  constructor
  · rintro ⟨hne, hall⟩
    refine ⟨fun h => hne (List.length_eq_zero.mp h), ?_⟩
    rcases h3 with h | h
    · exact h
    · exfalso
      apply h
      have hn : p.length ≠ 0 := fun h0 => hne (List.length_eq_zero.mp h0)
      have hlt : back_over_slashes p p.length - 1 < p.length := by omega
      have hm : seqAt p (back_over_slashes p p.length - 1) ∈ p := by
        unfold seqAt
        rw [List.getD_eq_getElem _ _ hlt]
        exact List.getElem_mem _
      exact hall _ hm
  · rintro ⟨hn, he⟩
    refine ⟨fun h => hn (by rw [h]; rfl), ?_⟩
    intro c hc
    obtain ⟨j, hj⟩ := List.mem_iff_getElem?.mp hc
    have hjl : j < p.length := by
      by_contra hcon
      rw [List.getElem?_eq_none (by omega)] at hj
      cases hj
    have := h2 j (by omega) hjl
    rw [seqAt_eq_slash, hj] at this
    simp only [Option.some.injEq] at this
    exact this

theorem noDirectoryPart_iff (p : List Char) :
    noDirectoryPart p ↔
      (lastBelow p '/' (back_over_slashes p p.length) = none ∧
        ¬ (p.length ≠ 0 ∧ back_over_slashes p p.length = 0)) := by
  unfold noDirectoryPart
  rw [no_slash_kept_iff, only_slashes_iff]

theorem dirname_slash_pos_some (p : List Char) (l : Nat)
    (h : dirname_slash_pos p = some l) : l < p.length ∧ seqAt p l = '/' := by
  unfold dirname_slash_pos str_find_last_of at h
  cases hfl : lastBelow p '/' p.length with
  | none => rw [hfl] at h; cases h
  | some l0 =>
    rw [hfl] at h
    obtain ⟨a1, a2, _⟩ := lastBelow_some p '/' p.length l0 hfl
    have hbase : l0 < p.length ∧ seqAt p l0 = '/' := ⟨a1, (seqAt_eq_slash p l0).mpr a2⟩
    simp only at h
    split_ifs at h with hc hi
    · obtain ⟨b1, b2, _⟩ := lastBelow_some _ '/' _ l h
      have hle := (back_over_slashes_spec p l0).1
      rw [List.length_take] at b1
      rw [List.getElem?_take_of_lt (by omega)] at b2
      exact ⟨by omega, (seqAt_eq_slash p l).mpr b2⟩
    · simp only [Option.some.injEq] at h; subst h; exact hbase
    · simp only [Option.some.injEq] at h; subst h; exact hbase

theorem dirname_slash_pos_none_iff (p : List Char) (hlen : p.length < 2 ^ 64) :
    dirname_slash_pos p = none ↔ noDirectoryPart p := by
  rw [noDirectoryPart_iff]
  unfold dirname_slash_pos str_find_last_of
  obtain ⟨e1, e2, e3⟩ := back_over_slashes_spec p p.length
  cases hfl : lastBelow p '/' p.length with
  | none =>
    simp only [true_iff]
    have hno := (lastBelow_eq_none_iff p '/' p.length).mp hfl
    refine ⟨(lastBelow_eq_none_iff p '/' _).mpr (fun j hj => hno j (by omega)), ?_⟩
    rintro ⟨hn, he⟩
    have := e2 0 (by omega) (by omega)
    rw [seqAt_eq_slash] at this
    exact hno 0 (by omega) this
  | some l0 =>
    obtain ⟨a1, a2, a3⟩ := lastBelow_some p '/' p.length l0 hfl
    obtain ⟨m, hm⟩ : ∃ m, p.length = m + 1 := ⟨p.length - 1, by omega⟩
    have hsub : szSub p.length 1 = m := by
      rw [szSub_of_le (by omega) hlen]; omega
    have hback : back_over_slashes p p.length =
        if seqAt p m ≠ '/' then m + 1 else back_over_slashes p m := by
      rw [hm]; rfl
    simp only [hsub]
    by_cases hlast : l0 = m
    · subst hlast
      have hsl : seqAt p l0 = '/' := (seqAt_eq_slash p l0).mpr a2
      have he : back_over_slashes p p.length = back_over_slashes p l0 := by
        rw [hback]; simp [hsl]
      by_cases hz : l0 = 0
      · subst hz
        have h0 : back_over_slashes p p.length = 0 := by rw [he]; rfl
        simp only [ne_eq, not_true_eq_false, false_and, if_false, reduceCtorEq, false_iff,
          not_and, not_not]
        intro _ hcon
        exact hcon (by omega) h0
      · simp only [ne_eq, hz, not_false_eq_true, and_self, if_true]
        rw [← he]
        by_cases hi : back_over_slashes p p.length = 0
        · simp only [hi, ne_eq, not_true_eq_false, if_false, reduceCtorEq, false_iff,
            not_and, not_not]
          intro _ hcon
          exact hcon (by omega)
        · have hcg : lastBelow (List.take (back_over_slashes p p.length) p) '/'
              (List.take (back_over_slashes p p.length) p).length =
              lastBelow p '/' (back_over_slashes p p.length) := by
            rw [List.length_take, Nat.min_eq_left e1]
            exact lastBelow_congr _ _ _ _ (fun j hj => List.getElem?_take_of_lt hj)
          simp only [hi, ne_eq, not_false_eq_true, if_true, hcg, and_false, and_true]
    · have hlt : l0 < m := by omega
      have hns : seqAt p m ≠ '/' := by
        rw [Ne, seqAt_eq_slash]
        exact a3 m hlt (by omega)
      have he : back_over_slashes p p.length = p.length := by
        rw [hback, hm]; simp [hns]
      have hcond : ¬ (l0 ≠ 0 ∧ l0 = m) := fun h => hlast h.2
      simp only [hcond, if_false, reduceCtorEq, false_iff, not_and, not_not]
      intro hnone
      rw [he, hfl] at hnone
      cases hnone

theorem resize_of_le (p : List Char) (m : Nat) (h : m ≤ p.length) :
    resize p m = p.take m := by
  unfold resize
  rw [Nat.sub_eq_zero_of_le h]
  simp

/-- When the first `if` statement of `get_dirname` leaves a position in `last_slash_pos`, the
result is a non-empty prefix of the path that consists of slashes only or ends with another
character. -/
theorem get_dirname_of_some (p : List Char) (l : Nat)
    (h : dirname_slash_pos p = some l) :
    ∃ m, 1 ≤ m ∧ m ≤ p.length ∧ get_dirname p = p.take m ∧
      ((∀ j, j < m → seqAt p j = '/') ∨ seqAt p (m - 1) ≠ '/') := by
  obtain ⟨hl, hsl⟩ := dirname_slash_pos_some p l h
  obtain ⟨b1, b2, b3⟩ := back_over_slashes_spec p l
  unfold get_dirname
  rw [h]
  simp only
  by_cases hi : back_over_slashes p l = 0
  · simp only [hi, if_true]
    rw [hi] at b2
    by_cases h1 : l = 1
    · subst h1
      have hs2 : sz (1 + 1) = 2 := by decide
      simp only [if_true, hs2]
      refine ⟨2, by omega, by omega, resize_of_le p 2 (by omega), Or.inl ?_⟩
      intro j hj
      by_cases hj0 : j = 0
      · subst hj0; exact b2 0 (by omega) (by omega)
      · have : j = 1 := by omega
        subst this; exact hsl
    · simp only [h1, if_false]
      refine ⟨1, by omega, by omega, resize_of_le p 1 (by omega), Or.inl ?_⟩
      intro j hj
      have hj0 : j = 0 := by omega
      subst hj0
      by_cases hl0 : l = 0
      · subst hl0; exact hsl
      · exact b2 0 (by omega) (by omega)
  · simp only [hi, if_false]
    refine ⟨back_over_slashes p l, by omega, by omega, resize_of_le p _ (by omega), Or.inr ?_⟩
    rcases b3 with h0 | h0
    · exact absurd h0 hi
    · exact h0

/-- Counterexample to C34: the path `./a` contains a slash that is not a trailing one, and
`get_dirname` returns its prefix `.`, which is the string `"."`. -/
theorem get_dirname_dot_with_directory_part :
    get_dirname "./a".toList = ".".toList ∧
    '/' ∈ withoutTrailingSlashes "./a".toList ∧ ¬ noDirectoryPart "./a".toList := by
  refine ⟨by decide, by decide, by decide⟩

/-- Claim C34, amended: for every path `p`, `get_dirname(p)` is `"."` or a non-empty prefix of
`p`; it is `"."` whenever `p` contains no `'/'` once its trailing slashes are ignored and is
not a non-empty string of slashes only, and otherwise it is a non-empty prefix of `p`; and
when it ends with `'/'` it consists of `'/'` characters only. -/
theorem get_dirname_spec (p : List Char) (hlen : p.length < 2 ^ 64) :
    (get_dirname p = ".".toList ∨ (get_dirname p ≠ [] ∧ ∃ t, get_dirname p ++ t = p)) ∧
    (noDirectoryPart p → get_dirname p = ".".toList) ∧
    (¬ noDirectoryPart p → get_dirname p ≠ [] ∧ ∃ t, get_dirname p ++ t = p) ∧
    ((∃ r, get_dirname p = r ++ ['/']) → ∀ c, c ∈ get_dirname p → c = '/') := by
  cases hD : dirname_slash_pos p with
  | none =>
    have hnd : noDirectoryPart p := (dirname_slash_pos_none_iff p hlen).mp hD
    have hg : get_dirname p = ".".toList := by
      unfold get_dirname
      rw [hD]
    refine ⟨Or.inl hg, fun _ => hg, fun h => absurd hnd h, ?_⟩
    rintro ⟨r, hr⟩
    rw [hg] at hr
    have h2 := congrArg List.getLast? hr
    simp at h2
  | some l =>
    have hnd : ¬ noDirectoryPart p := by
      intro hcon
      rw [← dirname_slash_pos_none_iff p hlen, hD] at hcon
      cases hcon
    obtain ⟨m, h1, h2, hg, h3⟩ := get_dirname_of_some p l hD
    have hne : get_dirname p ≠ [] := by
      rw [hg]
      intro hcon
      have := congrArg List.length hcon
      rw [List.length_take] at this
      simp only [List.length_nil] at this
      omega
    have hpre : ∃ t, get_dirname p ++ t = p :=
      ⟨p.drop m, by rw [hg]; exact List.take_append_drop m p⟩
    refine ⟨Or.inr ⟨hne, hpre⟩, fun h => absurd h hnd, fun _ => ⟨hne, hpre⟩, ?_⟩
    rintro ⟨r, hr⟩ c hc
    rcases h3 with hall | hlast
    · rw [hg] at hc
      obtain ⟨j, hj, hpj⟩ := (mem_take_iff p m c).mp hc
      have := hall j hj
      rw [seqAt_eq_slash, hpj] at this
      simp only [Option.some.injEq] at this
      exact this
    · exfalso
      apply hlast
      rw [hg] at hr
      have hl2 := congrArg List.length hr
      rw [List.length_take, List.length_append, List.length_singleton,
        Nat.min_eq_left h2] at hl2
      have hat : (p.take m)[m - 1]? = some '/' := by
        rw [hr, List.getElem?_append_right (by omega)]
        rw [show m - 1 - r.length = 0 by omega]
        rfl
      rw [List.getElem?_take_of_lt (by omega)] at hat
      exact (seqAt_eq_slash p (m - 1)).mpr hat

/-- Witness for C34: the path `/usr/lib/`, whose directory part is `/usr`. -/
theorem get_dirname_spec_witness :
    get_dirname "/usr/lib/".toList = "/usr".toList ∧
    ((get_dirname "/usr/lib/".toList = ".".toList ∨
        (get_dirname "/usr/lib/".toList ≠ [] ∧
          ∃ t, get_dirname "/usr/lib/".toList ++ t = "/usr/lib/".toList)) ∧
      (noDirectoryPart "/usr/lib/".toList → get_dirname "/usr/lib/".toList = ".".toList) ∧
      (¬ noDirectoryPart "/usr/lib/".toList →
        get_dirname "/usr/lib/".toList ≠ [] ∧
          ∃ t, get_dirname "/usr/lib/".toList ++ t = "/usr/lib/".toList) ∧
      ((∃ r, get_dirname "/usr/lib/".toList = r ++ ['/']) →
        ∀ c, c ∈ get_dirname "/usr/lib/".toList → c = '/')) :=
  ⟨by decide, get_dirname_spec "/usr/lib/".toList (by decide)⟩

end btllib
